import Mathlib

/-!
# Superpixel helpers of `spDetectMex.cpp`: a shallow embedding

Pixel buffers are column-major arrays, modelled as functions from the flat
index `x * h + y` to the stored value.  Labels and indices are natural
numbers; edge strengths, weights and thresholds are rationals (exact
arithmetic), and the means of `sticky`, which are quotients by counts that
can be zero, are rationals or one of `+inf`, `-inf`, `NaN`.  Code that can
leave its allocated table, or whose `while` loop need not terminate on an
arbitrary table, returns an `Option`.
-/

namespace Edges

/-! ## Loops -/

/-- The loop `for (i = lo; i < lo + n; i++) s = body i s`. -/
def forLoop {σ : Type} (lo : Nat) (body : Nat → σ → σ) : Nat → σ → σ
  | 0, s => s
  | n + 1, s => body (lo + n) (forLoop lo body n s)

/-- The loop `for (i = lo; i < lo + n; i++)` whose body may fail; a failure ends the run. -/
def forLoopM {σ : Type} (lo : Nat) (body : Nat → σ → Option σ) : Nat → σ → Option σ
  | 0, s => some s
  | n + 1, s => (forLoopM lo body n s).bind (body (lo + n))

/-! ## The equivalence table shared by `relabel` and `merge` -/

/-- The loop `while(map[t]) t=map[t];` on a table of `cap` entries.  The result is
`none` when an index leaves the table or when `fuel` reads were not enough. -/
def findRoot (cap : Nat) (map : Nat → Nat) : Nat → Nat → Option Nat
  | 0, _ => none
  | fuel + 1, t =>
    if t < cap then
      if map t = 0 then some t else findRoot cap map fuel (map t)
    else none

/-- The loop `while(map[t1]) { t2=map[t1]; map[t1]=t; t1=t2; } map[t1]=t;` with `rep`
for `t`: every entry on the path from `t1` to its root, the root included, is set to `rep`. -/
def compress (cap rep : Nat) : Nat → (Nat → Nat) → Nat → Option (Nat → Nat)
  | 0, _, _ => none
  | fuel + 1, map, t =>
    if t < cap then
      if map t = 0 then some (Function.update map t rep)
      else compress cap rep fuel (Function.update map t rep) (map t)
    else none

/-! ## `relabel` -/

/-- The locals of `relabel` during the raster scan: provisional ids `T`, the
equivalence table `map` and the next fresh id `m`. -/
structure RelabelState where
  /-- Provisional id of every pixel scanned so far. -/
  T : Nat → Nat
  /-- Equivalence table: `0` for a representative, else a smaller id of the same class. -/
  map : Nat → Nat
  /-- Next id to mint. -/
  m : Nat

/-- First column: `T[y]=(S[y]==S[y-1]) ? T[y-1] : m++`. -/
def relabelFirstCol (S : Nat → Nat) (y : Nat) (st : RelabelState) : RelabelState :=
  if S y = S (y - 1) then { st with T := Function.update st.T y (st.T (y - 1)) }
  else { st with T := Function.update st.T y st.m, m := st.m + 1 }

/-- Top row of a later column: `T[z]=(S[z-h]==S[z]) ? T[z-h] : m++`. -/
def relabelTop (S : Nat → Nat) (h z : Nat) (st : RelabelState) : RelabelState :=
  if S (z - h) = S z then { st with T := Function.update st.T z (st.T (z - h)) }
  else { st with T := Function.update st.T z st.m, m := st.m + 1 }

/-- Assignment of an inner pixel:
`T[z] = S[z-1]==S[z] ? T[z-1] : S[z-h]==S[z] ? T[z-h] : m++`. -/
def relabelAssign (S : Nat → Nat) (h z : Nat) (st : RelabelState) : RelabelState :=
  if S (z - 1) = S z then { st with T := Function.update st.T z (st.T (z - 1)) }
  else if S (z - h) = S z then { st with T := Function.update st.T z (st.T (z - h)) }
  else { st with T := Function.update st.T z st.m, m := st.m + 1 }

/-- Body of the inner loop of `relabel` at pixel `z = y + x*h` with `x, y ≥ 1`:
the assignment, then the union of the classes of the upper and the left pixel
when both carry the label of `z` under different provisional ids. -/
def relabelInner (S : Nat → Nat) (h cap fuel z : Nat) (st : RelabelState) :
    Option RelabelState :=
  let st1 := relabelAssign S h z st
  if st1.T (z - 1) ≠ st1.T (z - h) ∧ S (z - 1) = S z ∧ S (z - h) = S z then
    (findRoot cap st1.map fuel (st1.T (z - 1))).bind fun t1 =>
    (findRoot cap st1.map fuel (st1.T (z - h))).bind fun t2 =>
    if t1 = t2 then some st1
    else if t1 < t2 then
      (compress cap t1 fuel st1.map (st1.T (z - h))).map fun mp =>
        { st1 with T := Function.update st1.T z t1, map := mp }
    else
      (compress cap t2 fuel st1.map (st1.T (z - 1))).map fun mp =>
        { st1 with T := Function.update st1.T z t2, map := mp }
  else some st1

/-- One column `x ≥ 1` of the raster scan. -/
def relabelColumn (S : Nat → Nat) (h cap fuel x : Nat) (st : RelabelState) :
    Option RelabelState :=
  forLoopM 1 (fun y s => relabelInner S h cap fuel (y + x * h) s) (h - 1)
    (relabelTop S h (x * h) st)

/-- The raster scan of `relabel`: first column, then the columns `1 .. w-1`. -/
def relabelScan (S : Nat → Nat) (h w cap fuel : Nat) : Option RelabelState :=
  forLoopM 1 (relabelColumn S h cap fuel) (w - 1)
    (forLoop 1 (relabelFirstCol S) (h - 1)
      { T := Function.update (fun _ => 0) 0 1, map := fun _ => 0, m := 2 })

/-- Body of `for( t=1; t<m; t++ ) map[t] = map[t] ? map[map[t]] : m1++;` on the pair
`(map, m1)`. -/
def relabelFlatten (cap t : Nat) (p : (Nat → Nat) × Nat) : Option ((Nat → Nat) × Nat) :=
  if t < cap then
    if p.1 t ≠ 0 then
      if p.1 t < cap then some (Function.update p.1 t (p.1 (p.1 t)), p.2) else none
    else some (Function.update p.1 t p.2, p.2 + 1)
  else none

/-- Body of `for( x=0; x<w*h; x++ ) S[x]=map[T[x]];`. -/
def relabelWrite (cap : Nat) (T map : Nat → Nat) (x : Nat) (out : Nat → Nat) :
    Option (Nat → Nat) :=
  if T x < cap then some (Function.update out x (map (T x))) else none

/-- The function `relabel` with a table `map` of `cap` entries, on the label map `S` of
an `h × w` grid.  `none` stands for an access outside the table. -/
def relabelCap (cap : Nat) (S : Nat → Nat) (h w : Nat) : Option (Nat → Nat) :=
  (relabelScan S h w cap (h * w + 1)).bind fun st =>
  (forLoopM 1 (relabelFlatten cap) (st.m - 1) (st.map, 0)).bind fun p =>
  forLoopM 0 (relabelWrite cap st.T p.1) (w * h) S

/-- The function `relabel( uint *S, uint h, uint w )`: the table is `new uint[h*w/2]()`. -/
def relabel (S : Nat → Nat) (h w : Nat) : Option (Nat → Nat) :=
  relabelCap (h * w / 2) S h w

/-- The raster scan of `relabel` mints a fresh id at pixel `z`: the first pixel, or a
pixel whose upper and left neighbours inside the grid carry other labels. -/
def mintedAt (S : Nat → Nat) (h z : Nat) : Bool :=
  decide (z = 0 ∨ ((z % h = 0 ∨ S (z - 1) ≠ S z) ∧ (z < h ∨ S (z - h) ≠ S z)))

/-- Number of provisional ids minted at the first `n` pixels. -/
def idsUpTo (S : Nat → Nat) (h n : Nat) : Nat :=
  ((List.range n).filter (mintedAt S h)).length

/-- Number of provisional ids the raster scan of `relabel` mints. -/
def relabelIds (S : Nat → Nat) (h w : Nat) : Nat := idsUpTo S h (h * w)

/-- Reading a list as a column-major buffer (cells past its end read `0`). -/
def ofList (l : List Nat) : Nat → Nat := fun i => l.getD i 0

/-- The first `n` cells of a buffer. -/
def toList (n : Nat) (f : Nat → Nat) : List Nat := (List.range n).map f

/-! ## `boundaries` -/

/-- The eight neighbours `L[-h],L[h],L[-1],L[1],L[-h-1],L[-h+1],L[h-1],L[h+1]` of the
interior pixel with flat index `p`. -/
def nbrs8 (T : Nat → Nat) (h p : Nat) : List Nat :=
  [T (p - h), T (p + h), T (p - 1), T (p + 1),
   T (p - h - 1), T (p - h + 1), T (p + h - 1), T (p + h + 1)]

/-- Body of `for( int x=0; x<w*h; x++ ) T[x]=S[x]+1;` in `uint` arithmetic. -/
def bndSeed (S : Nat → Nat) (x : Nat) (T : Nat → Nat) : Nat → Nat :=
  Function.update T x ((S x + 1) % 2 ^ 32)

/-- Body of the 4-connectivity pass at pixel `(x, y)`: of two axis neighbours with
different labels, the one with the larger edge strength (the right or lower one on
a tie) is set to `0`. -/
def bndFour (S : Nat → Nat) (E : Nat → ℚ) (h w x y : Nat) (T : Nat → Nat) : Nat → Nat :=
  let a := x * h + y
  let b := (x + 1) * h + y
  let c := x * h + (y + 1)
  let T1 := if x + 1 < w ∧ S a ≠ S b then
      (if E a > E b then Function.update T a 0 else Function.update T b 0) else T
  if y + 1 < h ∧ S a ≠ S c then
    (if E a > E c then Function.update T1 a 0 else Function.update T1 c 0) else T1

/-- Body of the 8-connectivity pass at the interior pixel `(x, y)`. -/
def bndEight (h x y : Nat) (T : Nat → Nat) : Nat → Nat :=
  let p := x * h + y
  let t := T p
  if t = 0 then T
  else
    let N := nbrs8 T h p
    if N.getD 0 0 ≠ 0 ∧ N.getD 1 0 ≠ 0 ∧ N.getD 2 0 ≠ 0 ∧ N.getD 3 0 ≠ 0 then T
    else if N.any (fun n => decide (n ≠ 0 ∧ n ≠ t)) then Function.update T p 0 else T

/-- Body of the pass removing excess boundary pixels at the interior pixel `(x, y)`. -/
def bndClean (S : Nat → Nat) (h x y : Nat) (T : Nat → Nat) : Nat → Nat :=
  let p := x * h + y
  if T p ≠ 0 then T
  else
    let t := (S p + 1) % 2 ^ 32
    let T1 := Function.update T p t
    if (nbrs8 T1 h p).any (fun n => decide (n ≠ 0 ∧ n ≠ t)) then Function.update T1 p 0
    else T1

/-- The function `boundaries( T, S, E, h, w, nThreads )`, run sequentially, on the
output buffer `T0`. -/
def boundaries (T0 S : Nat → Nat) (E : Nat → ℚ) (h w : Nat) : Nat → Nat :=
  let T1 := forLoop 0 (bndSeed S) (w * h) T0
  let T2 := forLoop 0 (fun x => forLoop 0 (bndFour S E h w x) h) w T1
  let T3 := forLoop 1 (fun x => forLoop 1 (bndEight h x) (h - 2)) (w - 2) T2
  forLoop 1 (fun x => forLoop 1 (bndClean S h x) (h - 2)) (w - 2) T3

/-! ## `merge` -/

/-- Flat indices of the eight cells `L[x0],L[x1],L[y0],L[y1],L[x0+y0],L[x0+y1],L[x1+y0],
L[x1+y1]` of the macro `NEIGHBORS8` at pixel `(x, y)`: each offset is `0` on the border
it would cross. -/
def nbrPos (h w x y : Nat) : List Nat :=
  let xa := if x = 0 then x else x - 1
  let xb := if x + 1 = w then x else x + 1
  let ya := if y = 0 then y else y - 1
  let yb := if y + 1 = h then y else y + 1
  [xa * h + y, xb * h + y, x * h + ya, x * h + yb,
   xa * h + ya, xa * h + yb, xb * h + ya, xb * h + yb]

/-- The macro `NEIGHBORS8`: the array `N` of the eight neighbours of pixel `(x, y)`. -/
def neighbors8 (S : Nat → Nat) (h w x y : Nat) : List Nat :=
  (nbrPos h w x y).map S

/-- The scalar `m`: `for( x=0; x<w*h; x++ ) m=S[x]>m ? S[x] : m; m++`. -/
def labelCount (S : Nat → Nat) (n : Nat) : Nat :=
  forLoop 0 (fun x m => if S x > m then S x else m) n 0 + 1

/-- The table `es` after `es[x]=1000` and
`for( x=0; x<w*h; x++ ) es[S[x]]=min(E[x],es[S[x]])`. -/
def regionMin (S : Nat → Nat) (E : Nat → ℚ) (n : Nat) : Nat → ℚ :=
  forLoop 0 (fun x es => Function.update es (S x) (min (E x) (es (S x)))) n (fun _ => 1000)

/-- The list `U` of distinct nonzero labels among the neighbours, in scan order. -/
def distinctLabels (N : List Nat) : List Nat :=
  N.foldl (fun U s => if s ≠ 0 ∧ s ∉ U then U ++ [s] else U) []

/-- The tables `es` and `map` of `merge`. -/
structure MergeState where
  /-- Running minimum edge strength of every representative. -/
  es : Nat → ℚ
  /-- Equivalence table. -/
  map : Nat → Nat

/-- Body of the pair loop of `merge` for `U[i]`, `U[j]` at a boundary pixel of edge
strength `e`.  The difference `e - min(es[s1], es[s2])` is taken exactly; the code rounds
it to `float`. -/
def mergePair (m : Nat) (thr e : ℚ) (U : List Nat) (i j : Nat) (st : MergeState) :
    Option MergeState :=
  (findRoot m st.map m (U.getD i 0)).bind fun s1 =>
  (findRoot m st.map m (U.getD j 0)).bind fun s2 =>
  if s1 ≠ s2 ∧ e - min (st.es s1) (st.es s2) < thr then
    let mn := min (st.es s1) (st.es s2)
    let es1 := Function.update (Function.update st.es s2 mn) s1 mn
    if s1 < s2 then
      (compress m s1 m st.map (U.getD j 0)).map fun mp => { es := es1, map := mp }
    else
      (compress m s2 m st.map (U.getD i 0)).map fun mp => { es := es1, map := mp }
  else some st

/-- Body of the scan of `merge` at pixel `(x, y)`. -/
def mergePixel (S : Nat → Nat) (E : Nat → ℚ) (h w m : Nat) (thr : ℚ) (x y : Nat)
    (st : MergeState) : Option MergeState :=
  if S (x * h + y) = 0 then
    let U := distinctLabels (neighbors8 S h w x y)
    forLoopM 0 (fun i => forLoopM (i + 1)
      (fun j => mergePair m thr (E (x * h + y)) U i j) (U.length - (i + 1)))
      (U.length - 1) st
  else some st

/-- Body of `for( uint s=1; s<m; s++ ) map[s] = map[s] ? map[map[s]] : m1++;` on the
pair `(map, m1)`. -/
def mergeFlatten (s : Nat) (p : (Nat → Nat) × Nat) : (Nat → Nat) × Nat :=
  if p.1 s ≠ 0 then (Function.update p.1 s (p.1 (p.1 s)), p.2)
  else (Function.update p.1 s p.2, p.2 + 1)

/-- Body of `for( x=0; x<w*h; x++ ) if(S[x]) T[x]=map[S[x]];`. -/
def mergeRemap (S map : Nat → Nat) (x : Nat) (T : Nat → Nat) : Nat → Nat :=
  if S x ≠ 0 then Function.update T x (map (S x)) else T

/-- Body of the last loop of `merge` at pixel `(x, y)`: a pixel that is `0` takes
the first nonzero neighbour `s` when no later neighbour is nonzero and differs. -/
def mergeFill (h w x y : Nat) (T : Nat → Nat) : Nat → Nat :=
  if T (x * h + y) = 0 then
    let N := neighbors8 T h w x y
    let i := N.findIdx (fun n => decide (n ≠ 0))
    let s := N.getD i 0
    if (N.drop i).all (fun n => decide (¬ (n ≠ 0 ∧ n ≠ s))) then
      Function.update T (x * h + y) s
    else T
  else T

/-- The function `merge( T, S, E, h, w, thr )` on the output buffer `T0`.  `none`
stands for a `while` loop on the table that does not come to an end. -/
def merge (T0 S : Nat → Nat) (E : Nat → ℚ) (h w : Nat) (thr : ℚ) : Option (Nat → Nat) :=
  let m := labelCount S (w * h)
  (forLoopM 0 (fun x => forLoopM 0 (mergePixel S E h w m thr x) h) w
    { es := regionMin S E (w * h), map := fun _ => 0 }).map fun st =>
  let map1 := (forLoop 1 mergeFlatten (m - 1) (st.map, 1)).1
  let T1 := forLoop 0 (mergeRemap S map1) (w * h) T0
  forLoop 0 (fun x => forLoop 0 (mergeFill h w x) h) w T1

/-- The output buffer the caller hands to `merge` and `boundaries`: a fresh zeroed
matrix. -/
def zeroBuf : Nat → Nat := fun _ => 0

/-- Reading a list of rationals as a buffer (cells past its end read `0`). -/
def ofListQ (l : List ℚ) : Nat → ℚ := fun i => l.getD i 0

/-! ## `affinities` -/

/-- First pixel `c + max(-r,-c)` of the window around the sample coordinate `c`, `r = 8`. -/
def winLo (c : Nat) : Nat := c - min 8 c

/-- Number `min(r, n-c) - max(-r,-c)` of window pixels along an axis of length `n`. -/
def winLen (n c : Nat) : Nat := min 8 c + min 8 (n - c)

/-- Index `(xi+r)*g+yi+r` of the pixel `(px, py)` in the `g × g` window around `(x, y)`,
with `g = 16`, `r = 8`. -/
def winIdx (x y px py : Nat) : Nat := (px + 8 - x) * 16 + (py + 8 - y)

/-- The loop `for( i=0; i<m1; i++ ) if(lookup[i]==lbl) break;` started at `i` with `n`
entries left: the index it stops at. -/
def searchFrom (lookup : Nat → Nat) (lbl : Nat) : Nat → Nat → Nat
  | i, 0 => i
  | i, n + 1 => if lookup i = lbl then i else searchFrom lookup lbl (i + 1) n

/-- Scratch tables of one window: local labels `lookup[0..m1)`, their weights and
per-cluster weights `wts1`, the local label `lbls1` of every window pixel, and the
index `j` found last. -/
structure WinState where
  /-- Global label of every local index. -/
  lookup : Nat → Nat
  /-- Weight per local index (first `m1` cells), then per cluster and local index. -/
  wts1 : Nat → ℚ
  /-- Local index of every window pixel. -/
  lbls1 : Nat → Nat
  /-- Local index of the pixel seen last. -/
  j : Nat
  /-- Number of local labels. -/
  m1 : Nat

/-- Body of the loop building the consecutively labelled copy of the window, at the
pixel `(px, py)`. -/
def winStep (S : Nat → Nat) (wts : Nat → ℚ) (h x y px py : Nat) (st : WinState) : WinState :=
  let lbl := S (px * h + py)
  let i := if lbl = st.lookup st.j then st.j else searchFrom st.lookup lbl 0 st.m1
  let st1 : WinState :=
    if lbl ≠ st.lookup st.j ∧ i = st.m1 then
      { st with lookup := Function.update st.lookup st.m1 lbl,
                wts1 := Function.update st.wts1 st.m1 0, m1 := st.m1 + 1 }
    else st
  { st1 with lbls1 := Function.update st1.lbls1 (winIdx x y px py) i, j := i,
             wts1 := Function.update st1.wts1 i (st1.wts1 i + wts (px * h + py)) }

/-- The scratch tables after the window around `(x, y)` has been read. -/
def winBuild (S : Nat → Nat) (wts : Nat → ℚ) (h w x y : Nat) : WinState :=
  forLoop 0 (fun a => forLoop 0 (fun b => winStep S wts h x y (winLo x + a) (winLo y + b))
      (winLen h y)) (winLen w x)
    { lookup := Function.update (fun _ => 0) 0 (S (winLo x * h + winLo y)),
      wts1 := fun _ => 0, lbls1 := fun _ => 0, j := 0, m1 := 1 }

/-- The loops `for i<m1, for j<m1: M[lookup[i]*m+lookup[j]] += f i j` that add to a
similarity matrix. -/
def accum (m : Nat) (lookup : Nat → Nat) (m1 : Nat) (f : Nat → Nat → ℚ) (M : Nat → ℚ) :
    Nat → ℚ :=
  forLoop 0 (fun i => forLoop 0 (fun j M =>
    Function.update M (lookup i * m + lookup j) (M (lookup i * m + lookup j) + f i j)) m1) m1 M

/-- The largest cluster id of the mask `seg` inside the window. -/
def segMax (seg : Nat → Nat) (h w x y : Nat) : Nat :=
  forLoop 0 (fun a => forLoop 0 (fun b s1 =>
    if seg (winIdx x y (winLo x + a) (winLo y + b)) > s1
    then seg (winIdx x y (winLo x + a) (winLo y + b)) else s1) (winLen h y)) (winLen w x) 0

/-- The table `wts1` after its cluster columns `1 .. s1` were zeroed and filled with
the window weights of the mask `seg`. -/
def segWeights (seg : Nat → Nat) (wts : Nat → ℚ) (h w x y s1 : Nat) (win : WinState)
    (wts1 : Nat → ℚ) : Nat → ℚ :=
  forLoop 0 (fun a => forLoop 0 (fun b wt =>
      let i := winIdx x y (winLo x + a) (winLo y + b)
      Function.update wt (win.lbls1 i + (seg i + 1) * win.m1)
        (wt (win.lbls1 i + (seg i + 1) * win.m1) + wts ((winLo x + a) * h + (winLo y + b))))
      (winLen h y)) (winLen w x)
    (forLoop win.m1 (fun i wt => Function.update wt i 0) (win.m1 * (s1 + 1) - win.m1) wts1)

/-- Numerator, scratch weights and the count `nTreesConst` during the loop over the
segmentation masks of one window. -/
structure TreeState where
  /-- Numerator matrix. -/
  Sn : Nat → ℚ
  /-- Scratch weights. -/
  wts1 : Nat → ℚ
  /-- Number of masks with a single cluster. -/
  nConst : Nat

/-- Body of the loop over the masks `t < nTreesEval` of the window around `(x, y)`.
The scratch table `wts1` has `m*25` cells and the mask uses its first
`m1*(s1+1)`, the last of them in the zeroing loop: `none` when that is too many. -/
def treeStep (segs : Nat → Nat) (wts : Nat → ℚ) (h w m x y : Nat) (win : WinState) (t : Nat)
    (st : TreeState) : Option TreeState :=
  let h1 := (h + 3) / 4 * 4 / 2
  let w1 := (w + 3) / 4 * 4 / 2
  let ind := y / 2 + x / 2 * h1 + t * h1 * w1
  let seg : Nat → Nat := fun i => segs (ind * 16 * 16 + i)
  let s1 := segMax seg h w x y + 1
  if s1 = 1 then some { st with nConst := st.nConst + 1 }
  else if win.m1 * (s1 + 1) ≤ m * 25 then
    let wt := segWeights seg wts h w x y s1 win st.wts1
    some { st with
      wts1 := wt
      Sn := forLoop 1 (fun s =>
        accum m win.lookup win.m1 (fun i j => wt (i + s * win.m1) * wt (j + s * win.m1))) s1 st.Sn }
  else none

/-- Body of the loops over the sample points: the window around `(x, y)` adds to the
numerator `Sn` and the denominator `Sd`. -/
def windowStep (segs S : Nat → Nat) (wts : Nat → ℚ) (h w m x y : Nat)
    (p : (Nat → ℚ) × (Nat → ℚ)) : Option ((Nat → ℚ) × (Nat → ℚ)) :=
  let win := winBuild S wts h w x y
  (forLoopM 0 (treeStep segs wts h w m x y win) 4
    { Sn := p.1, wts1 := win.wts1, nConst := 0 }).map fun st =>
  let Sn1 := if st.nConst ≠ 0 then
      accum m win.lookup win.m1 (fun i j => st.wts1 i * st.wts1 j * (st.nConst : ℚ)) st.Sn
    else st.Sn
  (Sn1, accum m win.lookup win.m1 (fun i j => st.wts1 i * st.wts1 j * ((4 : Nat) : ℚ)) p.2)

/-- The accumulators `(Sn, Sd)` after all windows, processed one after the other,
from the initial contents `Sn0`, `Sd0` of the two tables. -/
def affinityAccum (segs S : Nat → Nat) (wts : Nat → ℚ) (h w : Nat) (Sn0 Sd0 : Nat → ℚ) :
    Option ((Nat → ℚ) × (Nat → ℚ)) :=
  let m := labelCount S (w * h)
  forLoopM 0 (fun a => forLoopM 0 (fun b => windowStep segs S wts h w m (2 * a) (2 * b))
    ((h + 1) / 2)) ((w + 1) / 2) (Sn0, Sd0)

/-- The value `1 - max(0, Sn[s,s]/Sd[s,s]/2 + Sn[t,t]/Sd[t,t]/2 - Sn[s,t]/Sd[s,t])`. -/
def affinityValue (Sn Sd : Nat → ℚ) (m s t : Nat) : ℚ :=
  1 - max 0 (Sn (s * m + s) / Sd (s * m + s) / 2 + Sn (t * m + t) / Sd (t * m + t) / 2
    - Sn (s * m + t) / Sd (s * m + t))

/-- The last loops of `affinities` on the cells of `A`: a cell is `none` until the
call writes it. -/
def affinityFill (Sn Sd : Nat → ℚ) (m : Nat) : Nat → Option ℚ :=
  forLoop 1 (fun s => forLoop 1 (fun t A =>
    if Sd (s * m + t) ≠ 0 then
      Function.update A ((s - 1) * (m - 1) + (t - 1)) (some (affinityValue Sn Sd m s t))
    else A) (m - 1)) (m - 1) (fun _ => none)

/-- The function `affinities( A, segs, E, S, h, w )`, windows one after the other.
`wts` are the weights `1/(1+exp((E[i]-.05f)*50.f))` per pixel; `Sn0`, `Sd0` are the
contents of the tables `new float[m*m]` when the accumulation starts.  The result
gives the cells of `A` that were written. -/
def affinities (segs S : Nat → Nat) (wts : Nat → ℚ) (h w : Nat) (Sn0 Sd0 : Nat → ℚ) :
    Option (Nat → Option ℚ) :=
  (affinityAccum segs S wts h w Sn0 Sd0).map fun p =>
    affinityFill p.1 p.2 (labelCount S (w * h))

/-- The cell of the region pair `(s, t)`, `s, t ≥ 1`, in the output matrix of
`affinities` for `m - 1` regions. -/
def affIdx (m s t : Nat) : Nat := (s - 1) * (m - 1) + (t - 1)

/-! ## `edges` -/

/-- Body of the loops over the window of a boundary pixel, at the window pixel
`(xi, yi)`: a nonzero label `s` not met before joins `ss` as `s - 1`. -/
def edgeStep (S : Nat → Nat) (h xi yi : Nat) (ss : List Nat) : List Nat :=
  let s := S (xi * h + yi)
  if s = 0 then ss else if s - 1 ∈ ss then ss else ss ++ [s - 1]

/-- The array `ss` of the pixel `(x, y)`: the distinct nonzero labels, less one, of the
pixels `x0 ≤ xi ≤ x1`, `y0 ≤ yi ≤ y1` around it, in the order of the loops. -/
def edgeLabels (S : Nat → Nat) (h w x y : Nat) : List Nat :=
  let x0 := if x = 0 then 0 else x - 1
  let x1 := if x = w - 1 then w - 1 else x + 1
  let y0 := if y = 0 then 0 else y - 1
  let y1 := if y = h - 1 then h - 1 else y + 1
  forLoop x0 (fun xi => forLoop y0 (fun yi => edgeStep S h xi yi) (y1 + 1 - y0))
    (x1 + 1 - x0) []

/-- The loops `for( i=0; i<n; i++ ) for( j=i+1; j<n; j++ ) E = max(1-A[ss[i]*m+ss[j]],E)`
on the value `e` of the pixel. -/
def edgePairs (A : Nat → ℚ) (m : Nat) (ss : List Nat) (e : ℚ) : ℚ :=
  forLoop 0 (fun i => forLoop (i + 1)
    (fun j e => max (1 - A (ss.getD i 0 * m + ss.getD j 0)) e) (ss.length - (i + 1)))
    ss.length e

/-- Body of the loops of `edges` at the pixel `(x, y)`: a pixel with a nonzero label is
passed over, a pixel labelled `0` is set to `.01` and then raised by the pair loops. -/
def edgePixel (S : Nat → Nat) (A : Nat → ℚ) (h w m x y : Nat) (E : Nat → ℚ) : Nat → ℚ :=
  if S (x * h + y) ≠ 0 then E
  else Function.update E (x * h + y) (edgePairs A m (edgeLabels S h w x y) (1 / 100))

/-- The function `edges( E, S, h, w, A )` on the output buffer `E0`, in exact
arithmetic; `m` is the largest label (`labelCount` less one). -/
def edges (E0 : Nat → ℚ) (S : Nat → Nat) (h w : Nat) (A : Nat → ℚ) : Nat → ℚ :=
  forLoop 0 (fun x => forLoop 0 (edgePixel S A h w (labelCount S (w * h) - 1) x) h) w E0

/-! ## `sticky` -/

/-- A value of a `float` variable of `sticky` in exact arithmetic: a rational number, or
one of the results `+inf`, `-inf`, `NaN` of a division by zero and of the operations on
them. -/
inductive FVal where
  /-- A number. -/
  | fin (q : ℚ)
  /-- The value `+inf`. -/
  | pinf
  /-- The value `-inf`. -/
  | ninf
  /-- The value `NaN`. -/
  | nan

/-- The negative of a value. -/
def FVal.neg : FVal → FVal
  | FVal.fin q => FVal.fin (-q)
  | FVal.pinf => FVal.ninf
  | FVal.ninf => FVal.pinf
  | FVal.nan => FVal.nan

/-- The sum `a + b`: `inf + (-inf)` and every sum with `NaN` are `NaN`. -/
def FVal.add : FVal → FVal → FVal
  | FVal.fin a, FVal.fin b => FVal.fin (a + b)
  | FVal.nan, _ => FVal.nan
  | _, FVal.nan => FVal.nan
  | FVal.pinf, FVal.ninf => FVal.nan
  | FVal.ninf, FVal.pinf => FVal.nan
  | FVal.pinf, _ => FVal.pinf
  | _, FVal.pinf => FVal.pinf
  | FVal.ninf, _ => FVal.ninf
  | _, FVal.ninf => FVal.ninf

/-- The difference `a - b`. -/
def FVal.sub (a b : FVal) : FVal := FVal.add a (FVal.neg b)

/-- An infinity with the sign of `q`, `NaN` for `q = 0`. -/
def FVal.signed (q : ℚ) : FVal :=
  if q = 0 then FVal.nan else if 0 < q then FVal.pinf else FVal.ninf

/-- The product `a * b`: `inf * 0` and every product with `NaN` are `NaN`. -/
def FVal.mul : FVal → FVal → FVal
  | FVal.fin a, FVal.fin b => FVal.fin (a * b)
  | FVal.nan, _ => FVal.nan
  | _, FVal.nan => FVal.nan
  | FVal.pinf, FVal.fin b => FVal.signed b
  | FVal.ninf, FVal.fin b => FVal.signed (-b)
  | FVal.fin a, FVal.pinf => FVal.signed a
  | FVal.fin a, FVal.ninf => FVal.signed (-a)
  | FVal.pinf, FVal.pinf => FVal.pinf
  | FVal.ninf, FVal.ninf => FVal.pinf
  | FVal.pinf, FVal.ninf => FVal.ninf
  | FVal.ninf, FVal.pinf => FVal.ninf

/-- The quotient `a / b`, a zero divisor being `+0` (the divisors of `sticky` are the
counts `ns`): `0/0`, `inf/inf` and every quotient with `NaN` are `NaN`, and `a/0` is an
infinity with the sign of `a`. -/
def FVal.div : FVal → FVal → FVal
  | FVal.fin a, FVal.fin b => if b = 0 then FVal.signed a else FVal.fin (a / b)
  | FVal.nan, _ => FVal.nan
  | _, FVal.nan => FVal.nan
  | FVal.fin _, FVal.pinf => FVal.fin 0
  | FVal.fin _, FVal.ninf => FVal.fin 0
  | FVal.pinf, FVal.fin b => if 0 ≤ b then FVal.pinf else FVal.ninf
  | FVal.ninf, FVal.fin b => if 0 ≤ b then FVal.ninf else FVal.pinf
  | FVal.pinf, FVal.pinf => FVal.nan
  | FVal.pinf, FVal.ninf => FVal.nan
  | FVal.ninf, FVal.pinf => FVal.nan
  | FVal.ninf, FVal.ninf => FVal.nan

/-- The comparison `a < b`, false whenever one side is `NaN`. -/
def FVal.lt : FVal → FVal → Bool
  | FVal.fin a, FVal.fin b => decide (a < b)
  | FVal.nan, _ => false
  | _, FVal.nan => false
  | _, FVal.ninf => false
  | FVal.pinf, _ => false
  | FVal.ninf, _ => true
  | FVal.fin _, FVal.pinf => true

/-- The number a value holds, `none` for `+inf`, `-inf` and `NaN`. -/
def FVal.toRat : FVal → Option ℚ
  | FVal.fin q => some q
  | _ => none

/-- Whether a value is `NaN`. -/
def FVal.isNaN : FVal → Bool
  | FVal.nan => true
  | _ => false

/-- The parameters `prm` of `sticky` that a sequential run reads: the iteration cap and
the four weights. -/
structure StickyPrm where
  /-- Cap on the number of passes, `prm[0]`. -/
  maxIter : Nat
  /-- Weight of the size term, `prm[2]`. -/
  sigs : ℚ
  /-- Weight of the position term, `prm[3]`. -/
  sigx : ℚ
  /-- Weight of the edge term, `prm[4]`. -/
  sige : ℚ
  /-- Weight of the colour term, `prm[5]`. -/
  sigc : ℚ

/-- The label map and the statistics of `sticky`: pixel counts `ns`, means `mus` (five
per label) and the counter `changed`. -/
structure StickyState where
  /-- Label of every pixel. -/
  S : Nat → Nat
  /-- Number of pixels per label. -/
  ns : Nat → ℚ
  /-- Means of `x`, `y` and the three channels per label, at `i*5 .. i*5+4`. -/
  mus : Nat → FVal
  /-- Number of pixels reassigned in the current pass. -/
  changed : Nat

/-- The vector `vs` of the pixel `(x, y)`: its coordinates and its three channels
`I[j*h*w+x*h+y]`. -/
def stickyVs (I : Nat → ℚ) (h w x y : Nat) (j : Nat) : ℚ :=
  if j = 0 then (x : ℚ) else if j = 1 then (y : ℚ) else I ((j - 2) * h * w + x * h + y)

/-- Body of the loops that sum up the statistics, at the pixel `(x, y)`, on the pair
`(ns, mus)`. -/
def stickyInitStep (S : Nat → Nat) (I : Nat → ℚ) (h w x y : Nat)
    (p : (Nat → ℚ) × (Nat → ℚ)) : (Nat → ℚ) × (Nat → ℚ) :=
  let i := S (x * h + y)
  let mus0 := Function.update p.2 (i * 5) (p.2 (i * 5) + (x : ℚ))
  let mus1 := Function.update mus0 (i * 5 + 1) (mus0 (i * 5 + 1) + (y : ℚ))
  (Function.update p.1 i (p.1 i + 1),
   forLoop 0 (fun z mus => Function.update mus (i * 5 + z + 2)
     (mus (i * 5 + z + 2) + I (z * h * w + x * h + y))) 3 mus1)

/-- The loops `for(i<m) for(z<5) mus[i*5+z]/=ns[i]`: the mean of a label without
pixels is `0/0`. -/
def stickyMeans (ns : Nat → ℚ) (m : Nat) (mus : Nat → FVal) : Nat → FVal :=
  forLoop 0 (fun i => forLoop 0 (fun z mus =>
    Function.update mus (i * 5 + z) (FVal.div (mus (i * 5 + z)) (FVal.fin (ns i)))) 5) m mus

/-- The statistics `sticky` starts its passes from: zeroed tables, the sums over all
pixels, then the division by the counts; `changed` starts at `1`. -/
def stickyInit (S : Nat → Nat) (I : Nat → ℚ) (h w : Nat) : StickyState :=
  let p := forLoop 0 (fun x => forLoop 0 (stickyInitStep S I h w x) h) w
    (fun _ => 0, fun _ => 0)
  { S := S, ns := p.1,
    mus := stickyMeans p.1 (labelCount S (w * h)) (fun c => FVal.fin (p.2 c)), changed := 1 }

/-- The array `T` of the pixel `(x, y)`: the labels of its left, right, upper and lower
neighbour, a neighbour across the border being the pixel itself. -/
def stickyNbr (S : Nat → Nat) (h w x y : Nat) : List Nat :=
  let x0 := if x > 0 then x - 1 else x
  let x1 := if x < w - 1 then x + 1 else x
  let y0 := if y > 0 then y - 1 else y
  let y1 := if y < h - 1 then y + 1 else y
  [S (x0 * h + y), S (x1 * h + y), S (x * h + y0), S (x * h + y1)]

/-- The array `es` of the pixel `(x, y)`: the edge strengths at the same four pixels. -/
def stickyEs (E : Nat → ℚ) (h w x y : Nat) : List ℚ :=
  let x0 := if x > 0 then x - 1 else x
  let x1 := if x < w - 1 then x + 1 else x
  let y0 := if y > 0 then y - 1 else y
  let y1 := if y < h - 1 then y + 1 else y
  [E (x0 * h + y), E (x1 * h + y), E (x * h + y0), E (x * h + y1)]

/-- The error `d` of the label `t` at a pixel with neighbour labels `T`, edge strengths
`es` and vector `vs`. -/
def stickyCost (prm : StickyPrm) (T : List Nat) (es : List ℚ) (vs : Nat → ℚ)
    (ns : Nat → ℚ) (mus : Nat → FVal) (t : Nat) : FVal :=
  let e := forLoop 0 (fun j e =>
    if T.getD j 0 ≠ t then (if e < es.getD j 0 then e else es.getD j 0) else e) 4 (10 ^ 10)
  let ds : Nat → FVal := fun j =>
    FVal.mul (FVal.sub (mus (t * 5 + j)) (FVal.fin (vs j)))
      (FVal.sub (mus (t * 5 + j)) (FVal.fin (vs j)))
  FVal.add
    (FVal.sub
      (FVal.add (FVal.mul (FVal.add (ds 0) (ds 1)) (FVal.fin prm.sigx))
        (FVal.mul (FVal.add (FVal.add (ds 2) (ds 3)) (ds 4)) (FVal.fin prm.sigc)))
      (FVal.fin (e * prm.sige)))
    (FVal.div (FVal.fin prm.sigs) (FVal.fin (ns t)))

/-- The loop over the four candidates on the pair `(sBest, dBest)`, started at
`(T[0]+1, 1e10)`: a candidate equal to `sBest` is passed over, a candidate with a
smaller error takes its place. -/
def stickyBest (cost : Nat → FVal) (T : List Nat) : Nat × FVal :=
  forLoop 0 (fun i (p : Nat × FVal) =>
    if T.getD i 0 = p.1 then p
    else if FVal.lt (cost (T.getD i 0)) p.2 = true then (T.getD i 0, cost (T.getD i 0))
    else p) 4
    ((T.getD 0 0 + 1) % 2 ^ 32, FVal.fin (10 ^ 10))

/-- Body of the loops of a pass at the pixel `(x, y)`.  The tables `ns` and `mus` have
`m` and `m*5` entries: `none` when the pixel is given a label `sBest ≥ m`. -/
def stickyPixel (prm : StickyPrm) (I E : Nat → ℚ) (h w m x y : Nat) (st : StickyState) :
    Option StickyState :=
  let s := st.S (x * h + y)
  let T := stickyNbr st.S h w x y
  if s = T.getD 0 0 ∧ s = T.getD 1 0 ∧ s = T.getD 2 0 ∧ s = T.getD 3 0 then some st
  else
    let vs := stickyVs I h w x y
    let t := (stickyBest (stickyCost prm T (stickyEs E h w x y) vs st.ns st.mus) T).1
    if t ≠ s then
      if t < m then
        let ns1 := Function.update st.ns s (st.ns s - 1)
        let ns2 := Function.update ns1 t (ns1 t + 1)
        let mus1 := forLoop 0 (fun j mus => Function.update mus (s * 5 + j)
          (FVal.div (FVal.sub (FVal.mul (mus (s * 5 + j)) (FVal.fin (ns2 s + 1)))
            (FVal.fin (vs j))) (FVal.fin (ns2 s)))) 5 st.mus
        let mus2 := forLoop 0 (fun j mus => Function.update mus (t * 5 + j)
          (FVal.div (FVal.add (FVal.mul (mus (t * 5 + j)) (FVal.fin (ns2 t - 1)))
            (FVal.fin (vs j))) (FVal.fin (ns2 t)))) 5 mus1
        some { S := Function.update st.S (x * h + y) t, ns := ns2, mus := mus2,
               changed := st.changed + 1 }
      else none
    else some st

/-- One pass over all pixels, `changed` reset to `0` first. -/
def stickyPass (prm : StickyPrm) (I E : Nat → ℚ) (h w m : Nat) (st : StickyState) :
    Option StickyState :=
  forLoopM 0 (fun x => forLoopM 0 (stickyPixel prm I E h w m x) h) w { st with changed := 0 }

/-- The loop `while( changed && iter<maxIter )` with `n` passes left. -/
def stickyLoop (prm : StickyPrm) (I E : Nat → ℚ) (h w m : Nat) :
    Nat → StickyState → Option StickyState
  | 0, st => some st
  | n + 1, st =>
    if st.changed ≠ 0 then (stickyPass prm I E h w m st).bind (stickyLoop prm I E h w m n)
    else some st

/-- The function `sticky( S, I, E, h, w, prm )`, run sequentially in exact arithmetic:
the label map it leaves in `S`.  The tables have `m` entries, one more than the largest
label, which is taken to be below `2^32 - 1`. -/
def sticky (S : Nat → Nat) (I E : Nat → ℚ) (h w : Nat) (prm : StickyPrm) :
    Option (Nat → Nat) :=
  (stickyLoop prm I E h w (labelCount S (w * h)) prm.maxIter (stickyInit S I h w)).map
    fun st => st.S

/-! ## Predicates used in the statements -/

/-- The pixel `(x, y)` of the `h × w` grid carries the label of all its axis
neighbours inside the grid. -/
def AxisUniform (S : Nat → Nat) (h w x y : Nat) : Prop :=
  (x + 1 < w → S ((x + 1) * h + y) = S (x * h + y)) ∧
  (0 < x → S ((x - 1) * h + y) = S (x * h + y)) ∧
  (y + 1 < h → S (x * h + (y + 1)) = S (x * h + y)) ∧
  (0 < y → S (x * h + (y - 1)) = S (x * h + y))

/-- The pixel `(x, y)`, when it is off the border of the `h × w` grid, carries the label
of its four diagonal neighbours. -/
def DiagUniform (S : Nat → Nat) (h w x y : Nat) : Prop :=
  0 < x → x + 1 < w → 0 < y → y + 1 < h →
    S ((x - 1) * h + (y - 1)) = S (x * h + y) ∧ S ((x - 1) * h + (y + 1)) = S (x * h + y) ∧
    S ((x + 1) * h + (y - 1)) = S (x * h + y) ∧ S ((x + 1) * h + (y + 1)) = S (x * h + y)

/-- The property carried through the three passes of `boundaries` for the pixel `p` of
a grid of `n` cells: `p` keeps its seed value and every cell is `0` or its seed value. -/
def BndInv (S : Nat → Nat) (n p : Nat) (T : Nat → Nat) : Prop :=
  T p = (S p + 1) % 2 ^ 32 ∧ ∀ q, q < n → T q = 0 ∨ T q = (S q + 1) % 2 ^ 32


/-- Every non-representative entry of the table points to a smaller id. -/
def ParentLt (map : Nat → Nat) : Prop := ∀ t, map t ≠ 0 → map t < t

/-- Following the table from `t` for at most `fuel` links. -/
def rootOf (map : Nat → Nat) : Nat → Nat → Nat
  | 0, t => t
  | fuel + 1, t => if map t = 0 then t else rootOf map fuel (map t)

/-- The representative of `t`: the end of the chain of links from `t`. -/
def root (map : Nat → Nat) (t : Nat) : Nat := rootOf map t t

/-- The id `v` lies on the chain of links from `t` to its representative. -/
inductive OnPath (map : Nat → Nat) : Nat → Nat → Prop
  | refl (t : Nat) : OnPath map t t
  | step {t v : Nat} : map t ≠ 0 → OnPath map (map t) v → OnPath map t v

/-- Two ids with one representative in `map` still have one representative in `map'`. -/
def RootsKept (map map' : Nat → Nat) : Prop :=
  ∀ u v, root map u = root map v → root map' u = root map' v

/-- The property of the locals of `relabel` after the first `z` pixels of the raster
scan: ids are `1 .. m-1`, each is the id of a scanned pixel, links point to smaller
ids, and `m - 1` ids were minted. -/
def RelabelInv (S : Nat → Nat) (h z : Nat) (st : RelabelState) : Prop :=
  (∀ i, i < z → 1 ≤ st.T i ∧ st.T i < st.m) ∧
  (∀ t, 1 ≤ t → t < st.m → ∃ i, i < z ∧ st.T i = t) ∧
  ParentLt st.map ∧
  (∀ t, st.map t ≠ 0 → t < st.m) ∧
  st.m = idsUpTo S h z + 1

/-- Number of representatives among the ids `1 .. n-1`. -/
def rootsBelow (map : Nat → Nat) (n : Nat) : Nat :=
  ((List.range n).filter fun t => decide (1 ≤ t ∧ map t = 0)).length

/-- The `m × m` matrix stored row by row in `M` is symmetric. -/
def SymMat (m : Nat) (M : Nat → ℚ) : Prop :=
  ∀ s t, s < m → t < m → M (s * m + t) = M (t * m + s)

/-- Flat image index of the `k`-th pixel of the window around `(x, y)`, in loop order,
for a window of `ny` rows. -/
def winPix (h x y ny k : Nat) : Nat := (winLo x + k / ny) * h + (winLo y + k % ny)

/-- Cell of the `k`-th pixel of the window around `(x, y)` in the `16 × 16` tables. -/
def winCell (x y ny k : Nat) : Nat := winIdx x y (winLo x + k / ny) (winLo y + k % ny)

/-- The property of the scratch tables after the first `k` pixels of a window were
read, `pix k'` being the image index and `cell k'` the table cell of the `k'`-th pixel:
the local labels are distinct labels of the map, every pixel read has the local index
of its label, and the weight of a local index is the sum of the weights of its pixels. -/
def WinInv (S : Nat → Nat) (wts : Nat → ℚ) (m : Nat) (pix cell : Nat → Nat) (k : Nat)
    (st : WinState) : Prop :=
  1 ≤ st.m1 ∧ st.j < st.m1 ∧
  (∀ i, i < st.m1 → st.lookup i < m) ∧
  (∀ i j, i < st.m1 → j < st.m1 → st.lookup i = st.lookup j → i = j) ∧
  (∀ k', k' < k → st.lbls1 (cell k') < st.m1 ∧ st.lookup (st.lbls1 (cell k')) = S (pix k')) ∧
  (∀ i, i < st.m1 → st.wts1 i =
    ∑ k' in Finset.range k, if st.lbls1 (cell k') = i then wts (pix k') else 0)

/-- The sum of the squared window weights of the local indices of the label `s`. -/
def winSq (lookup : Nat → Nat) (m1 : Nat) (W : Nat → ℚ) (s : Nat) : ℚ :=
  ∑ i in Finset.range m1, if lookup i = s then W i * W i else 0

/-- The property of the accumulators `(Sn, Sd)` between two windows: no entry is
negative, the numerator of a diagonal cell is at most its denominator, and a
denominator is zero when one of the two diagonal denominators of its pair is. -/
def AccInv (m : Nat) (p : (Nat → ℚ) × (Nat → ℚ)) : Prop :=
  (∀ idx, 0 ≤ p.1 idx) ∧ (∀ idx, 0 ≤ p.2 idx) ∧
  (∀ s, s < m → p.1 (s * m + s) ≤ p.2 (s * m + s)) ∧
  (∀ s t, s < m → t < m → (p.2 (s * m + s) = 0 ∨ p.2 (t * m + t) = 0) → p.2 (s * m + t) = 0)

/-- The property of the loop over the masks of one window after `k` masks, `Sn0`
being the numerator before the window: the window weights are still in the first
cells of `wts1`, the numerator has not decreased, and every mask with several
clusters added at most the squared window weights to a diagonal cell. -/
def TreeInv (m : Nat) (win : WinState) (Sn0 : Nat → ℚ) (k : Nat) (st : TreeState) : Prop :=
  (∀ i, i < win.m1 → st.wts1 i = win.wts1 i) ∧ (∀ idx, Sn0 idx ≤ st.Sn idx) ∧
  (∀ s, s < m → st.Sn (s * m + s) + (st.nConst : ℚ) * winSq win.lookup win.m1 win.wts1 s ≤
    Sn0 (s * m + s) + (k : ℚ) * winSq win.lookup win.m1 win.wts1 s)

/-- The pixels `a` and `b` are axis-adjacent among the first `n` pixels of a grid with
columns of `h` pixels (column-major: `a+1` lies below `a` unless it starts a column,
`a+h` lies to its right) and carry the same label of `S`. -/
def Link (S : Nat → Nat) (h n a b : Nat) : Prop :=
  a < n ∧ b < n ∧ S a = S b ∧
    ((b = a + 1 ∧ b % h ≠ 0) ∨ (a = b + 1 ∧ a % h ≠ 0) ∨ b = a + h ∨ a = b + h)

/-- The pixels `a` and `b` are joined by a path of axis-adjacent pixels among the first
`n` that all carry the same label of `S`. -/
def Conn (S : Nat → Nat) (h n a b : Nat) : Prop := Relation.ReflTransGen (Link S h n) a b

/-- The property of the locals of `relabel` after the first `z` pixels of the raster
scan: two scanned pixels have ids with one representative exactly when a path of
scanned pixels of one label joins them. -/
def ConnInv (S : Nat → Nat) (h z : Nat) (st : RelabelState) : Prop :=
  (∀ i j, i < z → j < z → root st.map (st.T i) = root st.map (st.T j) → Conn S h z i j) ∧
  (∀ i j, Link S h z i j → root st.map (st.T i) = root st.map (st.T j))

/-- The nonzero label `l` occurs among the pixels of the `h × w` grid at most one step
away from `(x, y)` along each axis. -/
def WinLabel (S : Nat → Nat) (h w x y l : Nat) : Prop :=
  l ≠ 0 ∧ ∃ x' y', x' < w ∧ y' < h ∧ x ≤ x' + 1 ∧ x' ≤ x + 1 ∧ y ≤ y' + 1 ∧ y' ≤ y + 1 ∧
    S (x' * h + y') = l

/-- The buffer `T'` is the buffer `T` with some cells set to `0`. -/
def Zeroed (T T' : Nat → Nat) : Prop := ∀ q, T' q = 0 ∨ T' q = T q

/-- Two axis-adjacent pixels of the `h × w` grid that are both nonzero in `T` carry the
same value. -/
def AxisSep (h w : Nat) (T : Nat → Nat) : Prop :=
  ∀ x y, x < w → y < h →
    (x + 1 < w → T (x * h + y) ≠ 0 → T ((x + 1) * h + y) ≠ 0 →
      T (x * h + y) = T ((x + 1) * h + y)) ∧
    (y + 1 < h → T (x * h + y) ≠ 0 → T (x * h + (y + 1)) ≠ 0 →
      T (x * h + y) = T (x * h + (y + 1)))

/-- The pixel `(x', y')` is at most one step away from `(x, y)` along each axis. -/
def King (x y x' y' : Nat) : Prop :=
  (x' + 1 = x ∨ x' = x ∨ x' = x + 1) ∧ (y' + 1 = y ∨ y' = y ∨ y' = y + 1)

/-- When the pixel `(x, y)` is nonzero in `T`, every nonzero pixel at most one step away
from it carries its value. -/
def NbrSep (h : Nat) (T : Nat → Nat) (x y : Nat) : Prop :=
  ∀ x' y', King x y x' y' → T (x * h + y) ≠ 0 → T (x' * h + y') ≠ 0 →
    T (x' * h + y') = T (x * h + y)

/-- The pixel `(x, y)` is off the border of the `h × w` grid. -/
def Interior (h w x y : Nat) : Prop := 1 ≤ x ∧ x + 1 < w ∧ 1 ≤ y ∧ y + 1 < h

/-- The pixels `(x, y)` and `(x', y')` of the `h × w` grid are axis-adjacent, or
diagonally adjacent with at least one of them off the border. -/
def Touch (h w x y x' y' : Nat) : Prop :=
  x < w ∧ y < h ∧ x' < w ∧ y' < h ∧
  ((x' = x ∧ (y' = y + 1 ∨ y = y' + 1)) ∨ (y' = y ∧ (x' = x + 1 ∨ x = x' + 1)) ∨
   ((x' = x + 1 ∨ x = x' + 1) ∧ (y' = y + 1 ∨ y = y' + 1) ∧
     (Interior h w x y ∨ Interior h w x' y')))

/-- The sum of `f` over the pixels `p < n` with the label `i`. -/
def pixelSum (S : Nat → Nat) (n i : Nat) (f : Nat → ℚ) : ℚ :=
  ∑ p in Finset.range n, if S p = i then f p else 0

/-- The number of pixels `p < n` with the label `i`. -/
def pixelCount (S : Nat → Nat) (n i : Nat) : ℚ := pixelSum S n i (fun _ => 1)

/-- Entry `j` of the vector of the pixel with flat index `p`: its coordinates `p / h`,
`p % h` and its three channels. -/
def pixelVs (I : Nat → ℚ) (h w j p : Nat) : ℚ := stickyVs I h w (p / h) (p % h) j

/-- The counts of a state of `sticky` agree with its label map: labels are below `m` and
`ns[i]` is the number of pixels labelled `i`. -/
def CountInv (h w m : Nat) (st : StickyState) : Prop :=
  (∀ p, p < w * h → st.S p < m) ∧ (∀ i, st.ns i = pixelCount st.S (w * h) i)

/-- The statistics of a state of `sticky` agree with a recomputation from its label map:
the counts agree, and for every label with pixels `mus[i*5+j]` is the mean of entry `j`
over these pixels. -/
def StatsInv (I : Nat → ℚ) (h w m : Nat) (st : StickyState) : Prop :=
  CountInv h w m st ∧
  ∀ i j, j < 5 → 0 < st.ns i →
    st.mus (i * 5 + j) = FVal.fin (pixelSum st.S (w * h) i (pixelVs I h w j) / st.ns i)

/-- The states a sequential run of `sticky` on the label map `S0` goes through: the
initial statistics, the state after the step at a pixel, and the state with `changed`
reset at the start of a pass. -/
inductive StickyReach (prm : StickyPrm) (I E : Nat → ℚ) (S0 : Nat → Nat) (h w : Nat) :
    StickyState → Prop
  | init : StickyReach prm I E S0 h w (stickyInit S0 I h w)
  | pixel {st st' : StickyState} {x y : Nat} : StickyReach prm I E S0 h w st → x < w → y < h →
      stickyPixel prm I E h w (labelCount S0 (w * h)) x y st = some st' →
      StickyReach prm I E S0 h w st'
  | reset {st : StickyState} : StickyReach prm I E S0 h w st →
      StickyReach prm I E S0 h w { st with changed := 0 }

/-- Index of the quadrant of the pixel with flat index `p` on the `4 × 4` grid: `0` and
`1` are the upper and lower quadrant of the columns `0, 1`, and `2` and `3` those of the
columns `2, 3`. -/
def quad (p : Nat) : Nat := 2 * (p / 8) + p % 4 / 2

/-- Entry `j` of the mean vector of the quadrant `q` when the three channels have the
values `F 0 q`, `F 1 q`, `F 2 q` on it. -/
def quadMean (F : Nat → Nat → ℚ) (q j : Nat) : ℚ :=
  if j = 0 then ((2 * (q / 2) : Nat) : ℚ) + 1 / 2
  else if j = 1 then ((2 * (q % 2) : Nat) : ℚ) + 1 / 2 else F (j - 2) q

/-- A label map of four `2 × 2` quadrants with pairwise distinct labels `L 0 .. L 3`, and
an image whose three channels are constant on each quadrant. -/
def QuadInput (L : Nat → Nat) (F : Nat → Nat → ℚ) (S : Nat → Nat) (I : Nat → ℚ) : Prop :=
  (∀ a b, a < 4 → b < 4 → L a = L b → a = b) ∧
  (∀ p, p < 16 → S p = L (quad p)) ∧
  (∀ c p, c < 3 → p < 16 → I (c * 16 + p) = F c (quad p))

/-! ## Loop lemmas -/

theorem forLoop_inv {σ : Type} (P : Nat → σ → Prop) (lo : Nat) (body : Nat → σ → σ)
    (n : Nat) (s : σ) (h0 : P 0 s)
    (hstep : ∀ k t, k < n → P k t → P (k + 1) (body (lo + k) t)) :
    P n (forLoop lo body n s) := by
  induction n with
  | zero => exact h0
  | succ n ih =>
    exact hstep n _ (Nat.lt_succ_self n) (ih fun k t hk => hstep k t (Nat.lt_succ_of_lt hk))

theorem forLoop_nest_inv {σ : Type} (P : σ → Prop) (lox loy nx ny : Nat)
    (body : Nat → Nat → σ → σ) (s : σ) (h0 : P s)
    (hstep : ∀ a b t, a < nx → b < ny → P t → P (body (lox + a) (loy + b) t)) :
    P (forLoop lox (fun x => forLoop loy (body x) ny) nx s) := by
  refine forLoop_inv (fun _ t => P t) lox _ nx s h0 ?_
  intro a t ha ht
  exact forLoop_inv (fun _ u => P u) loy _ ny t ht (fun b u hb hu => hstep a b u ha hb hu)

theorem forLoop_raster_inv {σ : Type} (P : Nat → σ → Prop) (h w : Nat)
    (body : Nat → Nat → σ → σ) (s : σ) (h0 : P 0 s)
    (hstep : ∀ x y t, x < w → y < h → P (x * h + y) t → P (x * h + y + 1) (body x y t)) :
    P (w * h) (forLoop 0 (fun x => forLoop 0 (body x) h) w s) := by
  refine forLoop_inv (fun x t => P (x * h) t) 0 _ w s (by simpa using h0) ?_
  intro x t hx ht
  have key := forLoop_inv (fun y u => P (x * h + y) u) 0 (body (0 + x)) h t (by simpa using ht)
    (fun y u hy hu => by simpa [Nat.add_assoc] using hstep x y u hx hy hu)
  simpa [Nat.add_mul, Nat.add_comm] using key

theorem forLoopM_inv {σ : Type} (P : Nat → σ → Prop) (lo : Nat) (body : Nat → σ → Option σ)
    (n : Nat) (s : σ) (h0 : P 0 s)
    (hstep : ∀ k t u, k < n → P k t → body (lo + k) t = some u → P (k + 1) u) :
    ∀ r, forLoopM lo body n s = some r → P n r := by
  induction n with
  | zero =>
    intro r hr
    simp only [forLoopM, Option.some.injEq] at hr
    exact hr ▸ h0
  | succ n ih =>
    intro r hr
    simp only [forLoopM] at hr
    obtain ⟨t, ht, htr⟩ := Option.bind_eq_some.mp hr
    exact hstep n t r (Nat.lt_succ_self n)
      (ih (fun k t u hk => hstep k t u (Nat.lt_succ_of_lt hk)) t ht) htr

theorem forLoopM_total {σ : Type} (P : Nat → σ → Prop) (lo : Nat) (body : Nat → σ → Option σ)
    (n : Nat) (s : σ) (h0 : P 0 s)
    (hstep : ∀ k t, k < n → P k t → ∃ u, body (lo + k) t = some u ∧ P (k + 1) u) :
    ∃ r, forLoopM lo body n s = some r ∧ P n r := by
  induction n with
  | zero => exact ⟨s, rfl, h0⟩
  | succ n ih =>
    obtain ⟨t, ht, hP⟩ := ih fun k t hk => hstep k t (Nat.lt_succ_of_lt hk)
    obtain ⟨u, hu, hPu⟩ := hstep n t (Nat.lt_succ_self n) hP
    exact ⟨u, by simp [forLoopM, ht, hu], hPu⟩

theorem forLoopM_raster_total {σ : Type} (P : Nat → σ → Prop) (h w : Nat)
    (body : Nat → Nat → σ → Option σ) (s : σ) (h0 : P 0 s)
    (hstep : ∀ x y t, x < w → y < h → P (x * h + y) t →
      ∃ u, body x y t = some u ∧ P (x * h + y + 1) u) :
    ∃ r, forLoopM 0 (fun x => forLoopM 0 (body x) h) w s = some r ∧ P (w * h) r := by
  refine forLoopM_total (fun x t => P (x * h) t) 0 _ w s (by simpa using h0) ?_
  intro x t hx ht
  have key := forLoopM_total (fun y u => P (x * h + y) u) 0 (body (0 + x)) h t (by simpa using ht)
    (fun y u hy hu => by simpa [Nat.add_assoc] using hstep x y u hx hy hu)
  simpa [Nat.add_mul, Nat.add_comm] using key

theorem forLoopM_nest_inv {σ : Type} (P : σ → Prop) (lox loy nx ny : Nat)
    (body : Nat → Nat → σ → Option σ) (s : σ) (h0 : P s)
    (hstep : ∀ a b t u, a < nx → b < ny → P t → body (lox + a) (loy + b) t = some u → P u) :
    ∀ r, forLoopM lox (fun x => forLoopM loy (body x) ny) nx s = some r → P r := by
  refine forLoopM_inv (fun _ t => P t) lox _ nx s h0 ?_
  intro a t u ha ht hu
  exact forLoopM_inv (fun _ v => P v) loy _ ny t ht (fun b v v' hb hv hv' =>
    hstep a b v v' ha hb hv hv') u hu

theorem forLoopM_const {σ : Type} (lo : Nat) (body : Nat → σ → Option σ) (n : Nat) (s : σ)
    (hstep : ∀ k, k < n → body (lo + k) s = some s) : forLoopM lo body n s = some s := by
  induction n with
  | zero => rfl
  | succ n ih =>
    simp [forLoopM, ih fun k hk => hstep k (Nat.lt_succ_of_lt hk), hstep n (Nat.lt_succ_self n)]

/-! ## Flat indices -/

theorem idx_inj {h x y x' y' : Nat} (hy : y < h) (hy' : y' < h)
    (e : x * h + y = x' * h + y') : x = x' ∧ y = y' := by
  have h1 : (x * h + y) / h = x := by
    rw [Nat.add_comm, Nat.add_mul_div_right _ _ (by omega), Nat.div_eq_of_lt hy]; simp
  have h2 : (x' * h + y') / h = x' := by
    rw [Nat.add_comm, Nat.add_mul_div_right _ _ (by omega), Nat.div_eq_of_lt hy']; simp
  have hxx : x = x' := by rw [← h1, ← h2, e]
  subst hxx
  exact ⟨rfl, by omega⟩

theorem idx_lt {h w x y : Nat} (hx : x < w) (hy : y < h) : x * h + y < w * h := by
  have : (x + 1) * h ≤ w * h := Nat.mul_le_mul_right h hx
  rw [Nat.add_mul] at this
  omega

theorem pred_mul_add {x h : Nat} (hx : 0 < x) : (x - 1) * h + h = x * h := by
  obtain ⟨k, rfl⟩ : ∃ k, x = k + 1 := ⟨x - 1, by omega⟩
  simp [Nat.add_mul]

/-! ## The equivalence table: representatives, `findRoot`, `compress` -/

theorem ParentLt.zero {map : Nat → Nat} (hp : ParentLt map) : map 0 = 0 := by
  by_contra h0
  exact Nat.not_lt_zero _ (hp 0 h0)

theorem rootOf_stable {map : Nat → Nat} (hp : ParentLt map) :
    ∀ t fuel, t ≤ fuel → rootOf map fuel t = root map t := by
  intro t
  induction t using Nat.strong_induction_on with
  | _ t ih =>
    intro fuel hf
    cases fuel with
    | zero =>
      have : t = 0 := by omega
      subst this; rfl
    | succ f =>
      cases t with
      | zero => simp [root, rootOf, hp.zero]
      | succ t' =>
        simp only [root, rootOf]
        by_cases h0 : map (t' + 1) = 0
        · simp [h0]
        · have hlt := hp _ h0
          rw [if_neg h0, if_neg h0, ih _ hlt f (by omega), ih _ hlt t' (by omega)]

theorem root_of_zero {map : Nat → Nat} {t : Nat} (h0 : map t = 0) : root map t = t := by
  cases t with
  | zero => rfl
  | succ t' => simp [root, rootOf, h0]

theorem root_step {map : Nat → Nat} (hp : ParentLt map) {t : Nat} (h0 : map t ≠ 0) :
    root map t = root map (map t) := by
  cases t with
  | zero => exact absurd hp.zero h0
  | succ t' =>
    have hlt := hp _ h0
    simp only [root, rootOf, if_neg h0]
    exact rootOf_stable hp _ _ (by omega)

theorem map_root {map : Nat → Nat} (hp : ParentLt map) : ∀ t, map (root map t) = 0 := by
  intro t
  induction t using Nat.strong_induction_on with
  | _ t ih =>
    by_cases h0 : map t = 0
    · rw [root_of_zero h0, h0]
    · rw [root_step hp h0]; exact ih _ (hp _ h0)

theorem root_le {map : Nat → Nat} (hp : ParentLt map) : ∀ t, root map t ≤ t := by
  intro t
  induction t using Nat.strong_induction_on with
  | _ t ih =>
    by_cases h0 : map t = 0
    · rw [root_of_zero h0]
    · rw [root_step hp h0]; exact Nat.le_trans (ih _ (hp _ h0)) (Nat.le_of_lt (hp _ h0))

theorem root_ne_zero {map : Nat → Nat} (hp : ParentLt map) :
    ∀ t, t ≠ 0 → root map t ≠ 0 := by
  intro t
  induction t using Nat.strong_induction_on with
  | _ t ih =>
    intro ht
    by_cases h0 : map t = 0
    · rw [root_of_zero h0]; exact ht
    · rw [root_step hp h0]; exact ih _ (hp _ h0) h0

theorem root_root {map : Nat → Nat} (hp : ParentLt map) (t : Nat) :
    root map (root map t) = root map t :=
  root_of_zero (map_root hp t)

theorem findRoot_eq {map : Nat → Nat} (hp : ParentLt map) {cap : Nat} :
    ∀ t fuel, t < cap → t < fuel → findRoot cap map fuel t = some (root map t) := by
  intro t
  induction t using Nat.strong_induction_on with
  | _ t ih =>
    intro fuel hc hf
    cases fuel with
    | zero => omega
    | succ f =>
      simp only [findRoot, if_pos hc]
      by_cases h0 : map t = 0
      · rw [if_pos h0, root_of_zero h0]
      · have hlt := hp _ h0
        rw [if_neg h0, root_step hp h0]
        exact ih _ hlt f (by omega) (by omega)

theorem OnPath.le {map : Nat → Nat} (hp : ParentLt map) {t v : Nat} (h : OnPath map t v) :
    v ≤ t := by
  induction h with
  | refl t => exact Nat.le_refl _
  | step h0 _ ih => exact Nat.le_trans ih (Nat.le_of_lt (hp _ h0))

theorem OnPath.root_eq {map : Nat → Nat} (hp : ParentLt map) {t v : Nat}
    (h : OnPath map t v) : root map v = root map t := by
  induction h with
  | refl t => rfl
  | step h0 _ ih => rw [ih, ← root_step hp h0]

theorem onPath_root {map : Nat → Nat} (hp : ParentLt map) : ∀ t, OnPath map t (root map t) := by
  intro t
  induction t using Nat.strong_induction_on with
  | _ t ih =>
    by_cases h0 : map t = 0
    · rw [root_of_zero h0]; exact OnPath.refl t
    · rw [root_step hp h0]; exact OnPath.step h0 (ih _ (hp _ h0))

theorem onPath_iff {map : Nat → Nat} {t v : Nat} :
    OnPath map t v ↔ v = t ∨ (map t ≠ 0 ∧ OnPath map (map t) v) := by
  constructor
  · intro h
    cases h with
    | refl => exact Or.inl rfl
    | step h0 h1 => exact Or.inr ⟨h0, h1⟩
  · rintro (rfl | ⟨h0, h1⟩)
    · exact OnPath.refl _
    · exact OnPath.step h0 h1

/-- What `compress` returns: the entries on the chain from `t` become `rep`, the others
stay. -/
theorem compress_spec {map : Nat → Nat} (hp : ParentLt map) (cap rep : Nat) :
    ∀ t fuel (map1 : Nat → Nat), (∀ v, v ≤ t → map1 v = map v) → t < cap → t < fuel →
      ∃ mp, compress cap rep fuel map1 t = some mp ∧
        ∀ v, (OnPath map t v → mp v = rep) ∧ (¬ OnPath map t v → mp v = map1 v) := by
  intro t
  induction t using Nat.strong_induction_on with
  | _ t ih =>
    intro fuel map1 hag hc hf
    cases fuel with
    | zero => omega
    | succ f =>
      simp only [compress, if_pos hc, hag t (Nat.le_refl t)]
      by_cases h0 : map t = 0
      · rw [if_pos h0]
        refine ⟨_, rfl, fun v => ⟨fun hv => ?_, fun hv => ?_⟩⟩
        · rcases onPath_iff.mp hv with rfl | ⟨h1, _⟩
          · simp
          · exact absurd h0 h1
        · have : v ≠ t := fun e => hv (by rw [e]; exact OnPath.refl t)
          simp [Function.update_apply, this]
      · have hlt := hp _ h0
        rw [if_neg h0]
        obtain ⟨mp, hmp, hspec⟩ := ih _ hlt f (Function.update map1 t rep)
          (fun v hv => by
            have : v ≠ t := by omega
            simp [Function.update_apply, this, hag v (by omega)])
          (by omega) (by omega)
        refine ⟨mp, hmp, fun v => ⟨fun hv => ?_, fun hv => ?_⟩⟩
        · rcases onPath_iff.mp hv with rfl | ⟨_, h2⟩
          · have hnot : ¬ OnPath map (map v) v := fun hh => by
              have := hh.le hp
              omega
            rw [(hspec v).2 hnot]; simp
          · exact (hspec v).1 h2
        · have hvt : v ≠ t := fun e => hv (by rw [e]; exact OnPath.refl t)
          have hnot : ¬ OnPath map (map t) v := fun hh => hv (OnPath.step h0 hh)
          rw [(hspec v).2 hnot]
          simp [Function.update_apply, hvt]

/-- The table after a union: the class of `t` is hung under the representative `rep`. -/
theorem union_root {map mp : Nat → Nat} (hp : ParentLt map) {t rep : Nat} (hrep0 : rep ≠ 0)
    (hrep : map rep = 0) (hlt : rep < root map t)
    (hspec : ∀ v, (OnPath map t v → mp v = rep) ∧ (¬ OnPath map t v → mp v = map v)) :
    ParentLt mp ∧ ∀ u, root mp u = if root map u = root map t then rep else root map u := by
  have hpath_ge : ∀ v, OnPath map t v → root map t ≤ v := fun v hv => by
    rw [← hv.root_eq hp]; exact root_le hp v
  have hp' : ParentLt mp := by
    intro v hv
    by_cases hon : OnPath map t v
    · rw [(hspec v).1 hon]
      exact Nat.lt_of_lt_of_le hlt (hpath_ge v hon)
    · rw [(hspec v).2 hon] at hv ⊢
      exact hp v hv
  have hrep_not : ¬ OnPath map t rep := fun hh => by
    have := hpath_ge rep hh
    omega
  have hmrep : mp rep = 0 := by rw [(hspec rep).2 hrep_not, hrep]
  refine ⟨hp', fun u => ?_⟩
  induction u using Nat.strong_induction_on with
  | _ u ih =>
    by_cases hon : OnPath map t u
    · have hmu : mp u = rep := (hspec u).1 hon
      have hne : mp u ≠ 0 := by rw [hmu]; exact hrep0
      rw [root_step hp' hne, hmu, root_of_zero hmrep, if_pos (hon.root_eq hp)]
    · have hmu : mp u = map u := (hspec u).2 hon
      by_cases h0 : map u = 0
      · have hne : u ≠ root map t := fun e => hon (by rw [e]; exact onPath_root hp t)
        rw [root_of_zero (by rw [hmu, h0]), root_of_zero h0, if_neg hne]
      · have hne : mp u ≠ 0 := by rw [hmu]; exact h0
        rw [root_step hp' hne, hmu, ih _ (hp _ h0), ← root_step hp h0]

/-! ## `boundaries`: pixels inside a uniform neighbourhood -/

theorem forLoop_bndSeed (S T0 : Nat → Nat) (n q : Nat) :
    forLoop 0 (bndSeed S) n T0 q = if q < n then (S q + 1) % 2 ^ 32 else T0 q := by
  induction n with
  | zero => simp [forLoop]
  | succ n ih =>
    simp only [forLoop, bndSeed, Nat.zero_add, Function.update_apply]
    by_cases hq : q = n
    · subst hq; simp
    · rw [if_neg hq, ih]
      by_cases hlt : q < n
      · simp [hlt, Nat.lt_succ_of_lt hlt]
      · have : ¬ q < n + 1 := by omega
        simp [hlt, this]

theorem BndInv.zero_of_ne {S : Nat → Nat} {n p : Nat} {T : Nat → Nat} (hT : BndInv S n p T)
    {q : Nat} (hq : q ≠ p) : BndInv S n p (Function.update T q 0) := by
  refine ⟨by simp [Function.update_apply, Ne.symm hq, hT.1], fun r hr => ?_⟩
  by_cases hrq : r = q
  · subst hrq; left; simp
  · simpa [Function.update_apply, hrq] using hT.2 r hr

theorem BndInv.zero_pair {S : Nat → Nat} {n p : Nat} {T : Nat → Nat} (hT : BndInv S n p T)
    (c e : Prop) [Decidable c] [Decidable e] {a b : Nat} (ha : c → a ≠ p) (hb : c → b ≠ p) :
    BndInv S n p (if c then (if e then Function.update T a 0 else Function.update T b 0)
      else T) := by
  split_ifs with h1 h2
  · exact hT.zero_of_ne (ha h1)
  · exact hT.zero_of_ne (hb h1)
  · exact hT

theorem bndFour_inv {S : Nat → Nat} {E : Nat → ℚ} {h w x y : Nat} (hy : y < h)
    (hR : x + 1 < w → S ((x + 1) * h + y) = S (x * h + y))
    (hL : 0 < x → S ((x - 1) * h + y) = S (x * h + y))
    (hD : y + 1 < h → S (x * h + (y + 1)) = S (x * h + y))
    (hU : 0 < y → S (x * h + (y - 1)) = S (x * h + y))
    (x' y' : Nat) (hy' : y' < h) {T : Nat → Nat} (hT : BndInv S (w * h) (x * h + y) T) :
    BndInv S (w * h) (x * h + y) (bndFour S E h w x' y' T) := by
  -- the cells `a`, `b`, `c` of the step differ from `p` whenever they are written
  have ha1 : x' + 1 < w ∧ S (x' * h + y') ≠ S ((x' + 1) * h + y') →
      x' * h + y' ≠ x * h + y := by
    intro hc e
    obtain ⟨rfl, rfl⟩ := idx_inj hy' hy e
    exact hc.2 (hR hc.1).symm
  have hb1 : x' + 1 < w ∧ S (x' * h + y') ≠ S ((x' + 1) * h + y') →
      (x' + 1) * h + y' ≠ x * h + y := by
    intro hc e
    obtain ⟨rfl, rfl⟩ := idx_inj hy' hy e
    have := hL (Nat.succ_pos x')
    simp only [Nat.add_sub_cancel] at this
    exact hc.2 this
  have ha2 : y' + 1 < h ∧ S (x' * h + y') ≠ S (x' * h + (y' + 1)) →
      x' * h + y' ≠ x * h + y := by
    intro hc e
    obtain ⟨rfl, rfl⟩ := idx_inj hy' hy e
    exact hc.2 (hD hc.1).symm
  have hc2 : y' + 1 < h ∧ S (x' * h + y') ≠ S (x' * h + (y' + 1)) →
      x' * h + (y' + 1) ≠ x * h + y := by
    intro hc e
    obtain ⟨rfl, rfl⟩ := idx_inj hc.1 hy e
    have := hU (Nat.succ_pos y')
    simp only [Nat.add_sub_cancel] at this
    exact hc.2 this
  exact (hT.zero_pair _ (E (x' * h + y') > E ((x' + 1) * h + y')) ha1 hb1).zero_pair _
    (E (x' * h + y') > E (x' * h + (y' + 1))) ha2 hc2

theorem nbrs8_eq (T : Nat → Nat) {h x y : Nat} (hx0 : 0 < x) (hy0 : 0 < y) (hy : y < h) :
    nbrs8 T h (x * h + y) =
      [T ((x - 1) * h + y), T ((x + 1) * h + y), T (x * h + (y - 1)), T (x * h + (y + 1)),
       T ((x - 1) * h + (y - 1)), T ((x - 1) * h + (y + 1)),
       T ((x + 1) * h + (y - 1)), T ((x + 1) * h + (y + 1))] := by
  have hm := pred_mul_add (h := h) hx0
  have e1 : x * h + y - h = (x - 1) * h + y := by omega
  have e2 : x * h + y + h = (x + 1) * h + y := by rw [Nat.add_mul]; omega
  have e3 : x * h + y - 1 = x * h + (y - 1) := by omega
  have e4 : x * h + y - h - 1 = (x - 1) * h + (y - 1) := by omega
  have e5 : x * h + y - h + 1 = (x - 1) * h + (y + 1) := by omega
  have e6 : x * h + y + h - 1 = (x + 1) * h + (y - 1) := by rw [Nat.add_mul]; omega
  have e7 : x * h + y + h + 1 = (x + 1) * h + (y + 1) := by rw [Nat.add_mul]; omega
  have e8 : x * h + y + 1 = x * h + (y + 1) := by omega
  simp only [nbrs8]
  rw [e4, e5, e6, e7, e1, e2, e3, e8]

theorem nbrs8_any_false {S T : Nat → Nat} {h w x y : Nat} (hx0 : 0 < x) (hx1 : x + 1 < w)
    (hy0 : 0 < y) (hy1 : y + 1 < h)
    (hT : ∀ q, q < w * h → T q = 0 ∨ T q = (S q + 1) % 2 ^ 32)
    (hR : S ((x + 1) * h + y) = S (x * h + y))
    (hL : S ((x - 1) * h + y) = S (x * h + y))
    (hD : S (x * h + (y + 1)) = S (x * h + y))
    (hU : S (x * h + (y - 1)) = S (x * h + y))
    (hLU : S ((x - 1) * h + (y - 1)) = S (x * h + y))
    (hLD : S ((x - 1) * h + (y + 1)) = S (x * h + y))
    (hRU : S ((x + 1) * h + (y - 1)) = S (x * h + y))
    (hRD : S ((x + 1) * h + (y + 1)) = S (x * h + y)) :
    (nbrs8 T h (x * h + y)).any (fun n => decide (n ≠ 0 ∧ n ≠ (S (x * h + y) + 1) % 2 ^ 32))
      = false := by
  have hxm : x - 1 < w := by omega
  have hym : y - 1 < h := by omega
  have hy : y < h := by omega
  have hx : x < w := by omega
  have key : ∀ q, q < w * h → S q = S (x * h + y) →
      decide (T q ≠ 0 ∧ T q ≠ (S (x * h + y) + 1) % 2 ^ 32) = false := by
    intro q hq hS
    rcases hT q hq with h0 | h1
    · simp [h0]
    · simp [h1, hS]
  rw [nbrs8_eq T hx0 hy0 hy]
  simp only [List.any_cons, List.any_nil, Bool.or_false]
  rw [key _ (idx_lt hxm hy) hL, key _ (idx_lt hx1 hy) hR, key _ (idx_lt hx hym) hU,
    key _ (idx_lt hx hy1) hD, key _ (idx_lt hxm hym) hLU, key _ (idx_lt hxm hy1) hLD,
    key _ (idx_lt hx1 hym) hRU, key _ (idx_lt hx1 hy1) hRD]
  rfl

theorem bndEight_inv {S : Nat → Nat} {h w x y : Nat} (hy : y < h)
    (hu : AxisUniform S h w x y) (hd : DiagUniform S h w x y)
    {a b : Nat} (ha : a < w - 2) (hb : b < h - 2)
    {T : Nat → Nat} (hT : BndInv S (w * h) (x * h + y) T) :
    BndInv S (w * h) (x * h + y) (bndEight h (1 + a) (1 + b) T) := by
  simp only [bndEight]
  split_ifs with h1 h2 h3
  · exact hT
  · exact hT
  · by_cases hp : (1 + a) * h + (1 + b) = x * h + y
    · exfalso
      obtain ⟨rfl, rfl⟩ := idx_inj (by omega) hy hp
      obtain ⟨hR, hL, hD, hU⟩ := hu
      have hx0 : 0 < 1 + a := by omega
      have hx1 : 1 + a + 1 < w := by omega
      have hy0 : 0 < 1 + b := by omega
      have hy1 : 1 + b + 1 < h := by omega
      obtain ⟨hLU, hLD, hRU, hRD⟩ := hd hx0 hx1 hy0 hy1
      have := nbrs8_any_false hx0 hx1 hy0 hy1 hT.2 (hR hx1) (hL hx0) (hD hy1) (hU hy0)
        hLU hLD hRU hRD
      rw [← hT.1, h3] at this
      exact Bool.noConfusion this
    · exact hT.zero_of_ne hp
  · exact hT

theorem bndClean_inv {S : Nat → Nat} {h w x y : Nat} (hlab : (S (x * h + y) + 1) % 2 ^ 32 ≠ 0)
    {x' y' : Nat} {T : Nat → Nat} (hT : BndInv S (w * h) (x * h + y) T) :
    BndInv S (w * h) (x * h + y) (bndClean S h x' y' T) := by
  simp only [bndClean]
  by_cases hp : x' * h + y' = x * h + y
  · rw [hp, if_pos (by rw [hT.1]; exact hlab)]
    exact hT
  · have hseed : BndInv S (w * h) (x * h + y)
        (Function.update T (x' * h + y') ((S (x' * h + y') + 1) % 2 ^ 32)) := by
      refine ⟨by simp [Function.update_apply, Ne.symm hp, hT.1], fun r hr => ?_⟩
      by_cases hrq : r = x' * h + y'
      · subst hrq; right; simp
      · simpa [Function.update_apply, hrq] using hT.2 r hr
    split_ifs with h1 h2
    · exact hT
    · exact hseed.zero_of_ne hp
    · exact hseed

/-- C4 (amended).  `boundaries` does not output `0` at a pixel that carries the label of
all its axis neighbours inside the grid and, when it is off the border, of its four
diagonal neighbours too (label below `2^32 - 1`, so that the 1-indexed copy does not
wrap): the pixel keeps the value `S + 1`. -/
theorem boundaries_uniform_not_boundary (T0 S : Nat → Nat) (E : Nat → ℚ) (h w x y : Nat)
    (hx : x < w) (hy : y < h) (hlab : S (x * h + y) + 1 < 2 ^ 32)
    (hu : AxisUniform S h w x y) (hd : DiagUniform S h w x y) :
    boundaries T0 S E h w (x * h + y) = S (x * h + y) + 1 ∧
      boundaries T0 S E h w (x * h + y) ≠ 0 := by
  have hmod : (S (x * h + y) + 1) % 2 ^ 32 = S (x * h + y) + 1 := Nat.mod_eq_of_lt hlab
  have hne : (S (x * h + y) + 1) % 2 ^ 32 ≠ 0 := by rw [hmod]; exact Nat.succ_ne_zero _
  have h1 : BndInv S (w * h) (x * h + y) (forLoop 0 (bndSeed S) (w * h) T0) := by
    refine ⟨by rw [forLoop_bndSeed, if_pos (idx_lt hx hy)], fun q hq => ?_⟩
    right; rw [forLoop_bndSeed, if_pos hq]
  have h2 := forLoop_nest_inv (BndInv S (w * h) (x * h + y)) 0 0 w h (bndFour S E h w) _ h1
    (fun a b t _ hb ht => by
      simpa using bndFour_inv (E := E) hy hu.1 hu.2.1 hu.2.2.1 hu.2.2.2 a b hb ht)
  have h3 := forLoop_nest_inv (BndInv S (w * h) (x * h + y)) 1 1 (w - 2) (h - 2) (bndEight h) _ h2
    (fun a b t ha hb ht => bndEight_inv hy hu hd ha hb ht)
  have h4 := forLoop_nest_inv (BndInv S (w * h) (x * h + y)) 1 1 (w - 2) (h - 2) (bndClean S h)
    _ h3 (fun a b t _ _ ht => bndClean_inv hne ht)
  have hfin : boundaries T0 S E h w (x * h + y) = (S (x * h + y) + 1) % 2 ^ 32 := h4.1
  rw [hfin, hmod]
  exact ⟨rfl, Nat.succ_ne_zero _⟩

/-- C4 (witness).  The theorem at the pixel `(1, 1)` of a `4 × 4` grid whose only other
label sits in the far corner. -/
theorem boundaries_uniform_not_boundary_witness :
    boundaries zeroBuf (ofList [3, 3, 3, 3, 3, 3, 3, 3, 3, 3, 3, 3, 3, 3, 3, 7])
      (fun _ => 1 / 2) 4 4 (1 * 4 + 1) ≠ 0 :=
  (boundaries_uniform_not_boundary zeroBuf
    (ofList [3, 3, 3, 3, 3, 3, 3, 3, 3, 3, 3, 3, 3, 3, 3, 7]) (fun _ => 1 / 2) 4 4 1 1
    (by decide) (by decide) (by decide) (by unfold AxisUniform; decide)
    (by unfold DiagUniform; decide)).2

/-- C4 (counterexample).  On the `3 × 3` grid whose corner `(0, 0)` has label `1` and all
other pixels label `0`, with a constant edge map, the centre pixel carries the label
of its four axis neighbours and `boundaries` still outputs `0` there. -/
theorem boundaries_axis_uniform_counterexample :
    AxisUniform (ofList [1, 0, 0, 0, 0, 0, 0, 0, 0]) 3 3 1 1 ∧
      boundaries zeroBuf (ofList [1, 0, 0, 0, 0, 0, 0, 0, 0]) (fun _ => 1 / 2) 3 3 (1 * 3 + 1)
        = 0 :=
  ⟨by unfold AxisUniform; decide, by decide!⟩

/-! ## `merge`: the scan -/

theorem labelCount_gt (S : Nat → Nat) (n q : Nat) (hq : q < n) : S q < labelCount S n := by
  have key : ∀ n, ∀ q, q < n → S q ≤ forLoop 0 (fun x m => if S x > m then S x else m) n 0 := by
    intro n
    induction n with
    | zero => intro q hq; omega
    | succ n ih =>
      intro q hq
      simp only [forLoop, Nat.zero_add]
      by_cases hqn : q = n
      · subst hqn
        split_ifs <;> omega
      · have := ih q (by omega)
        split_ifs <;> omega
  exact Nat.lt_succ_of_le (key n q hq)

theorem RootsKept.trans {a b c : Nat → Nat} (h1 : RootsKept a b) (h2 : RootsKept b c) :
    RootsKept a c := fun u v h => h2 u v (h1 u v h)

theorem fill_check_false (N : List Nat) {a b : Nat} (ha : a ∈ N) (hb : b ∈ N) (ha0 : a ≠ 0)
    (hb0 : b ≠ 0) (hab : a ≠ b) :
    (N.drop (N.findIdx (fun n => decide (n ≠ 0)))).all
      (fun n => decide (¬ (n ≠ 0 ∧ n ≠ N.getD (N.findIdx (fun n => decide (n ≠ 0))) 0)))
      = false := by
  induction N with
  | nil => cases ha
  | cons n N ih =>
    by_cases hn : n = 0
    · subst hn
      have ha' : a ∈ N := by
        rcases List.mem_cons.mp ha with h | h
        · exact absurd h ha0
        · exact h
      have hb' : b ∈ N := by
        rcases List.mem_cons.mp hb with h | h
        · exact absurd h hb0
        · exact h
      have := ih ha' hb'
      simpa [List.findIdx_cons] using this
    · have hidx : (n :: N).findIdx (fun n => decide (n ≠ 0)) = 0 := by
        simp [List.findIdx_cons, hn]
      rw [hidx]
      simp only [List.drop_zero, List.getD_cons_zero]
      by_cases han : a = n
      · subst han
        exact List.all_eq_false.mpr ⟨b, hb, by simp [hb0, Ne.symm hab]⟩
      · exact List.all_eq_false.mpr ⟨a, ha, by simp [ha0, han]⟩

theorem findRoot_some_eq {map : Nat → Nat} (hp : ParentLt map) {cap : Nat} :
    ∀ fuel t r, findRoot cap map fuel t = some r → r = root map t := by
  intro fuel
  induction fuel with
  | zero => intro t r h; simp [findRoot] at h
  | succ f ih =>
    intro t r h
    simp only [findRoot] at h
    split_ifs at h with h1 h2
    · rw [root_of_zero h2]; exact (Option.some.inj h).symm
    · rw [root_step hp h2]; exact ih _ _ h

theorem findRoot_some_lt {map : Nat → Nat} {cap : Nat} :
    ∀ fuel t r, findRoot cap map fuel t = some r → t < cap := by
  intro fuel t r h
  cases fuel with
  | zero => simp [findRoot] at h
  | succ f =>
    simp only [findRoot] at h
    split_ifs at h with h1 <;> exact h1

theorem compress_some_spec {map : Nat → Nat} (hp : ParentLt map) {cap rep : Nat} :
    ∀ fuel t (map1 mp : Nat → Nat), (∀ v, v ≤ t → map1 v = map v) →
      compress cap rep fuel map1 t = some mp →
      ∀ v, (OnPath map t v → mp v = rep) ∧ (¬ OnPath map t v → mp v = map1 v) := by
  intro fuel
  induction fuel with
  | zero => intro t map1 mp _ h; simp [compress] at h
  | succ f ih =>
    intro t map1 mp hag h
    simp only [compress, hag t (Nat.le_refl t)] at h
    split_ifs at h with h1 h0
    · have hmp := (Option.some.inj h).symm
      subst hmp
      intro v
      refine ⟨fun hv => ?_, fun hv => ?_⟩
      · rcases onPath_iff.mp hv with rfl | ⟨h2, _⟩
        · simp
        · exact absurd h0 h2
      · have : v ≠ t := fun e => hv (by rw [e]; exact OnPath.refl t)
        simp [Function.update_apply, this]
    · have hlt := hp _ h0
      have hspec := ih _ _ _ (fun v hv => by
        have : v ≠ t := by omega
        simp [Function.update_apply, this, hag v (by omega)]) h
      intro v
      refine ⟨fun hv => ?_, fun hv => ?_⟩
      · rcases onPath_iff.mp hv with rfl | ⟨_, h2⟩
        · have hnot : ¬ OnPath map (map v) v := fun hh => by
            have := hh.le hp
            omega
          rw [(hspec v).2 hnot]; simp
        · exact (hspec v).1 h2
      · have hvt : v ≠ t := fun e => hv (by rw [e]; exact OnPath.refl t)
        have hnot : ¬ OnPath map (map t) v := fun hh => hv (OnPath.step h0 hh)
        rw [(hspec v).2 hnot]
        simp [Function.update_apply, hvt]

theorem idsUpTo_succ (S : Nat → Nat) (h z : Nat) :
    idsUpTo S h (z + 1) = idsUpTo S h z + if mintedAt S h z then 1 else 0 := by
  simp only [idsUpTo, List.range_succ, List.filter_append, List.length_append]
  by_cases hm : mintedAt S h z = true
  · simp [List.filter_cons, hm]
  · simp [List.filter_cons, hm]

theorem idsUpTo_mono (S : Nat → Nat) (h : Nat) {a b : Nat} (hab : a ≤ b) :
    idsUpTo S h a ≤ idsUpTo S h b := by
  induction hab with
  | refl => exact Nat.le_refl _
  | step _ ih => rw [idsUpTo_succ]; omega

theorem idsUpTo_le (S : Nat → Nat) (h z : Nat) : idsUpTo S h z ≤ z := by
  induction z with
  | zero => simp [idsUpTo]
  | succ z ih => rw [idsUpTo_succ]; split_ifs <;> omega

/-- The scan copies the id of an earlier pixel `q` to the pixel `z`. -/
theorem RelabelInv.copy {S : Nat → Nat} {h z : Nat} {st : RelabelState}
    (hinv : RelabelInv S h z st) {q : Nat} (hq : q < z) (hm : mintedAt S h z = false) :
    RelabelInv S h (z + 1) { st with T := Function.update st.T z (st.T q) } := by
  obtain ⟨hT, hid, hp, hmap, hcnt⟩ := hinv
  refine ⟨fun i hi => ?_, fun t h1 h2 => ?_, hp, hmap, ?_⟩
  · by_cases hiz : i = z
    · subst hiz; simpa using hT q hq
    · simpa [Function.update_apply, hiz] using hT i (by omega)
  · obtain ⟨i, hi, hTi⟩ := hid t h1 h2
    exact ⟨i, by omega, by
      have : i ≠ z := by omega
      simpa [Function.update_apply, this] using hTi⟩
  · show st.m = _
    rw [idsUpTo_succ, hm, hcnt]; simp

/-- The scan mints a fresh id at the pixel `z`. -/
theorem RelabelInv.mint {S : Nat → Nat} {h z : Nat} {st : RelabelState}
    (hinv : RelabelInv S h z st) (hm : mintedAt S h z = true) :
    RelabelInv S h (z + 1) { st with T := Function.update st.T z st.m, m := st.m + 1 } := by
  obtain ⟨hT, hid, hp, hmap, hcnt⟩ := hinv
  have hm1 : 1 ≤ st.m := by omega
  refine ⟨fun i hi => ?_, fun t h1 h2 => ?_, hp, fun t ht => ?_, ?_⟩
  · by_cases hiz : i = z
    · subst hiz
      simp only [Function.update_same]
      exact ⟨hm1, Nat.lt_succ_self _⟩
    · have := hT i (by omega)
      simp only [Function.update_apply, if_neg hiz]
      exact ⟨this.1, Nat.lt_succ_of_lt this.2⟩
  · by_cases htm : t = st.m
    · exact ⟨z, Nat.lt_succ_self z, by simp [htm]⟩
    · obtain ⟨i, hi, hTi⟩ := hid t h1 (by
        have : t < st.m + 1 := h2
        omega)
      exact ⟨i, by omega, by
        have : i ≠ z := by omega
        simpa [Function.update_apply, this] using hTi⟩
  · exact Nat.lt_succ_of_lt (hmap t ht)
  · show st.m + 1 = _
    rw [idsUpTo_succ, hm, hcnt]; simp

/-- The five ways the body of the inner loop of `relabel` can end at the pixel `z`, with
`a`, `b` the ids of the upper and the left pixel: copy of `a` (the left pixel has
another label, or both ids already have one representative), a union under the
smaller representative, copy of `b`, or a fresh id. -/
theorem relabelInner_cases {S : Nat → Nat} {h cap fuel z : Nat} {st st' : RelabelState}
    (hp : ParentLt st.map) (hz : 1 ≤ z) (hh : 1 ≤ h)
    (hrun : relabelInner S h cap fuel z st = some st') :
    (S (z - 1) = S z ∧
      (S (z - h) = S z → root st.map (st.T (z - 1)) = root st.map (st.T (z - h))) ∧
      st' = { st with T := Function.update st.T z (st.T (z - 1)) }) ∨
    (S (z - 1) = S z ∧ S (z - h) = S z ∧
      root st.map (st.T (z - 1)) < root st.map (st.T (z - h)) ∧
      ∃ mp, (∀ v, (OnPath st.map (st.T (z - h)) v → mp v = root st.map (st.T (z - 1))) ∧
          (¬ OnPath st.map (st.T (z - h)) v → mp v = st.map v)) ∧
        st' = { T := Function.update st.T z (root st.map (st.T (z - 1))), map := mp,
                m := st.m }) ∨
    (S (z - 1) = S z ∧ S (z - h) = S z ∧
      root st.map (st.T (z - h)) < root st.map (st.T (z - 1)) ∧
      ∃ mp, (∀ v, (OnPath st.map (st.T (z - 1)) v → mp v = root st.map (st.T (z - h))) ∧
          (¬ OnPath st.map (st.T (z - 1)) v → mp v = st.map v)) ∧
        st' = { T := Function.update st.T z (root st.map (st.T (z - h))), map := mp,
                m := st.m }) ∨
    (S (z - 1) ≠ S z ∧ S (z - h) = S z ∧
      st' = { st with T := Function.update st.T z (st.T (z - h)) }) ∨
    (S (z - 1) ≠ S z ∧ S (z - h) ≠ S z ∧
      st' = { st with T := Function.update st.T z st.m, m := st.m + 1 }) := by
  have hz1 : z - 1 ≠ z := by omega
  have hzh : z - h ≠ z := by omega
  simp only [relabelInner, relabelAssign] at hrun
  by_cases hA : S (z - 1) = S z
  · simp only [hA, if_true, Function.update_apply, if_neg hz1, if_neg hzh, true_and] at hrun
    by_cases hB : S (z - h) = S z
    · by_cases hne : st.T (z - 1) = st.T (z - h)
      · simp only [hne, ne_eq, not_true_eq_false, false_and, if_false, Option.some.injEq] at hrun
        exact Or.inl ⟨hA, fun _ => by rw [hne], by rw [hne]; exact hrun.symm⟩
      · rw [if_pos ⟨hne, hB⟩] at hrun
        obtain ⟨t1, ht1, hrun⟩ := Option.bind_eq_some.mp hrun
        obtain ⟨t2, ht2, hrun⟩ := Option.bind_eq_some.mp hrun
        have e1 := findRoot_some_eq hp _ _ _ ht1
        have e2 := findRoot_some_eq hp _ _ _ ht2
        subst e1 e2
        split_ifs at hrun with h1 h2
        · exact Or.inl ⟨hA, fun _ => h1, (Option.some.inj hrun).symm⟩
        · obtain ⟨mp, hmp, hst⟩ := Option.map_eq_some'.mp hrun
          refine Or.inr (Or.inl ⟨hA, hB, h2, mp,
            compress_some_spec hp _ _ _ _ (fun _ _ => rfl) hmp, ?_⟩)
          rw [← hst]
          simp
        · obtain ⟨mp, hmp, hst⟩ := Option.map_eq_some'.mp hrun
          refine Or.inr (Or.inr (Or.inl ⟨hA, hB, by omega, mp,
            compress_some_spec hp _ _ _ _ (fun _ _ => rfl) hmp, ?_⟩))
          rw [← hst]
          simp
    · have : ¬ (st.T (z - 1) ≠ st.T (z - h) ∧ S (z - h) = S z) := fun hc => hB hc.2
      rw [if_neg this] at hrun
      exact Or.inl ⟨hA, fun hc => absurd hc hB, (Option.some.inj hrun).symm⟩
  · by_cases hB : S (z - h) = S z
    · simp only [hA, hB, if_false, if_true, false_and, and_false, Option.some.injEq] at hrun
      exact Or.inr (Or.inr (Or.inr (Or.inl ⟨hA, hB, hrun.symm⟩)))
    · simp only [hA, hB, if_false, false_and, and_false, Option.some.injEq] at hrun
      exact Or.inr (Or.inr (Or.inr (Or.inr ⟨hA, hB, hrun.symm⟩)))

/-- The scan gives the pixel `z` an id `v` in use and replaces the table. -/
theorem RelabelInv.set {S : Nat → Nat} {h z : Nat} {st : RelabelState}
    (hinv : RelabelInv S h z st) (hz : 1 ≤ z) (hm : mintedAt S h z = false) {v : Nat}
    (hv1 : 1 ≤ v) (hv : v < st.m) {mp : Nat → Nat} (hp' : ParentLt mp)
    (hmap' : ∀ t, mp t ≠ 0 → t < st.m) :
    RelabelInv S h (z + 1) { T := Function.update st.T z v, map := mp, m := st.m } := by
  obtain ⟨hT, hid, _, _, hcnt⟩ := hinv
  refine ⟨fun i hi => ?_, fun t h1 h2 => ?_, hp', hmap', ?_⟩
  · by_cases hiz : i = z
    · subst hiz; simpa using ⟨hv1, hv⟩
    · simpa [Function.update_apply, hiz] using hT i (by omega)
  · obtain ⟨i, hi, hTi⟩ := hid t h1 h2
    exact ⟨i, by omega, by
      have : i ≠ z := by omega
      simpa [Function.update_apply, this] using hTi⟩
  · show st.m = _
    rw [idsUpTo_succ, hm, hcnt]; simp

theorem mintedAt_firstCol (S : Nat → Nat) {h y : Nat} (hy1 : 1 ≤ y) (hy : y < h) :
    mintedAt S h y = decide (S (y - 1) ≠ S y) := by
  have hmod : y % h = y := Nat.mod_eq_of_lt hy
  simp only [mintedAt, hmod]
  congr 1
  apply propext
  constructor
  · rintro (h0 | ⟨h1 | h1, _⟩)
    · omega
    · omega
    · exact h1
  · intro h1
    exact Or.inr ⟨Or.inr h1, Or.inl hy⟩

theorem mintedAt_top (S : Nat → Nat) {h x : Nat} (hx : 1 ≤ x) (hh : 1 ≤ h) :
    mintedAt S h (x * h) = decide (S (x * h - h) ≠ S (x * h)) := by
  have hge : h ≤ x * h := Nat.le_mul_of_pos_left h hx
  simp only [mintedAt]
  congr 1
  apply propext
  constructor
  · rintro (h0 | ⟨_, h1 | h1⟩)
    · omega
    · omega
    · exact h1
  · intro h1
    exact Or.inr ⟨Or.inl (Nat.mul_mod_left x h), Or.inr h1⟩

theorem mintedAt_inner (S : Nat → Nat) {h x y : Nat} (hx : 1 ≤ x) (hy1 : 1 ≤ y) (hy : y < h) :
    mintedAt S h (y + x * h) =
      decide (S (y + x * h - 1) ≠ S (y + x * h) ∧ S (y + x * h - h) ≠ S (y + x * h)) := by
  have hge : h ≤ x * h := Nat.le_mul_of_pos_left h hx
  have hmod : (y + x * h) % h = y := by
    rw [Nat.add_mul_mod_self_right, Nat.mod_eq_of_lt hy]
  simp only [mintedAt, hmod]
  congr 1
  apply propext
  constructor
  · rintro (h0 | ⟨h1 | h1, h2 | h2⟩)
    · omega
    · omega
    · omega
    · omega
    · exact ⟨h1, h2⟩
  · rintro ⟨h1, h2⟩
    exact Or.inr ⟨Or.inr h1, Or.inr h2⟩

theorem relabelFirstCol_inv {S : Nat → Nat} {h y : Nat} {st : RelabelState}
    (hy1 : 1 ≤ y) (hy : y < h) (hinv : RelabelInv S h y st) :
    RelabelInv S h (y + 1) (relabelFirstCol S y st) := by
  simp only [relabelFirstCol]
  split_ifs with hc
  · exact hinv.copy (by omega) (by rw [mintedAt_firstCol S hy1 hy]; simp [hc])
  · exact hinv.mint (by rw [mintedAt_firstCol S hy1 hy]; simpa using fun e => hc e.symm)

theorem relabelTop_inv {S : Nat → Nat} {h x : Nat} {st : RelabelState}
    (hx : 1 ≤ x) (hh : 1 ≤ h) (hinv : RelabelInv S h (x * h) st) :
    RelabelInv S h (x * h + 1) (relabelTop S h (x * h) st) := by
  have hge : h ≤ x * h := Nat.le_mul_of_pos_left h hx
  simp only [relabelTop]
  split_ifs with hc
  · exact hinv.copy (by omega) (by rw [mintedAt_top S hx hh]; simp [hc])
  · exact hinv.mint (by rw [mintedAt_top S hx hh]; simpa using hc)

theorem relabelInner_inv {S : Nat → Nat} {h cap fuel x y : Nat} {st st' : RelabelState}
    (hx : 1 ≤ x) (hy1 : 1 ≤ y) (hy : y < h) (hinv : RelabelInv S h (y + x * h) st)
    (hrun : relabelInner S h cap fuel (y + x * h) st = some st') :
    RelabelInv S h (y + x * h + 1) st' := by
  have hge : h ≤ x * h := Nat.le_mul_of_pos_left h hx
  have hmint := mintedAt_inner S hx hy1 hy
  obtain ⟨hT, hid, hp, hmap, hcnt⟩ := hinv
  have hinv : RelabelInv S h (y + x * h) st := ⟨hT, hid, hp, hmap, hcnt⟩
  have ha := hT (y + x * h - 1) (by omega)
  have hb := hT (y + x * h - h) (by omega)
  have hra : 1 ≤ root st.map (st.T (y + x * h - 1)) ∧
      root st.map (st.T (y + x * h - 1)) < st.m :=
    ⟨Nat.pos_of_ne_zero (root_ne_zero hp _ (by omega)),
      Nat.lt_of_le_of_lt (root_le hp _) ha.2⟩
  have hrb : 1 ≤ root st.map (st.T (y + x * h - h)) ∧
      root st.map (st.T (y + x * h - h)) < st.m :=
    ⟨Nat.pos_of_ne_zero (root_ne_zero hp _ (by omega)),
      Nat.lt_of_le_of_lt (root_le hp _) hb.2⟩
  rcases relabelInner_cases hp (by omega) (by omega) hrun with
    ⟨hA, _, rfl⟩ | ⟨hA, hB, hlt, mp, hspec, rfl⟩ | ⟨hA, hB, hlt, mp, hspec, rfl⟩ |
    ⟨hA, hB, rfl⟩ | ⟨hA, hB, rfl⟩
  · exact hinv.copy (by omega) (by rw [hmint]; simp [hA])
  · obtain ⟨hp', _⟩ := union_root hp (by omega) (map_root hp _) hlt hspec
    refine hinv.set (by omega) (by rw [hmint]; simp [hA]) hra.1 hra.2 hp' fun t ht => ?_
    by_cases hon : OnPath st.map (st.T (y + x * h - h)) t
    · exact Nat.lt_of_le_of_lt (hon.le hp) hb.2
    · rw [(hspec t).2 hon] at ht; exact hmap t ht
  · obtain ⟨hp', _⟩ := union_root hp (by omega) (map_root hp _) hlt hspec
    refine hinv.set (by omega) (by rw [hmint]; simp [hA]) hrb.1 hrb.2 hp' fun t ht => ?_
    by_cases hon : OnPath st.map (st.T (y + x * h - 1)) t
    · exact Nat.lt_of_le_of_lt (hon.le hp) ha.2
    · rw [(hspec t).2 hon] at ht; exact hmap t ht
  · exact hinv.copy (by omega) (by rw [hmint]; simp [hB])
  · exact hinv.mint (by rw [hmint]; simpa using ⟨hA, hB⟩)

theorem relabelInit_inv (S : Nat → Nat) (h : Nat) :
    RelabelInv S h 1 { T := Function.update (fun _ => 0) 0 1, map := fun _ => 0, m := 2 } := by
  refine ⟨fun i hi => ?_, fun t h1 h2 => ?_, fun t ht => absurd rfl ht,
    fun t ht => absurd rfl ht, ?_⟩
  · have : i = 0 := by omega
    subst this; simp
  · exact ⟨0, by omega, by
      have : t = 1 := by
        have : t < 2 := h2
        omega
      simp [this]⟩
  · show 2 = _
    simp [idsUpTo, List.range_succ, mintedAt]

theorem relabelScan_inv {S : Nat → Nat} {h w cap fuel : Nat} (hh : 1 ≤ h) (hw : 1 ≤ w)
    {st : RelabelState} (hrun : relabelScan S h w cap fuel = some st) :
    RelabelInv S h (w * h) st := by
  have hcol : RelabelInv S h h (forLoop 1 (relabelFirstCol S) (h - 1)
      { T := Function.update (fun _ => 0) 0 1, map := fun _ => 0, m := 2 }) := by
    have := forLoop_inv (fun k t => RelabelInv S h (1 + k) t) 1 (relabelFirstCol S) (h - 1) _
      (relabelInit_inv S h) (fun k t hk ht => by
        have := relabelFirstCol_inv (y := 1 + k) (by omega) (by omega) ht
        simpa [Nat.add_assoc] using this)
    have e : 1 + (h - 1) = h := by omega
    beta_reduce at this
    rwa [e] at this
  have := forLoopM_inv (fun k t => RelabelInv S h ((1 + k) * h) t) 1
    (relabelColumn S h cap fuel) (w - 1) _ (by simpa using hcol) (by
      intro k t u hk ht hu
      simp only [relabelColumn] at hu
      have htop := relabelTop_inv (x := 1 + k) (by omega) hh ht
      have := forLoopM_inv (fun c v => RelabelInv S h ((1 + k) * h + 1 + c) v) 1
        (fun y s => relabelInner S h cap fuel (y + (1 + k) * h) s) (h - 1) _ htop (by
          intro c v v' hc hv hv'
          have := relabelInner_inv (x := 1 + k) (y := 1 + c) (by omega) (by omega) (by omega)
            (by
              have e : 1 + c + (1 + k) * h = (1 + k) * h + 1 + c := by omega
              rw [e]; exact hv) hv'
          have e : 1 + c + (1 + k) * h + 1 = (1 + k) * h + 1 + (c + 1) := by omega
          rwa [e] at this) u hu
      have e : (1 + k) * h + 1 + (h - 1) = (1 + (k + 1)) * h := by
        rw [Nat.add_mul 1 (k + 1) h, Nat.add_mul 1 k h, Nat.add_mul k 1 h]
        omega
      beta_reduce at this
      rwa [e] at this) st hrun
  have e : 1 + (w - 1) = w := by omega
  beta_reduce at this
  rwa [e] at this

/-! ## `relabel`: flattening and the output -/

theorem rootsBelow_succ (map : Nat → Nat) (n : Nat) :
    rootsBelow map (n + 1) = rootsBelow map n + if 1 ≤ n ∧ map n = 0 then 1 else 0 := by
  simp only [rootsBelow, List.range_succ, List.filter_append, List.length_append]
  by_cases hc : 1 ≤ n ∧ map n = 0
  · simp [List.filter_cons, hc]
  · simp only [List.filter_cons, List.filter_nil, if_neg hc]
    have : decide (1 ≤ n ∧ map n = 0) = false := by simpa using hc
    simp [this]

theorem rootsBelow_mono (map : Nat → Nat) {a b : Nat} (hab : a ≤ b) :
    rootsBelow map a ≤ rootsBelow map b := by
  induction hab with
  | refl => exact Nat.le_refl _
  | step _ ih => rw [rootsBelow_succ]; omega

theorem rootsBelow_lt {map : Nat → Nat} {r n : Nat} (hr1 : 1 ≤ r) (hr : map r = 0)
    (hrn : r < n) : rootsBelow map r < rootsBelow map n := by
  have h1 : rootsBelow map (r + 1) = rootsBelow map r + 1 := by
    rw [rootsBelow_succ, if_pos ⟨hr1, hr⟩]
  have h2 := rootsBelow_mono map (show r + 1 ≤ n from hrn)
  omega

theorem rootsBelow_inj {map : Nat → Nat} {r s : Nat} (hr1 : 1 ≤ r) (hr : map r = 0)
    (hs1 : 1 ≤ s) (hs : map s = 0) (he : rootsBelow map r = rootsBelow map s) : r = s := by
  rcases Nat.lt_trichotomy r s with h | h | h
  · have := rootsBelow_lt hr1 hr h; omega
  · exact h
  · have := rootsBelow_lt hs1 hs h; omega

theorem rootsBelow_surj (map : Nat → Nat) (n v : Nat) (hv : v < rootsBelow map n) :
    ∃ r, r < n ∧ 1 ≤ r ∧ map r = 0 ∧ rootsBelow map r = v := by
  induction n with
  | zero => simp [rootsBelow] at hv
  | succ n ih =>
    rw [rootsBelow_succ] at hv
    by_cases hlt : v < rootsBelow map n
    · obtain ⟨r, hr, h1, h2, h3⟩ := ih hlt
      exact ⟨r, by omega, h1, h2, h3⟩
    · by_cases hc : 1 ≤ n ∧ map n = 0
      · rw [if_pos hc] at hv
        exact ⟨n, Nat.lt_succ_self n, hc.1, hc.2, by omega⟩
      · rw [if_neg hc] at hv
        omega

theorem relabelFlatten_spec {map : Nat → Nat} (hp : ParentLt map) {cap : Nat} (n : Nat)
    {p : (Nat → Nat) × Nat} (hrun : forLoopM 1 (relabelFlatten cap) n (map, 0) = some p) :
    p.2 = rootsBelow map (n + 1) ∧
    (∀ t, 1 ≤ t → t ≤ n → p.1 t = rootsBelow map (root map t)) ∧
    (∀ t, n < t → p.1 t = map t) ∧ (1 ≤ n → n < cap) := by
  refine forLoopM_inv (fun k q => q.2 = rootsBelow map (k + 1) ∧
      (∀ t, 1 ≤ t → t ≤ k → q.1 t = rootsBelow map (root map t)) ∧
      (∀ t, k < t → q.1 t = map t) ∧ (1 ≤ k → k < cap))
    1 (relabelFlatten cap) n (map, 0)
    ⟨by simp [rootsBelow, List.range_succ], fun t h1 h2 => by omega, fun t _ => rfl,
      fun h => by omega⟩ ?_ p hrun
  intro k q q' _ ⟨hm1, hdone, hrest, _⟩ hq
  have hcur : q.1 (1 + k) = map (1 + k) := hrest _ (by omega)
  simp only [relabelFlatten, hcur] at hq
  split_ifs at hq with hcap h0 hpc
  · -- a linked id takes the number of its parent
    have hq' := (Option.some.inj hq).symm
    subst hq'
    have hlt := hp _ h0
    have hpar := hdone (map (1 + k)) (Nat.pos_of_ne_zero h0) (by omega)
    refine ⟨?_, fun t h1 h2 => ?_, fun t ht => ?_, fun _ => by omega⟩
    · show q.2 = _
      rw [hm1, rootsBelow_succ (n := k + 1), if_neg]
      · rfl
      · rintro ⟨_, hz⟩
        exact h0 (by rw [Nat.add_comm]; exact hz)
    · by_cases ht : t = 1 + k
      · subst ht
        simp only [Function.update_same]
        rw [hpar, root_step hp h0]
      · simp only [Function.update_apply, if_neg ht]
        exact hdone t h1 (by omega)
    · have : t ≠ 1 + k := by omega
      simp only [Function.update_apply, if_neg this]
      exact hrest t (by omega)
  · -- a representative takes the next number
    have hq' := (Option.some.inj hq).symm
    subst hq'
    have h0' : map (1 + k) = 0 := by simpa using h0
    refine ⟨?_, fun t h1 h2 => ?_, fun t ht => ?_, fun _ => by omega⟩
    · show q.2 + 1 = _
      rw [hm1, rootsBelow_succ (n := k + 1), if_pos]
      exact ⟨by omega, by rw [Nat.add_comm]; exact h0'⟩
    · by_cases ht : t = 1 + k
      · subst ht
        simp only [Function.update_same]
        rw [hm1, root_of_zero h0', Nat.add_comm]
      · simp only [Function.update_apply, if_neg ht]
        exact hdone t h1 (by omega)
    · have : t ≠ 1 + k := by omega
      simp only [Function.update_apply, if_neg this]
      exact hrest t (by omega)

theorem relabelWrite_spec {cap : Nat} {T map S : Nat → Nat} (n : Nat) {out : Nat → Nat}
    (hrun : forLoopM 0 (relabelWrite cap T map) n S = some out) :
    ∀ i, out i = if i < n then map (T i) else S i := by
  refine forLoopM_inv (fun k o => ∀ i, o i = if i < k then map (T i) else S i)
    0 (relabelWrite cap T map) n S (fun i => by simp) ?_ out hrun
  intro k o o' _ ho ho'
  simp only [relabelWrite, Nat.zero_add] at ho'
  split_ifs at ho' with hc
  have := (Option.some.inj ho').symm
  subst this
  intro i
  by_cases hik : i = k
  · subst hik; simp
  · simp only [Function.update_apply, if_neg hik, ho i]
    by_cases hlt : i < k
    · rw [if_pos hlt, if_pos (by omega)]
    · rw [if_neg hlt, if_neg (by omega)]

/-- What a run of `relabel` that stays inside its table returns: the scan ends in a state
with the scan property, the table has room for all ids, and every pixel gets the
number of the representative of its id among the representatives. -/
theorem relabelCap_some {cap : Nat} {S : Nat → Nat} {h w : Nat} (hh : 1 ≤ h) (hw : 1 ≤ w)
    {out : Nat → Nat} (hrun : relabelCap cap S h w = some out) :
    ∃ st, RelabelInv S h (w * h) st ∧ st.m - 1 < cap ∧
      (∀ i, i < w * h → out i = rootsBelow st.map (root st.map (st.T i))) ∧
      (∀ i, w * h ≤ i → out i = S i) := by
  simp only [relabelCap] at hrun
  obtain ⟨st, hst, hrun⟩ := Option.bind_eq_some.mp hrun
  obtain ⟨p, hp, hrun⟩ := Option.bind_eq_some.mp hrun
  have hinv := relabelScan_inv hh hw hst
  obtain ⟨hT, _, hpl, _, hcnt⟩ := hinv
  obtain ⟨_, hdone, _, hcap⟩ := relabelFlatten_spec hpl (st.m - 1) hp
  have hout := relabelWrite_spec (w * h) hrun
  have h0 := hT 0 (Nat.mul_pos hw hh)
  refine ⟨st, relabelScan_inv hh hw hst, hcap (by omega), fun i hi => ?_, fun i hi => ?_⟩
  · have hTi := hT i hi
    rw [hout i, if_pos hi]
    exact hdone _ hTi.1 (by omega)
  · rw [hout i, if_neg (by omega)]

/-! ## `relabel`: runs that stay inside the table -/

theorem relabelAssign_inv {S : Nat → Nat} {h x y : Nat} {st : RelabelState}
    (hx : 1 ≤ x) (hy1 : 1 ≤ y) (hy : y < h) (hinv : RelabelInv S h (y + x * h) st) :
    RelabelInv S h (y + x * h + 1) (relabelAssign S h (y + x * h) st) := by
  have hge : h ≤ x * h := Nat.le_mul_of_pos_left h hx
  have hmint := mintedAt_inner S hx hy1 hy
  simp only [relabelAssign]
  split_ifs with hA hB
  · exact hinv.copy (by omega) (by rw [hmint]; simp [hA])
  · exact hinv.copy (by omega) (by rw [hmint]; simp [hB])
  · exact hinv.mint (by rw [hmint]; simpa using ⟨hA, hB⟩)

theorem relabelInner_total {S : Nat → Nat} {h : Nat} (cap fuel : Nat) {x y : Nat}
    {st : RelabelState}
    (hx : 1 ≤ x) (hy1 : 1 ≤ y) (hy : y < h) (hinv : RelabelInv S h (y + x * h) st)
    (hcap : idsUpTo S h (y + x * h + 1) < cap) (hfuel : idsUpTo S h (y + x * h + 1) < fuel) :
    ∃ st', relabelInner S h cap fuel (y + x * h) st = some st' := by
  have hge : h ≤ x * h := Nat.le_mul_of_pos_left h hx
  obtain ⟨hT, _, hp, _, hcnt⟩ := relabelAssign_inv hx hy1 hy hinv
  have ha := hT (y + x * h - 1) (by omega)
  have hb := hT (y + x * h - h) (by omega)
  simp only [relabelInner]
  generalize relabelAssign S h (y + x * h) st = st1 at hT hp hcnt ha hb
  split_ifs with hc
  · rw [findRoot_eq hp _ _ (by omega) (by omega), findRoot_eq hp _ _ (by omega) (by omega)]
    simp only [Option.some_bind]
    split_ifs with h1 h2
    · exact ⟨_, rfl⟩
    · obtain ⟨mp, hmp, _⟩ := compress_spec hp cap (root st1.map (st1.T (y + x * h - 1)))
        (st1.T (y + x * h - h)) fuel st1.map (fun _ _ => rfl) (by omega) (by omega)
      rw [hmp]; exact ⟨_, rfl⟩
    · obtain ⟨mp, hmp, _⟩ := compress_spec hp cap (root st1.map (st1.T (y + x * h - h)))
        (st1.T (y + x * h - 1)) fuel st1.map (fun _ _ => rfl) (by omega) (by omega)
      rw [hmp]; exact ⟨_, rfl⟩
  · exact ⟨_, rfl⟩

theorem relabelScan_total {S : Nat → Nat} {h w cap : Nat} (fuel : Nat) (hh : 1 ≤ h)
    (hw : 1 ≤ w)
    (hcap : idsUpTo S h (w * h) < cap) (hfuel : idsUpTo S h (w * h) < fuel) :
    ∃ st, relabelScan S h w cap fuel = some st := by
  have hcol : RelabelInv S h h (forLoop 1 (relabelFirstCol S) (h - 1)
      { T := Function.update (fun _ => 0) 0 1, map := fun _ => 0, m := 2 }) := by
    have := forLoop_inv (fun k t => RelabelInv S h (1 + k) t) 1 (relabelFirstCol S) (h - 1) _
      (relabelInit_inv S h) (fun k t hk ht => by
        have := relabelFirstCol_inv (y := 1 + k) (by omega) (by omega) ht
        simpa [Nat.add_assoc] using this)
    have e : 1 + (h - 1) = h := by omega
    beta_reduce at this
    rwa [e] at this
  obtain ⟨st, hst, _⟩ := forLoopM_total (fun k t => RelabelInv S h ((1 + k) * h) t) 1
    (relabelColumn S h cap fuel) (w - 1) _ (by simpa using hcol) (by
      intro k t hk ht
      simp only [relabelColumn]
      have htop := relabelTop_inv (x := 1 + k) (by omega) hh ht
      have hle : (1 + k) * h + h ≤ w * h := by
        have : (1 + k + 1) * h ≤ w * h := Nat.mul_le_mul_right h (by omega)
        rw [Nat.add_mul (1 + k) 1 h] at this
        omega
      obtain ⟨u, hu, hP⟩ := forLoopM_total
        (fun c v => RelabelInv S h ((1 + k) * h + 1 + c) v) 1
        (fun y s => relabelInner S h cap fuel (y + (1 + k) * h) s) (h - 1) _ htop (by
          intro c v hc hv
          have e : 1 + c + (1 + k) * h = (1 + k) * h + 1 + c := by omega
          have hv' : RelabelInv S h (1 + c + (1 + k) * h) v := by rw [e]; exact hv
          have hmono := idsUpTo_mono S h (show 1 + c + (1 + k) * h + 1 ≤ w * h by omega)
          obtain ⟨v', hv''⟩ := relabelInner_total cap fuel (x := 1 + k)
            (y := 1 + c) (by omega) (by omega) (by omega) hv' (by omega) (by omega)
          refine ⟨v', hv'', ?_⟩
          have := relabelInner_inv (x := 1 + k) (y := 1 + c) (by omega) (by omega) (by omega)
            hv' hv''
          have e' : 1 + c + (1 + k) * h + 1 = (1 + k) * h + 1 + (c + 1) := by omega
          rwa [e'] at this)
      refine ⟨u, hu, ?_⟩
      have e : (1 + k) * h + 1 + (h - 1) = (1 + (k + 1)) * h := by
        rw [Nat.add_mul 1 (k + 1) h, Nat.add_mul 1 k h, Nat.add_mul k 1 h]
        omega
      rwa [e] at hP)
  exact ⟨st, hst⟩

theorem relabelCap_total {cap : Nat} {S : Nat → Nat} {h w : Nat} (hh : 1 ≤ h) (hw : 1 ≤ w)
    (hcap : idsUpTo S h (w * h) < cap) : ∃ out, relabelCap cap S h w = some out := by
  have hfuel : idsUpTo S h (w * h) < h * w + 1 := by
    have := idsUpTo_le S h (w * h)
    rw [Nat.mul_comm h w]
    omega
  obtain ⟨st, hst⟩ := relabelScan_total (h * w + 1) hh hw hcap hfuel
  obtain ⟨hT, _, hp, _, hcnt⟩ := relabelScan_inv hh hw hst
  obtain ⟨p, hp1, _⟩ := forLoopM_total (fun k (q : (Nat → Nat) × Nat) => ∀ t, k < t → q.1 t = st.map t)
    1 (relabelFlatten cap) (st.m - 1) (st.map, 0) (fun _ _ => rfl) (by
      intro k q hk hq
      have hcur : q.1 (1 + k) = st.map (1 + k) := hq _ (by omega)
      simp only [relabelFlatten, hcur]
      rw [if_pos (by omega)]
      split_ifs with h0 hlt
      · refine ⟨_, rfl, fun t ht => ?_⟩
        have : t ≠ 1 + k := by omega
        simp only [Function.update_apply, if_neg this]
        exact hq t (by omega)
      · exfalso
        have := hp _ h0
        omega
      · refine ⟨_, rfl, fun t ht => ?_⟩
        have : t ≠ 1 + k := by omega
        simp only [Function.update_apply, if_neg this]
        exact hq t (by omega))
  obtain ⟨out, hout, _⟩ := forLoopM_total (fun _ (_ : Nat → Nat) => True)
    0 (relabelWrite cap st.T p.1) (w * h) S trivial (by
      intro k o hk _
      have := hT k hk
      simp only [relabelWrite, Nat.zero_add]
      rw [if_pos (by omega)]
      exact ⟨_, rfl, trivial⟩)
  exact ⟨out, by simp only [relabelCap, hst, Option.some_bind, hp1, hout]⟩

/-! ## `relabel`: the classes of the scan are the 4-connected components -/

theorem link_symm {S : Nat → Nat} {h n a b : Nat} (hl : Link S h n a b) : Link S h n b a := by
  obtain ⟨ha, hb, hS, hadj⟩ := hl
  refine ⟨hb, ha, hS.symm, ?_⟩
  rcases hadj with h1 | h1 | h1 | h1
  · exact Or.inr (Or.inl h1)
  · exact Or.inl h1
  · exact Or.inr (Or.inr (Or.inr h1))
  · exact Or.inr (Or.inr (Or.inl h1))

theorem link_mono {S : Nat → Nat} {h n n' a b : Nat} (hn : n ≤ n') (hl : Link S h n a b) :
    Link S h n' a b :=
  ⟨Nat.lt_of_lt_of_le hl.1 hn, Nat.lt_of_lt_of_le hl.2.1 hn, hl.2.2⟩

theorem conn_symm {S : Nat → Nat} {h n a b : Nat} (hc : Conn S h n a b) : Conn S h n b a :=
  Relation.ReflTransGen.symmetric (fun _ _ hl => link_symm hl) hc

theorem conn_mono {S : Nat → Nat} {h n n' a b : Nat} (hn : n ≤ n') (hc : Conn S h n a b) :
    Conn S h n' a b :=
  Relation.ReflTransGen.mono (fun _ _ hl => link_mono hn hl) hc

theorem conn_trans {S : Nat → Nat} {h n a b c : Nat} (h1 : Conn S h n a b)
    (h2 : Conn S h n b c) : Conn S h n a c :=
  Relation.ReflTransGen.trans h1 h2

theorem conn_of_link {S : Nat → Nat} {h n a b : Nat} (hl : Link S h n a b) : Conn S h n a b :=
  Relation.ReflTransGen.single hl

theorem conn_label_eq {S : Nat → Nat} {h n a b : Nat} (hc : Conn S h n a b) : S a = S b := by
  induction hc with
  | refl => rfl
  | tail _ hl ih => exact ih.trans hl.2.2.1

/-- The pixels before `z` that are linked to the pixel `z`: the one above it and the one
to its left. -/
theorem link_before {S : Nat → Nat} {h z j : Nat} (hj : j < z) (hl : Link S h (z + 1) z j) :
    S z = S j ∧ ((j = z - 1 ∧ z % h ≠ 0) ∨ (j = z - h ∧ h ≤ z)) := by
  obtain ⟨_, _, hS, hadj⟩ := hl
  refine ⟨hS, ?_⟩
  rcases hadj with h1 | h1 | h1 | h1
  · omega
  · exact Or.inl ⟨by omega, h1.2⟩
  · omega
  · exact Or.inr ⟨by omega, by omega⟩

/-- One step of the scan, with `c` and `c'` the representative of the id of a pixel
before and after the step. -/
theorem conn_step {S : Nat → Nat} {h z : Nat} (c c' : Nat → Nat)
    (hs : ∀ i j, i < z → j < z → c i = c j → Conn S h z i j)
    (hc : ∀ i j, Link S h z i j → c i = c j)
    (hmerge : ∀ i j, i < z → j < z → c i = c j → c' i = c' j)
    (hsplit : ∀ i j, i < z → j < z → c' i = c' j → c i = c j ∨ Conn S h (z + 1) i j)
    (hnew : ∀ j, j < z → c' z = c' j → Conn S h (z + 1) z j)
    (hadj : ∀ j, j < z → Link S h (z + 1) z j → c' z = c' j) :
    (∀ i j, i < z + 1 → j < z + 1 → c' i = c' j → Conn S h (z + 1) i j) ∧
    (∀ i j, Link S h (z + 1) i j → c' i = c' j) := by
  constructor
  · intro i j hi hj e
    by_cases hiz : i = z
    · by_cases hjz : j = z
      · rw [hiz, hjz]; exact Relation.ReflTransGen.refl
      · rw [hiz] at e ⊢
        exact hnew j (by omega) e
    · by_cases hjz : j = z
      · rw [hjz] at e ⊢
        exact conn_symm (hnew i (by omega) e.symm)
      · rcases hsplit i j (by omega) (by omega) e with h1 | h1
        · exact conn_mono (Nat.le_succ z) (hs i j (by omega) (by omega) h1)
        · exact h1
  · intro i j hl
    by_cases hiz : i = z
    · by_cases hjz : j = z
      · rw [hiz, hjz]
      · rw [hiz] at hl ⊢
        exact hadj j (by have := hl.2.1; omega) hl
    · by_cases hjz : j = z
      · rw [hjz] at hl ⊢
        exact (hadj i (by have := hl.1; omega) (link_symm hl)).symm
      · have hi := hl.1
        have hj := hl.2.1
        exact hmerge i j (by omega) (by omega)
          (hc i j ⟨by omega, by omega, hl.2.2⟩)

/-- The scan copies the id of the linked pixel `q` to the pixel `z`. -/
theorem connInv_copy {S : Nat → Nat} {h z : Nat} {st : RelabelState}
    (hinv : ConnInv S h z st) {q : Nat} (hq : q < z) (hlink : Link S h (z + 1) z q)
    (hall : ∀ j, j < z → Link S h (z + 1) z j →
      root st.map (st.T j) = root st.map (st.T q)) :
    ConnInv S h (z + 1) { st with T := Function.update st.T z (st.T q) } := by
  obtain ⟨hs, hc⟩ := hinv
  have hold : ∀ i, i < z → Function.update st.T z (st.T q) i = st.T i := fun i hi => by
    rw [Function.update_apply, if_neg (by omega)]
  have hz : Function.update st.T z (st.T q) z = st.T q := Function.update_same _ _ _
  refine conn_step (fun i => root st.map (st.T i))
    (fun i => root st.map (Function.update st.T z (st.T q) i)) hs hc ?_ ?_ ?_ ?_
  · intro i j hi hj e
    show root st.map _ = root st.map _
    rw [hold i hi, hold j hj]; exact e
  · intro i j hi hj e
    have e' : root st.map (Function.update st.T z (st.T q) i) =
        root st.map (Function.update st.T z (st.T q) j) := e
    rw [hold i hi, hold j hj] at e'
    exact Or.inl e'
  · intro j hj e
    have e' : root st.map (Function.update st.T z (st.T q) z) =
        root st.map (Function.update st.T z (st.T q) j) := e
    rw [hz, hold j hj] at e'
    exact conn_trans (conn_of_link hlink) (conn_mono (Nat.le_succ z) (hs q j hq hj e'))
  · intro j hj hl
    show root st.map _ = root st.map _
    rw [hz, hold j hj]
    exact (hall j hj hl).symm

/-- The scan mints a fresh id at the pixel `z`, which no earlier pixel is linked to. -/
theorem connInv_mint {S : Nat → Nat} {h z : Nat} {st : RelabelState}
    (hinv : ConnInv S h z st) (hrel : RelabelInv S h z st)
    (hnone : ∀ j, j < z → ¬ Link S h (z + 1) z j) :
    ConnInv S h (z + 1) { st with T := Function.update st.T z st.m, m := st.m + 1 } := by
  obtain ⟨hs, hc⟩ := hinv
  obtain ⟨hT, _, hp, hmap, _⟩ := hrel
  have hold : ∀ i, i < z → Function.update st.T z st.m i = st.T i := fun i hi => by
    rw [Function.update_apply, if_neg (by omega)]
  have hz : Function.update st.T z st.m z = st.m := Function.update_same _ _ _
  have hm0 : st.map st.m = 0 := by
    by_contra hne
    exact Nat.lt_irrefl _ (hmap _ hne)
  refine conn_step (fun i => root st.map (st.T i))
    (fun i => root st.map (Function.update st.T z st.m i)) hs hc ?_ ?_ ?_ ?_
  · intro i j hi hj e
    show root st.map _ = root st.map _
    rw [hold i hi, hold j hj]; exact e
  · intro i j hi hj e
    have e' : root st.map (Function.update st.T z st.m i) =
        root st.map (Function.update st.T z st.m j) := e
    rw [hold i hi, hold j hj] at e'
    exact Or.inl e'
  · intro j hj e
    have e' : root st.map (Function.update st.T z st.m z) =
        root st.map (Function.update st.T z st.m j) := e
    rw [hz, hold j hj, root_of_zero hm0] at e'
    have := root_le hp (st.T j)
    have := (hT j hj).2
    omega
  · intro j hj hl
    exact absurd hl (hnone j hj)

/-- The scan joins the classes of the two linked pixels `a` and `b` under the
representative of `a` and gives it to the pixel `z`. -/
theorem connInv_union {S : Nat → Nat} {h z : Nat} {st : RelabelState}
    (hinv : ConnInv S h z st) (hp : ParentLt st.map) {a b : Nat} (ha : a < z) (hb : b < z)
    (hla : Link S h (z + 1) z a) (hlb : Link S h (z + 1) z b)
    (hall : ∀ j, j < z → Link S h (z + 1) z j → j = a ∨ j = b) {mp : Nat → Nat}
    (hroot : ∀ u, root mp u =
      if root st.map u = root st.map (st.T b) then root st.map (st.T a) else root st.map u) :
    ConnInv S h (z + 1)
      { T := Function.update st.T z (root st.map (st.T a)), map := mp, m := st.m } := by
  obtain ⟨hs, hc⟩ := hinv
  have hold : ∀ i, i < z → root mp (Function.update st.T z (root st.map (st.T a)) i) =
      if root st.map (st.T i) = root st.map (st.T b) then root st.map (st.T a)
      else root st.map (st.T i) := fun i hi => by
    rw [Function.update_apply, if_neg (by omega), hroot]
  have hz : root mp (Function.update st.T z (root st.map (st.T a)) z) =
      root st.map (st.T a) := by
    rw [Function.update_same, hroot, root_root hp]
    split_ifs <;> rfl
  have cza : Conn S h (z + 1) z a := conn_of_link hla
  have czb : Conn S h (z + 1) z b := conn_of_link hlb
  have up : ∀ i j, i < z → j < z → root st.map (st.T i) = root st.map (st.T j) →
      Conn S h (z + 1) i j := fun i j hi hj e => conn_mono (Nat.le_succ z) (hs i j hi hj e)
  refine conn_step (fun i => root st.map (st.T i))
    (fun i => root mp (Function.update st.T z (root st.map (st.T a)) i)) hs hc ?_ ?_ ?_ ?_
  · intro i j hi hj e
    have e' : root st.map (st.T i) = root st.map (st.T j) := e
    show root mp _ = root mp _
    rw [hold i hi, hold j hj, e']
  · intro i j hi hj e
    have e' : root mp (Function.update st.T z (root st.map (st.T a)) i) =
        root mp (Function.update st.T z (root st.map (st.T a)) j) := e
    rw [hold i hi, hold j hj] at e'
    by_cases h1 : root st.map (st.T i) = root st.map (st.T b)
    · by_cases h2 : root st.map (st.T j) = root st.map (st.T b)
      · exact Or.inl (h1.trans h2.symm)
      · rw [if_pos h1, if_neg h2] at e'
        exact Or.inr (conn_trans (up i b hi hb h1) (conn_trans (conn_symm czb)
          (conn_trans cza (up a j ha hj e'))))
    · by_cases h2 : root st.map (st.T j) = root st.map (st.T b)
      · rw [if_neg h1, if_pos h2] at e'
        exact Or.inr (conn_trans (up i a hi ha e') (conn_trans (conn_symm cza)
          (conn_trans czb (up b j hb hj h2.symm))))
      · rw [if_neg h1, if_neg h2] at e'
        exact Or.inl e'
  · intro j hj e
    have e' : root mp (Function.update st.T z (root st.map (st.T a)) z) =
        root mp (Function.update st.T z (root st.map (st.T a)) j) := e
    rw [hz, hold j hj] at e'
    by_cases h2 : root st.map (st.T j) = root st.map (st.T b)
    · exact conn_trans czb (up b j hb hj h2.symm)
    · rw [if_neg h2] at e'
      exact conn_trans cza (up a j ha hj e')
  · intro j hj hl
    show root mp _ = root mp _
    rw [hz, hold j hj]
    rcases hall j hj hl with e | e
    · rw [e]
      split_ifs with h1
      · rfl
      · rfl
    · rw [e, if_pos rfl]

theorem relabelFirstCol_conn {S : Nat → Nat} {h y : Nat} {st : RelabelState}
    (hy1 : 1 ≤ y) (hy : y < h) (hrel : RelabelInv S h y st) (hinv : ConnInv S h y st) :
    ConnInv S h (y + 1) (relabelFirstCol S y st) := by
  have hmod : y % h = y := Nat.mod_eq_of_lt hy
  have honly : ∀ j, j < y → Link S h (y + 1) y j → S y = S j ∧ j = y - 1 := by
    intro j hj hl
    obtain ⟨hS, h1 | h1⟩ := link_before hj hl
    · exact ⟨hS, h1.1⟩
    · omega
  simp only [relabelFirstCol]
  split_ifs with hc
  · refine connInv_copy hinv (by omega) ⟨by omega, by omega, hc, Or.inr (Or.inl ⟨by omega, by omega⟩)⟩ ?_
    intro j hj hl
    rw [(honly j hj hl).2]
  · refine connInv_mint hinv hrel fun j hj hl => hc ?_
    obtain ⟨hS, e⟩ := honly j hj hl
    rw [hS, e]

theorem relabelTop_conn {S : Nat → Nat} {h x : Nat} {st : RelabelState}
    (hx : 1 ≤ x) (hh : 1 ≤ h) (hrel : RelabelInv S h (x * h) st)
    (hinv : ConnInv S h (x * h) st) :
    ConnInv S h (x * h + 1) (relabelTop S h (x * h) st) := by
  have hge : h ≤ x * h := Nat.le_mul_of_pos_left h hx
  have hmod : x * h % h = 0 := Nat.mul_mod_left x h
  have honly : ∀ j, j < x * h → Link S h (x * h + 1) (x * h) j →
      S (x * h) = S j ∧ j = x * h - h := by
    intro j hj hl
    obtain ⟨hS, h1 | h1⟩ := link_before hj hl
    · exact absurd hmod h1.2
    · exact ⟨hS, h1.1⟩
  simp only [relabelTop]
  split_ifs with hc
  · refine connInv_copy hinv (by omega) ⟨by omega, by omega, hc.symm,
      Or.inr (Or.inr (Or.inr (by omega)))⟩ ?_
    intro j hj hl
    rw [(honly j hj hl).2]
  · refine connInv_mint hinv hrel fun j hj hl => hc ?_
    obtain ⟨hS, e⟩ := honly j hj hl
    rw [hS, e]

theorem relabelInner_conn {S : Nat → Nat} {h cap fuel x y : Nat} {st st' : RelabelState}
    (hx : 1 ≤ x) (hy1 : 1 ≤ y) (hy : y < h) (hrel : RelabelInv S h (y + x * h) st)
    (hinv : ConnInv S h (y + x * h) st)
    (hrun : relabelInner S h cap fuel (y + x * h) st = some st') :
    ConnInv S h (y + x * h + 1) st' := by
  have hge : h ≤ x * h := Nat.le_mul_of_pos_left h hx
  have hmod : (y + x * h) % h = y := by
    rw [Nat.add_mul_mod_self_right, Nat.mod_eq_of_lt hy]
  have hp := hrel.2.2.1
  have honly : ∀ j, j < y + x * h → Link S h (y + x * h + 1) (y + x * h) j →
      S (y + x * h) = S j ∧ (j = y + x * h - 1 ∨ j = y + x * h - h) := by
    intro j hj hl
    obtain ⟨hS, h1 | h1⟩ := link_before hj hl
    · exact ⟨hS, Or.inl h1.1⟩
    · exact ⟨hS, Or.inr h1.1⟩
  have lup : S (y + x * h - 1) = S (y + x * h) →
      Link S h (y + x * h + 1) (y + x * h) (y + x * h - 1) := fun e =>
    ⟨by omega, by omega, e.symm, Or.inr (Or.inl ⟨by omega, by omega⟩)⟩
  have lleft : S (y + x * h - h) = S (y + x * h) →
      Link S h (y + x * h + 1) (y + x * h) (y + x * h - h) := fun e =>
    ⟨by omega, by omega, e.symm, Or.inr (Or.inr (Or.inr (by omega)))⟩
  rcases relabelInner_cases hp (by omega) (by omega) hrun with
    ⟨hA, hsame, rfl⟩ | ⟨hA, hB, hlt, mp, hspec, rfl⟩ | ⟨hA, hB, hlt, mp, hspec, rfl⟩ |
    ⟨hA, hB, rfl⟩ | ⟨hA, hB, rfl⟩
  · refine connInv_copy hinv (by omega) (lup hA) ?_
    intro j hj hl
    obtain ⟨hS, e | e⟩ := honly j hj hl
    · rw [e]
    · rw [e]
      rw [e] at hS
      exact (hsame hS.symm).symm
  · obtain ⟨_, hroot⟩ := union_root hp (root_ne_zero hp _ (by
      have := (hrel.1 (y + x * h - 1) (by omega)).1
      omega)) (map_root hp _) hlt hspec
    exact connInv_union hinv hp (by omega) (by omega) (lup hA) (lleft hB)
      (fun j hj hl => (honly j hj hl).2) hroot
  · obtain ⟨_, hroot⟩ := union_root hp (root_ne_zero hp _ (by
      have := (hrel.1 (y + x * h - h) (by omega)).1
      omega)) (map_root hp _) hlt hspec
    exact connInv_union hinv hp (by omega) (by omega) (lleft hB) (lup hA)
      (fun j hj hl => ((honly j hj hl).2).symm) hroot
  · refine connInv_copy hinv (by omega) (lleft hB) ?_
    intro j hj hl
    obtain ⟨hS, e | e⟩ := honly j hj hl
    · rw [e] at hS
      exact absurd hS.symm hA
    · rw [e]
  · refine connInv_mint hinv hrel fun j hj hl => ?_
    obtain ⟨hS, e | e⟩ := honly j hj hl
    · rw [e] at hS
      exact hA hS.symm
    · rw [e] at hS
      exact hB hS.symm

theorem relabelInit_conn (S : Nat → Nat) (h : Nat) :
    ConnInv S h 1 { T := Function.update (fun _ => 0) 0 1, map := fun _ => 0, m := 2 } := by
  constructor
  · intro i j hi hj _
    have e1 : i = 0 := by omega
    have e2 : j = 0 := by omega
    rw [e1, e2]
    exact Relation.ReflTransGen.refl
  · intro i j hl
    have e1 : i = 0 := by have := hl.1; omega
    have e2 : j = 0 := by have := hl.2.1; omega
    rw [e1, e2]

theorem relabelScan_conn {S : Nat → Nat} {h w cap fuel : Nat} (hh : 1 ≤ h) (hw : 1 ≤ w)
    {st : RelabelState} (hrun : relabelScan S h w cap fuel = some st) :
    ConnInv S h (w * h) st := by
  have hcol : RelabelInv S h h (forLoop 1 (relabelFirstCol S) (h - 1)
        { T := Function.update (fun _ => 0) 0 1, map := fun _ => 0, m := 2 }) ∧
      ConnInv S h h (forLoop 1 (relabelFirstCol S) (h - 1)
        { T := Function.update (fun _ => 0) 0 1, map := fun _ => 0, m := 2 }) := by
    have := forLoop_inv (fun k t => RelabelInv S h (1 + k) t ∧ ConnInv S h (1 + k) t) 1
      (relabelFirstCol S) (h - 1) _ ⟨relabelInit_inv S h, relabelInit_conn S h⟩
      (fun k t hk ht => by
        have h1 := relabelFirstCol_inv (y := 1 + k) (by omega) (by omega) ht.1
        have h2 := relabelFirstCol_conn (y := 1 + k) (by omega) (by omega) ht.1 ht.2
        exact ⟨by simpa [Nat.add_assoc] using h1, by simpa [Nat.add_assoc] using h2⟩)
    have e : 1 + (h - 1) = h := by omega
    beta_reduce at this
    rwa [e] at this
  have := forLoopM_inv
    (fun k t => RelabelInv S h ((1 + k) * h) t ∧ ConnInv S h ((1 + k) * h) t) 1
    (relabelColumn S h cap fuel) (w - 1) _ (by simpa using hcol) (by
      intro k t u hk ht hu
      simp only [relabelColumn] at hu
      have htop := relabelTop_inv (x := 1 + k) (by omega) hh ht.1
      have htop' := relabelTop_conn (x := 1 + k) (by omega) hh ht.1 ht.2
      have := forLoopM_inv (fun c v => RelabelInv S h ((1 + k) * h + 1 + c) v ∧
          ConnInv S h ((1 + k) * h + 1 + c) v) 1
        (fun y s => relabelInner S h cap fuel (y + (1 + k) * h) s) (h - 1) _ ⟨htop, htop'⟩ (by
          intro c v v' hc hv hv'
          have e0 : 1 + c + (1 + k) * h = (1 + k) * h + 1 + c := by omega
          have e : 1 + c + (1 + k) * h + 1 = (1 + k) * h + 1 + (c + 1) := by omega
          have h1 := relabelInner_inv (x := 1 + k) (y := 1 + c) (by omega) (by omega) (by omega)
            (by rw [e0]; exact hv.1) hv'
          have h2 := relabelInner_conn (x := 1 + k) (y := 1 + c) (by omega) (by omega)
            (by omega) (by rw [e0]; exact hv.1) (by rw [e0]; exact hv.2) hv'
          rw [e] at h1 h2
          exact ⟨h1, h2⟩) u hu
      have e : (1 + k) * h + 1 + (h - 1) = (1 + (k + 1)) * h := by
        rw [Nat.add_mul 1 (k + 1) h, Nat.add_mul 1 k h, Nat.add_mul k 1 h]
        omega
      beta_reduce at this
      rwa [e] at this) st hrun
  have e : 1 + (w - 1) = w := by omega
  beta_reduce at this
  rw [e] at this
  exact this.2

/-- Two pixels of the grid have the same label in the output of `relabel` exactly when a
path of axis-adjacent pixels of one input label joins them, in every call that stays
inside the table. -/
theorem relabelCap_components {cap : Nat} {S : Nat → Nat} {h w : Nat} (hh : 1 ≤ h)
    (hw : 1 ≤ w) {out : Nat → Nat} (hrun : relabelCap cap S h w = some out) {i j : Nat}
    (hi : i < w * h) (hj : j < w * h) : out i = out j ↔ Conn S h (w * h) i j := by
  have hrun' := hrun
  simp only [relabelCap] at hrun'
  obtain ⟨st, hst, hrest⟩ := Option.bind_eq_some.mp hrun'
  obtain ⟨p, hp, hwr⟩ := Option.bind_eq_some.mp hrest
  obtain ⟨hT, _, hpl, _, _⟩ := relabelScan_inv hh hw hst
  obtain ⟨hs, hc⟩ := relabelScan_conn hh hw hst
  obtain ⟨_, hdone, _, _⟩ := relabelFlatten_spec hpl (st.m - 1) hp
  have hout := relabelWrite_spec (w * h) hwr
  have hval : ∀ k, k < w * h → out k = rootsBelow st.map (root st.map (st.T k)) := by
    intro k hk
    have hTk := hT k hk
    rw [hout k, if_pos hk]
    exact hdone _ hTk.1 (by omega)
  have hr1 : ∀ k, k < w * h → 1 ≤ root st.map (st.T k) := fun k hk =>
    Nat.pos_of_ne_zero (root_ne_zero hpl _ (by have := (hT k hk).1; omega))
  rw [hval i hi, hval j hj]
  constructor
  · intro e
    exact hs i j hi hj (rootsBelow_inj (hr1 i hi) (map_root hpl _) (hr1 j hj)
      (map_root hpl _) e)
  · intro hconn
    have key : ∀ a b, Conn S h (w * h) a b →
        root st.map (st.T a) = root st.map (st.T b) := by
      intro a b hab
      induction hab with
      | refl => rfl
      | tail _ hl ih => exact ih.trans (hc _ _ hl)
    rw [key i j hconn]

/-! ## `relabel`: a second call changes nothing -/

theorem forLoop_congr {σ : Type} (lo : Nat) {body body' : Nat → σ → σ} (n : Nat) (s : σ)
    (hb : ∀ k t, k < n → body (lo + k) t = body' (lo + k) t) :
    forLoop lo body n s = forLoop lo body' n s := by
  induction n with
  | zero => rfl
  | succ n ih =>
    simp only [forLoop]
    rw [ih fun k t hk => hb k t (Nat.lt_succ_of_lt hk), hb n _ (Nat.lt_succ_self n)]

theorem forLoopM_congr {σ : Type} (lo : Nat) {body body' : Nat → σ → Option σ} (n : Nat)
    (s : σ) (hb : ∀ k t, k < n → body (lo + k) t = body' (lo + k) t) :
    forLoopM lo body n s = forLoopM lo body' n s := by
  induction n with
  | zero => rfl
  | succ n ih =>
    simp only [forLoopM]
    rw [ih fun k t hk => hb k t (Nat.lt_succ_of_lt hk)]
    congr 1
    funext t
    exact hb n t (Nat.lt_succ_self n)

/-- The raster scan reads the label map only through the comparisons of a pixel with the
pixel above it and the pixel to its left. -/
theorem relabelScan_congr {S S' : Nat → Nat} {h w : Nat} (cap fuel : Nat) (hh : 1 ≤ h)
    (hw1 : 1 ≤ w)
    (hup : ∀ z, z < w * h → z % h ≠ 0 → (S (z - 1) = S z ↔ S' (z - 1) = S' z))
    (hleft : ∀ z, z < w * h → h ≤ z → (S (z - h) = S z ↔ S' (z - h) = S' z)) :
    relabelScan S h w cap fuel = relabelScan S' h w cap fuel := by
  have hhw : h ≤ w * h := Nat.le_mul_of_pos_left h hw1
  simp only [relabelScan]
  have hcol : forLoop 1 (relabelFirstCol S) (h - 1)
      { T := Function.update (fun _ => 0) 0 1, map := fun _ => 0, m := 2 } =
      forLoop 1 (relabelFirstCol S') (h - 1)
      { T := Function.update (fun _ => 0) 0 1, map := fun _ => 0, m := 2 } := by
    refine forLoop_congr 1 _ _ fun k t hk => ?_
    have hmod : (1 + k) % h = 1 + k := Nat.mod_eq_of_lt (by omega)
    have e := hup (1 + k) (by omega) (by omega)
    have e' : S (1 + k) = S (1 + k - 1) ↔ S' (1 + k) = S' (1 + k - 1) :=
      ⟨fun hc => (e.mp hc.symm).symm, fun hc => (e.mpr hc.symm).symm⟩
    simp only [relabelFirstCol, e']
  rw [hcol]
  refine forLoopM_congr 1 _ _ fun k t hk => ?_
  have hlt : (1 + k) * h + h ≤ w * h := by
    have : (1 + k) * h + h = (1 + k + 1) * h := by ring
    rw [this]
    exact Nat.mul_le_mul_right h (by omega)
  have hge : h ≤ (1 + k) * h := Nat.le_mul_of_pos_left h (by omega)
  simp only [relabelColumn]
  have htop : relabelTop S h ((1 + k) * h) t = relabelTop S' h ((1 + k) * h) t := by
    have e := hleft ((1 + k) * h) (by omega) hge
    simp only [relabelTop, e]
  rw [htop]
  refine forLoopM_congr 1 _ _ fun c u hc => ?_
  have hmod : (1 + c + (1 + k) * h) % h = 1 + c := by
    rw [Nat.add_mul_mod_self_right, Nat.mod_eq_of_lt (by omega)]
  have e1 := hup (1 + c + (1 + k) * h) (by omega) (by omega)
  have e2 := hleft (1 + c + (1 + k) * h) (by omega) (by omega)
  simp only [relabelInner, relabelAssign, e1, e2]

/-- In every call that stays inside the table, the output of `relabel` is a fixed point of
`relabel`. -/
theorem relabelCap_idempotent {cap : Nat} {S : Nat → Nat} {h w : Nat} (hh : 1 ≤ h)
    (hw : 1 ≤ w) {out : Nat → Nat} (hrun : relabelCap cap S h w = some out) :
    relabelCap cap out h w = some out := by
  have hcomp := fun i j hi hj => relabelCap_components hh hw hrun (i := i) (j := j) hi hj
  have hhw : h ≤ w * h := Nat.le_mul_of_pos_left h hw
  have hup : ∀ z, z < w * h → z % h ≠ 0 → (S (z - 1) = S z ↔ out (z - 1) = out z) := by
    intro z hz hm
    have hz0 : z ≠ 0 := fun e => hm (by rw [e]; exact Nat.zero_mod h)
    constructor
    · intro e
      exact (hcomp _ _ (by omega) hz).mpr (conn_of_link
        ⟨by omega, hz, e, Or.inl ⟨by omega, hm⟩⟩)
    · intro e
      exact conn_label_eq ((hcomp _ _ (by omega) hz).mp e)
  have hleft : ∀ z, z < w * h → h ≤ z → (S (z - h) = S z ↔ out (z - h) = out z) := by
    intro z hz hge
    constructor
    · intro e
      exact (hcomp _ _ (by omega) hz).mpr (conn_of_link
        ⟨by omega, hz, e, Or.inr (Or.inr (Or.inl (by omega)))⟩)
    · intro e
      exact conn_label_eq ((hcomp _ _ (by omega) hz).mp e)
  have hscan := relabelScan_congr cap (h * w + 1) hh hw hup hleft
  have hrun' := hrun
  simp only [relabelCap] at hrun' ⊢
  rw [← hscan]
  obtain ⟨st, hst, hrest⟩ := Option.bind_eq_some.mp hrun'
  obtain ⟨p, hp, hwr⟩ := Option.bind_eq_some.mp hrest
  rw [hst, Option.some_bind, hp, Option.some_bind]
  have hout := relabelWrite_spec (w * h) hwr
  obtain ⟨hT, _, hpl, _, _⟩ := relabelScan_inv hh hw hst
  obtain ⟨_, _, _, hcap⟩ := relabelFlatten_spec hpl (st.m - 1) hp
  obtain ⟨out', hout', hspec⟩ := forLoopM_total
    (fun k (o : Nat → Nat) => ∀ i, o i = if i < k then p.1 (st.T i) else out i) 0
    (relabelWrite cap st.T p.1) (w * h) out (fun i => by simp) (by
      intro k o hk ho
      have hin : st.T k < cap := by
        have h1 := hT k hk
        have h2 := hcap (by omega)
        omega
      refine ⟨Function.update o k (p.1 (st.T k)), by
        simp only [relabelWrite, Nat.zero_add, if_pos hin], fun i => ?_⟩
      by_cases hik : i = k
      · rw [hik, Function.update_same, if_pos (Nat.lt_succ_self k)]
      · rw [Function.update_apply, if_neg hik, ho i]
        by_cases hlt : i < k
        · rw [if_pos hlt, if_pos (by omega)]
        · rw [if_neg hlt, if_neg (by omega)])
  rw [hout']
  congr 1
  funext i
  rw [hspec i, hout i]
  split_ifs
  · rfl
  · rfl

/-! ## `relabel`: the claims -/

/-- C2 (amended).  When the number of provisional ids minted by the raster scan is below
the length `h*w/2` of the table, `relabel` returns, and the labels of its output on the
`h × w` grid are exactly `0, 1, ..., k-1` for some `k ≥ 1`: they are consecutive and
none is skipped, and they start at `0`. -/
theorem relabel_labels_consecutive_from_zero (S : Nat → Nat) (h w : Nat) (hh : 1 ≤ h)
    (hw : 1 ≤ w) (hcap : relabelIds S h w < h * w / 2) :
    ∃ out, relabel S h w = some out ∧
      ∃ k, 1 ≤ k ∧ ∀ v, (∃ i, i < w * h ∧ out i = v) ↔ v < k := by
  have hcap' : idsUpTo S h (w * h) < h * w / 2 := by
    rw [Nat.mul_comm w h]
    exact hcap
  obtain ⟨out, hrun⟩ : ∃ out, relabel S h w = some out := relabelCap_total hh hw hcap'
  refine ⟨out, hrun, ?_⟩
  obtain ⟨st, ⟨hT, hid, hp, _, _⟩, _, hout, _⟩ := relabelCap_some hh hw hrun
  have h0 := hT 0 (Nat.mul_pos hw hh)
  have hone : st.map 1 = 0 := by
    by_contra hne
    have := hp 1 hne
    omega
  refine ⟨rootsBelow st.map st.m, ?_, fun v => ⟨?_, fun hv => ?_⟩⟩
  · have := rootsBelow_lt (Nat.le_refl 1) hone (show 1 < st.m by omega)
    omega
  · rintro ⟨i, hi, rfl⟩
    rw [hout i hi]
    have hTi := hT i hi
    exact rootsBelow_lt (Nat.pos_of_ne_zero (root_ne_zero hp _ (by omega))) (map_root hp _)
      (Nat.lt_of_le_of_lt (root_le hp _) hTi.2)
  · obtain ⟨r, hr, hr1, hr0, hrv⟩ := rootsBelow_surj st.map st.m v hv
    obtain ⟨i, hi, hTi⟩ := hid r hr1 hr
    exact ⟨i, hi, by rw [hout i hi, hTi, root_of_zero hr0, hrv]⟩

/-- C2 (witness).  The theorem on the `2 × 2` grid with a single label. -/
theorem relabel_labels_consecutive_from_zero_witness :
    relabelIds (ofList [5, 5, 5, 5]) 2 2 < 2 * 2 / 2 ∧
    ∃ out, relabel (ofList [5, 5, 5, 5]) 2 2 = some out ∧
      ∃ k, 1 ≤ k ∧ ∀ v, (∃ i, i < 2 * 2 ∧ out i = v) ↔ v < k :=
  ⟨by decide, relabel_labels_consecutive_from_zero (ofList [5, 5, 5, 5]) 2 2
    (by decide) (by decide) (by decide)⟩

/-- C2 (counterexample).  On the `2 × 2` grid with a single label `relabel` gives every
pixel the label `0`: the output labels do not start at `1`. -/
theorem relabel_labels_from_one_counterexample :
    (relabel (ofList [5, 5, 5, 5]) 2 2).map (toList 4) = some [0, 0, 0, 0] := by
  decide

/-- The call `relabel` returns exactly when the raster scan mints fewer ids than the
table `map` has entries. -/
theorem relabel_returns_iff (S : Nat → Nat) {h w : Nat} (hh : 1 ≤ h) (hw : 1 ≤ w) :
    (∃ out, relabel S h w = some out) ↔ relabelIds S h w < h * w / 2 := by
  constructor
  · rintro ⟨out, hrun⟩
    obtain ⟨st, ⟨_, _, _, _, hcnt⟩, hcap, _, _⟩ := relabelCap_some hh hw hrun
    have hc : idsUpTo S h (w * h) < h * w / 2 := by omega
    rw [Nat.mul_comm w h] at hc
    exact hc
  · intro hcap
    have hcap' : idsUpTo S h (w * h) < h * w / 2 := by
      rw [Nat.mul_comm w h]
      exact hcap
    exact relabelCap_total hh hw hcap'

/-- When the raster scan mints fewer ids than the table has entries, `relabel` returns
and two pixels of the grid have the same output label exactly when a path of
axis-adjacent pixels of one input label joins them. -/
theorem relabel_components_in_bounds (S : Nat → Nat) {h w : Nat} (hh : 1 ≤ h) (hw : 1 ≤ w)
    (hcap : relabelIds S h w < h * w / 2) :
    ∃ out, relabel S h w = some out ∧
      ∀ i j, i < w * h → j < w * h → (out i = out j ↔ Conn S h (w * h) i j) := by
  obtain ⟨out, hrun⟩ := (relabel_returns_iff S hh hw).mpr hcap
  exact ⟨out, hrun, fun i j hi hj => relabelCap_components hh hw hrun hi hj⟩

/-- When the raster scan mints fewer ids than the table has entries, `relabel` returns
and a second call on its output returns the same map. -/
theorem relabel_idempotent_in_bounds (S : Nat → Nat) {h w : Nat} (hh : 1 ≤ h) (hw : 1 ≤ w)
    (hcap : relabelIds S h w < h * w / 2) :
    ∃ out, relabel S h w = some out ∧ relabel out h w = some out := by
  obtain ⟨out, hrun⟩ := (relabel_returns_iff S hh hw).mpr hcap
  exact ⟨out, hrun, relabelCap_idempotent hh hw hrun⟩

/-- C1.  The table `map` has `h*w/2` entries and is indexed by the provisional ids, of
which the raster scan mints up to `h*w`.  On the `2 × 2` checkerboard the scan mints
four ids for a table of two entries, and the flattening loop leaves the table at the
id `2`: the call has no defined result.  (In the calls that stay inside the table the
output labels are the 4-connected components, `relabel_components_in_bounds`.) -/
theorem relabel_checkerboard_overruns_table :
    relabelIds (ofList [0, 1, 1, 0]) 2 2 = 4 ∧ 2 * 2 / 2 = 2 ∧
      (relabel (ofList [0, 1, 1, 0]) 2 2).map (toList 4) = none := by
  decide

/-- C3.  On the `1 × 2` grid with a single label the table `map` has one entry and the
only provisional id is `1`, so the flattening loop of the first call already leaves
the table: neither `relabel(S)` nor `relabel(relabel(S))` has a defined result.  (In
the calls that stay inside the table a second call changes nothing,
`relabel_idempotent_in_bounds`.) -/
theorem relabel_twice_overruns_table :
    relabelIds (ofList [4, 4]) 1 2 = 1 ∧ 1 * 2 / 2 = 1 ∧
      (relabel (ofList [4, 4]) 1 2).map (toList 2) = none ∧
      ((relabel (ofList [4, 4]) 1 2).bind fun out => relabel out 1 2).map (toList 2) = none := by
  decide

/-- C20.  The table `map` has `h*w/2` entries and the flattening loop indexes it with
every provisional id `1 .. m-1`.  On the `3 × 3` checkerboard the raster scan mints
nine ids for a table of four entries, so the ids `4 .. 9` lie outside the table and the
call has no defined result; on a single pixel the table has no entry at all for the
id `1`.  (The call stays inside the table exactly when fewer than `h*w/2` ids are
minted, `relabel_returns_iff`.) -/
theorem relabel_table_too_short :
    relabelIds (ofList [0, 1, 0, 1, 0, 1, 0, 1, 0]) 3 3 = 9 ∧ 3 * 3 / 2 = 4 ∧
      (relabel (ofList [0, 1, 0, 1, 0, 1, 0, 1, 0]) 3 3).map (toList 9) = none ∧
      relabelIds (ofList [7]) 1 1 = 1 ∧ 1 * 1 / 2 = 0 ∧
      (relabel (ofList [7]) 1 1).map (toList 1) = none := by
  decide

/-! ## `affinities`: the accumulation loops in closed form -/

theorem forLoop_add_fun (G : Nat → (Nat → ℚ) → Nat → ℚ) (g : Nat → Nat → ℚ)
    (hG : ∀ i M idx, G i M idx = M idx + g i idx) (n : Nat) (M : Nat → ℚ) (idx : Nat) :
    forLoop 0 G n M idx = M idx + ∑ i in Finset.range n, g i idx := by
  induction n with
  | zero => simp [forLoop]
  | succ n ih =>
    simp only [forLoop, Nat.zero_add, hG, ih, Finset.sum_range_succ]
    ring

theorem forLoop_add_key (key : Nat → Nat) (val : Nat → ℚ) (n : Nat) (M : Nat → ℚ)
    (idx : Nat) :
    forLoop 0 (fun j M => Function.update M (key j) (M (key j) + val j)) n M idx =
      M idx + ∑ j in Finset.range n, if key j = idx then val j else 0 := by
  refine forLoop_add_fun _ (fun j idx => if key j = idx then val j else 0) ?_ n M idx
  intro j M idx
  by_cases hk : key j = idx
  · subst hk; simp
  · simp [Function.update_apply, hk, Ne.symm hk]

theorem accum_apply (m : Nat) (lookup : Nat → Nat) (m1 : Nat) (f : Nat → Nat → ℚ)
    (M : Nat → ℚ) (idx : Nat) :
    accum m lookup m1 f M idx = M idx + ∑ i in Finset.range m1, ∑ j in Finset.range m1,
      if lookup i * m + lookup j = idx then f i j else 0 := by
  simp only [accum]
  exact forLoop_add_fun _
    (fun i idx => ∑ j in Finset.range m1, if lookup i * m + lookup j = idx then f i j else 0)
    (fun i M idx => forLoop_add_key (fun j => lookup i * m + lookup j) (f i) m1 M idx) m1 M idx

theorem accum_sym {m : Nat} {lookup : Nat → Nat} {m1 : Nat} {f : Nat → Nat → ℚ}
    {M : Nat → ℚ} (hl : ∀ i, i < m1 → lookup i < m) (hf : ∀ i j, f i j = f j i)
    (hM : SymMat m M) : SymMat m (accum m lookup m1 f M) := by
  intro s t hs ht
  rw [accum_apply, accum_apply, hM s t hs ht, Finset.sum_comm]
  congr 1
  refine Finset.sum_congr rfl fun j hj => Finset.sum_congr rfl fun i hi => ?_
  have hi' := hl i (Finset.mem_range.mp hi)
  have hj' := hl j (Finset.mem_range.mp hj)
  by_cases hc : lookup i * m + lookup j = s * m + t
  · obtain ⟨h1, h2⟩ := idx_inj hj' ht hc
    rw [if_pos hc, if_pos (by rw [h1, h2]), hf]
  · rw [if_neg hc, if_neg]
    intro hc'
    obtain ⟨h1, h2⟩ := idx_inj hi' hs hc'
    exact hc (by rw [h1, h2])

/-! ## `affinities`: the scratch tables of a window -/

theorem searchFrom_spec (lookup : Nat → Nat) (lbl : Nat) :
    ∀ n i, i ≤ searchFrom lookup lbl i n ∧ searchFrom lookup lbl i n ≤ i + n ∧
      (searchFrom lookup lbl i n < i + n → lookup (searchFrom lookup lbl i n) = lbl) ∧
      (∀ t, i ≤ t → t < searchFrom lookup lbl i n → lookup t ≠ lbl) := by
  intro n
  induction n with
  | zero => intro i; exact ⟨Nat.le_refl _, Nat.le_refl _, fun h => by simp [searchFrom] at h,
      fun t h1 h2 => by simp only [searchFrom] at h2; omega⟩
  | succ n ih =>
    intro i
    simp only [searchFrom]
    split_ifs with hc
    · exact ⟨Nat.le_refl _, by omega, fun _ => hc, fun t h1 h2 => by omega⟩
    · obtain ⟨h1, h2, h3, h4⟩ := ih (i + 1)
      refine ⟨by omega, by omega, fun hlt => h3 (by omega), fun t ht1 ht2 => ?_⟩
      by_cases hti : t = i
      · subst hti; exact hc
      · exact h4 t (by omega) ht2

theorem winCell_inj {x y ny k k' : Nat} (hny : 0 < ny) (hny' : ny ≤ min 8 y + 8)
    (e : winCell x y ny k = winCell x y ny k') : k = k' := by
  simp only [winCell, winIdx, winLo] at e
  have hm := Nat.mod_lt k hny
  have hm' := Nat.mod_lt k' hny
  generalize hA : k / ny = A at e
  generalize hB : k % ny = B at e hm
  generalize hA' : k' / ny = A' at e
  generalize hB' : k' % ny = B' at e hm'
  have hb1 : y - min 8 y + B + 8 - y < 16 := by omega
  have hb2 : y - min 8 y + B' + 8 - y < 16 := by omega
  obtain ⟨h1, h2⟩ := idx_inj hb1 hb2 e
  have hd : A = A' := by omega
  have hr : B = B' := by omega
  rw [← Nat.div_add_mod k ny, ← Nat.div_add_mod k' ny, hA, hB, hA', hB', hd, hr]

theorem winPix_lt {h w x y k : Nat} (hx : x < w) (hy : y < h)
    (hk : k < winLen w x * winLen h y) : winPix h x y (winLen h y) k < w * h := by
  have hny : 0 < winLen h y := by simp only [winLen]; omega
  have hd : k / winLen h y < winLen w x := Nat.div_lt_of_lt_mul (by rwa [Nat.mul_comm] at hk)
  have hm := Nat.mod_lt k hny
  simp only [winPix]
  generalize k / winLen h y = A at hd
  generalize k % winLen h y = B at hm
  refine idx_lt ?_ ?_
  · simp only [winLo, winLen] at hd ⊢; omega
  · simp only [winLo, winLen] at hm ⊢; omega

theorem sum_update_ne {cell : Nat → Nat} {k c : Nat} (hcne : ∀ k', k' < k → cell k' ≠ c)
    (lb : Nat → Nat) (v i : Nat) (g : Nat → ℚ) :
    ∑ k' in Finset.range k, (if Function.update lb c v (cell k') = i then g k' else 0) =
      ∑ k' in Finset.range k, (if lb (cell k') = i then g k' else 0) := by
  refine Finset.sum_congr rfl fun k' hk' => ?_
  rw [Function.update_apply, if_neg (hcne k' (Finset.mem_range.mp hk'))]

/-- Reading a pixel whose label has the local index `i`. -/
theorem WinInv.assign {S : Nat → Nat} {wts : Nat → ℚ} {m : Nat} {pix cell : Nat → Nat} {k : Nat}
    {st : WinState} (hinv : WinInv S wts m pix cell k st)
    (hcne : ∀ k', k' < k → cell k' ≠ cell k) {i : Nat} (hi : i < st.m1)
    (hli : st.lookup i = S (pix k)) :
    WinInv S wts m pix cell (k + 1)
      { lookup := st.lookup, wts1 := Function.update st.wts1 i (st.wts1 i + wts (pix k)),
        lbls1 := Function.update st.lbls1 (cell k) i, j := i, m1 := st.m1 } := by
  obtain ⟨hm1, _, hlab, hinj, hlbl, hwt⟩ := hinv
  refine ⟨hm1, hi, hlab, hinj, fun k' hk' => ?_, fun i' hi' => ?_⟩
  · show Function.update st.lbls1 (cell k) i (cell k') < st.m1 ∧
      st.lookup (Function.update st.lbls1 (cell k) i (cell k')) = S (pix k')
    by_cases hkk : k' = k
    · rw [hkk, Function.update_same]
      exact ⟨hi, hli⟩
    · have hlt : k' < k := by omega
      rw [Function.update_apply, if_neg (hcne k' hlt)]
      exact hlbl k' hlt
  · show Function.update st.wts1 i (st.wts1 i + wts (pix k)) i' =
      ∑ k' in Finset.range (k + 1),
        if Function.update st.lbls1 (cell k) i (cell k') = i' then wts (pix k') else 0
    rw [Finset.sum_range_succ, sum_update_ne hcne, Function.update_same, ← hwt i' hi']
    by_cases hii : i' = i
    · rw [hii, Function.update_same, if_pos rfl]
    · rw [Function.update_apply, if_neg hii, if_neg (Ne.symm hii), add_zero]

/-- Reading a pixel whose label is not among the local labels yet. -/
theorem WinInv.append {S : Nat → Nat} {wts : Nat → ℚ} {m : Nat} {pix cell : Nat → Nat} {k : Nat}
    {st : WinState} (hinv : WinInv S wts m pix cell k st)
    (hcne : ∀ k', k' < k → cell k' ≠ cell k) (hlt : S (pix k) < m)
    (hfresh : ∀ t, t < st.m1 → st.lookup t ≠ S (pix k)) :
    WinInv S wts m pix cell (k + 1)
      { lookup := Function.update st.lookup st.m1 (S (pix k)),
        wts1 := Function.update (Function.update st.wts1 st.m1 0) st.m1
          (Function.update st.wts1 st.m1 0 st.m1 + wts (pix k)),
        lbls1 := Function.update st.lbls1 (cell k) st.m1, j := st.m1, m1 := st.m1 + 1 } := by
  obtain ⟨hm1, _, hlab, hinj, hlbl, hwt⟩ := hinv
  refine ⟨Nat.le_succ_of_le hm1, Nat.lt_succ_self _, fun i hi => ?_, fun i j hi hj he => ?_,
    fun k' hk' => ?_, fun i' hi' => ?_⟩
  · show Function.update st.lookup st.m1 (S (pix k)) i < m
    by_cases him : i = st.m1
    · rw [him, Function.update_same]; exact hlt
    · rw [Function.update_apply, if_neg him]
      exact hlab i (by
        have : i < st.m1 + 1 := hi
        omega)
  · have hi' : i < st.m1 + 1 := hi
    have hj' : j < st.m1 + 1 := hj
    have he' : Function.update st.lookup st.m1 (S (pix k)) i =
        Function.update st.lookup st.m1 (S (pix k)) j := he
    simp only [Function.update_apply] at he'
    split_ifs at he' with h1 h2 h2
    · omega
    · exact absurd he'.symm (hfresh j (by omega))
    · exact absurd he' (hfresh i (by omega))
    · exact hinj i j (by omega) (by omega) he'
  · show Function.update st.lbls1 (cell k) st.m1 (cell k') < st.m1 + 1 ∧
      Function.update st.lookup st.m1 (S (pix k))
        (Function.update st.lbls1 (cell k) st.m1 (cell k')) = S (pix k')
    by_cases hkk : k' = k
    · rw [hkk, Function.update_same, Function.update_same]
      exact ⟨Nat.lt_succ_self _, rfl⟩
    · have hlt' : k' < k := by omega
      have hold := hlbl k' hlt'
      rw [Function.update_apply, if_neg (hcne k' hlt'), Function.update_apply,
        if_neg (by omega)]
      exact ⟨by omega, hold.2⟩
  · have hi'' : i' < st.m1 + 1 := hi'
    show Function.update (Function.update st.wts1 st.m1 0) st.m1
        (Function.update st.wts1 st.m1 0 st.m1 + wts (pix k)) i' =
      ∑ k' in Finset.range (k + 1),
        if Function.update st.lbls1 (cell k) st.m1 (cell k') = i' then wts (pix k') else 0
    rw [Finset.sum_range_succ, sum_update_ne hcne]
    have hlast : Function.update st.lbls1 (cell k) st.m1 (cell k) = st.m1 :=
      Function.update_same _ _ _
    rw [hlast]
    by_cases him : i' = st.m1
    · have hz : ∑ k' in Finset.range k,
          (if st.lbls1 (cell k') = i' then wts (pix k') else 0) = 0 := by
        refine Finset.sum_eq_zero fun k' hk' => ?_
        have := (hlbl k' (Finset.mem_range.mp hk')).1
        rw [if_neg (by omega)]
      rw [hz, him, Function.update_same, Function.update_same, if_pos rfl]
    · rw [Function.update_apply, if_neg him, Function.update_apply, if_neg him,
        if_neg (Ne.symm him), add_zero]
      exact hwt i' (by omega)

theorem winStep_inv {S : Nat → Nat} {wts : Nat → ℚ} {h w x y : Nat} (hx : x < w) (hy : y < h)
    {a b : Nat} (ha : a < winLen w x) (hb : b < winLen h y) {st : WinState}
    (hinv : WinInv S wts (labelCount S (w * h)) (winPix h x y (winLen h y))
      (winCell x y (winLen h y)) (a * winLen h y + b) st) :
    WinInv S wts (labelCount S (w * h)) (winPix h x y (winLen h y))
      (winCell x y (winLen h y)) (a * winLen h y + b + 1)
      (winStep S wts h x y (winLo x + a) (winLo y + b) st) := by
  have hny : 0 < winLen h y := by omega
  have hk : a * winLen h y + b < winLen w x * winLen h y := idx_lt ha hb
  have hdiv : (a * winLen h y + b) / winLen h y = a := by
    rw [Nat.add_comm, Nat.add_mul_div_right _ _ hny, Nat.div_eq_of_lt hb]; simp
  have hmod : (a * winLen h y + b) % winLen h y = b := by
    rw [Nat.add_comm, Nat.add_mul_mod_self_right, Nat.mod_eq_of_lt hb]
  have hpix : (winLo x + a) * h + (winLo y + b) =
      winPix h x y (winLen h y) (a * winLen h y + b) := by
    simp only [winPix, hdiv, hmod]
  have hcell : winIdx x y (winLo x + a) (winLo y + b) =
      winCell x y (winLen h y) (a * winLen h y + b) := by
    simp only [winCell, hdiv, hmod]
  have hcne : ∀ k', k' < a * winLen h y + b →
      winCell x y (winLen h y) k' ≠ winCell x y (winLen h y) (a * winLen h y + b) := by
    intro k' hk' e
    have := winCell_inj hny (by simp only [winLen]; omega) e
    omega
  have hlbllt : S (winPix h x y (winLen h y) (a * winLen h y + b)) < labelCount S (w * h) :=
    labelCount_gt S _ _ (winPix_lt hx hy hk)
  obtain ⟨_, hs2, hs3, hs4⟩ := searchFrom_spec st.lookup
    (S (winPix h x y (winLen h y) (a * winLen h y + b))) st.m1 0
  simp only [winStep, hpix, hcell]
  by_cases hfound : S (winPix h x y (winLen h y) (a * winLen h y + b)) = st.lookup st.j
  · have hcond : ¬ (S (winPix h x y (winLen h y) (a * winLen h y + b)) ≠ st.lookup st.j ∧
        st.j = st.m1) := fun hc => hc.1 hfound
    simp only [if_pos hfound, if_neg hcond]
    exact hinv.assign hcne hinv.2.1 hfound.symm
  · by_cases hnew : searchFrom st.lookup
        (S (winPix h x y (winLen h y) (a * winLen h y + b))) 0 st.m1 = st.m1
    · simp only [if_neg hfound, hnew,
        if_pos (show S (winPix h x y (winLen h y) (a * winLen h y + b)) ≠ st.lookup st.j ∧ True
          from ⟨hfound, trivial⟩)]
      exact hinv.append hcne hlbllt fun t ht => hs4 t (Nat.zero_le t) (by omega)
    · have hcond : ¬ (S (winPix h x y (winLen h y) (a * winLen h y + b)) ≠ st.lookup st.j ∧
          searchFrom st.lookup (S (winPix h x y (winLen h y) (a * winLen h y + b))) 0 st.m1
            = st.m1) := fun hc => hnew hc.2
      simp only [if_neg hfound, if_neg hcond]
      exact hinv.assign hcne (by omega) (hs3 (by omega))

theorem winBuild_inv (S : Nat → Nat) (wts : Nat → ℚ) {h w x y : Nat} (hx : x < w) (hy : y < h) :
    WinInv S wts (labelCount S (w * h)) (winPix h x y (winLen h y)) (winCell x y (winLen h y))
      (winLen w x * winLen h y) (winBuild S wts h w x y) := by
  refine forLoop_raster_inv
    (fun k st => WinInv S wts (labelCount S (w * h)) (winPix h x y (winLen h y))
      (winCell x y (winLen h y)) k st) (winLen h y) (winLen w x)
    (fun a b => winStep S wts h x y (winLo x + a) (winLo y + b)) _ ?_
    (fun a b t ha hb ht => winStep_inv hx hy ha hb ht)
  refine ⟨Nat.le_refl 1, Nat.zero_lt_one, fun i hi => ?_, fun i j hi hj _ => ?_,
    fun k' hk' => absurd hk' (Nat.not_lt_zero _), fun i _ => by simp⟩
  · have hi0 : i = 0 := by
      have : i < 1 := hi
      omega
    rw [hi0]
    show Function.update (fun _ => 0) 0 (S (winLo x * h + winLo y)) 0 < _
    rw [Function.update_same]
    exact labelCount_gt S _ _ (idx_lt (by simp only [winLo]; omega) (by simp only [winLo]; omega))
  · have hi' : i < 1 := hi
    have hj' : j < 1 := hj
    omega

/-! ## `affinities`: symmetry -/

theorem treeStep_sym {segs : Nat → Nat} {wts : Nat → ℚ} {h w m x y : Nat} {win : WinState}
    (hl : ∀ i, i < win.m1 → win.lookup i < m) {t : Nat} {st st' : TreeState}
    (hS : SymMat m st.Sn) (hrun : treeStep segs wts h w m x y win t st = some st') :
    SymMat m st'.Sn := by
  simp only [treeStep] at hrun
  split_ifs at hrun with h1 h2
  · rw [← Option.some.inj hrun]; exact hS
  · rw [← Option.some.inj hrun]
    exact forLoop_inv (fun _ M => SymMat m M) 1 _ _ st.Sn hS
      (fun k M _ hM => accum_sym hl (fun i j => mul_comm _ _) hM)

theorem windowStep_sym {segs S : Nat → Nat} {wts : Nat → ℚ} {h w x y : Nat} (hx : x < w)
    (hy : y < h) {p p' : (Nat → ℚ) × (Nat → ℚ)}
    (hp : SymMat (labelCount S (w * h)) p.1 ∧ SymMat (labelCount S (w * h)) p.2)
    (hrun : windowStep segs S wts h w (labelCount S (w * h)) x y p = some p') :
    SymMat (labelCount S (w * h)) p'.1 ∧ SymMat (labelCount S (w * h)) p'.2 := by
  have hl := (winBuild_inv S wts hx hy).2.2.1
  simp only [windowStep] at hrun
  obtain ⟨st, hst, hp'⟩ := Option.map_eq_some'.mp hrun
  have hSn : SymMat (labelCount S (w * h)) st.Sn :=
    forLoopM_inv (fun _ (u : TreeState) => SymMat (labelCount S (w * h)) u.Sn) 0 _ 4 _ hp.1
      (fun k u u' _ hu hu' => treeStep_sym hl hu hu') st hst
  rw [← hp']
  refine ⟨?_, accum_sym hl (fun i j => by ring) hp.2⟩
  show SymMat _ (if st.nConst ≠ 0 then _ else _)
  split_ifs
  · exact accum_sym hl (fun i j => by ring) hSn
  · exact hSn

theorem affinityAccum_sym {segs S : Nat → Nat} {wts : Nat → ℚ} {h w : Nat}
    {Sn0 Sd0 : Nat → ℚ} (h0 : SymMat (labelCount S (w * h)) Sn0)
    (h1 : SymMat (labelCount S (w * h)) Sd0) {p : (Nat → ℚ) × (Nat → ℚ)}
    (hrun : affinityAccum segs S wts h w Sn0 Sd0 = some p) :
    SymMat (labelCount S (w * h)) p.1 ∧ SymMat (labelCount S (w * h)) p.2 := by
  simp only [affinityAccum] at hrun
  refine forLoopM_nest_inv
    (fun q : (Nat → ℚ) × (Nat → ℚ) =>
      SymMat (labelCount S (w * h)) q.1 ∧ SymMat (labelCount S (w * h)) q.2)
    0 0 ((w + 1) / 2) ((h + 1) / 2)
    (fun a b => windowStep segs S wts h w (labelCount S (w * h)) (2 * a) (2 * b))
    (Sn0, Sd0) ⟨h0, h1⟩ ?_ p hrun
  intro a b t u ha hb ht hu
  exact windowStep_sym (by omega) (by omega) ht hu

theorem affIdx_inj {m s t s' t' : Nat} (hs : 1 ≤ s) (ht : 1 ≤ t) (ht1 : t < m) (hs' : 1 ≤ s')
    (ht' : 1 ≤ t') (ht1' : t' < m) (e : affIdx m s t = affIdx m s' t') : s = s' ∧ t = t' := by
  simp only [affIdx] at e
  obtain ⟨h1, h2⟩ := idx_inj (h := m - 1) (by omega) (by omega) e
  omega

theorem affinityFill_row (Sn Sd : Nat → ℚ) {m s t : Nat} (hs : 1 ≤ s) (ht : 1 ≤ t)
    (htm : t < m) (a : Nat) (ha : a < m - 1) (A : Nat → Option ℚ) :
    (1 + a = s → forLoop 1 (fun t' A => if Sd ((1 + a) * m + t') ≠ 0 then
          Function.update A ((1 + a - 1) * (m - 1) + (t' - 1))
            (some (affinityValue Sn Sd m (1 + a) t')) else A) (m - 1) A (affIdx m s t) =
        if Sd (s * m + t) ≠ 0 then some (affinityValue Sn Sd m s t) else A (affIdx m s t)) ∧
    (1 + a ≠ s → forLoop 1 (fun t' A => if Sd ((1 + a) * m + t') ≠ 0 then
          Function.update A ((1 + a - 1) * (m - 1) + (t' - 1))
            (some (affinityValue Sn Sd m (1 + a) t')) else A) (m - 1) A (affIdx m s t) =
        A (affIdx m s t)) := by
  generalize htg : (if Sd (s * m + t) ≠ 0 then some (affinityValue Sn Sd m s t)
    else A (affIdx m s t)) = target
  have key := forLoop_inv (fun b (A' : Nat → Option ℚ) =>
      ((1 + a = s ∧ t < 1 + b) → A' (affIdx m s t) = target) ∧
      (¬ (1 + a = s ∧ t < 1 + b) → A' (affIdx m s t) = A (affIdx m s t))) 1
    (fun t' A => if Sd ((1 + a) * m + t') ≠ 0 then
        Function.update A ((1 + a - 1) * (m - 1) + (t' - 1))
          (some (affinityValue Sn Sd m (1 + a) t')) else A) (m - 1) A
    ⟨fun hc => by omega, fun _ => rfl⟩
    (by
      intro b A' hb hA'
      obtain ⟨hA1, hA2⟩ := hA'
      by_cases hhit : 1 + a = s ∧ 1 + b = t
      · obtain ⟨h1, h2⟩ := hhit
        refine ⟨fun _ => ?_, fun hc => absurd ⟨h1, by omega⟩ hc⟩
        have hold : A' (affIdx m s t) = A (affIdx m s t) := hA2 (by omega)
        have hidx : (1 + a - 1) * (m - 1) + (1 + b - 1) = affIdx m s t := by
          rw [h1, h2]; rfl
        rw [← htg]
        show (if Sd ((1 + a) * m + (1 + b)) ≠ 0 then
            Function.update A' ((1 + a - 1) * (m - 1) + (1 + b - 1))
              (some (affinityValue Sn Sd m (1 + a) (1 + b))) else A') (affIdx m s t) = _
        rw [hidx, h1, h2]
        by_cases hc : Sd (s * m + t) ≠ 0
        · rw [if_pos hc, if_pos hc, Function.update_same]
        · rw [if_neg hc, if_neg hc, hold]
      · have hne : (1 + a - 1) * (m - 1) + (1 + b - 1) ≠ affIdx m s t := by
          intro e
          have := affIdx_inj (s := 1 + a) (t := 1 + b) (by omega) (by omega) (by omega)
            hs ht htm e
          exact hhit this
        have hval : (if Sd ((1 + a) * m + (1 + b)) ≠ 0 then
            Function.update A' ((1 + a - 1) * (m - 1) + (1 + b - 1))
              (some (affinityValue Sn Sd m (1 + a) (1 + b))) else A') (affIdx m s t) =
            A' (affIdx m s t) := by
          split_ifs
          · rw [Function.update_apply, if_neg (Ne.symm hne)]
          · rfl
        refine ⟨fun hc => ?_, fun hc => ?_⟩
        · show (if Sd ((1 + a) * m + (1 + b)) ≠ 0 then _ else A') (affIdx m s t) = _
          rw [hval]
          exact hA1 ⟨hc.1, by omega⟩
        · show (if Sd ((1 + a) * m + (1 + b)) ≠ 0 then _ else A') (affIdx m s t) = _
          rw [hval]
          exact hA2 (fun hh => hc ⟨hh.1, by omega⟩))
  obtain ⟨k1, k2⟩ := key
  exact ⟨fun hc => k1 ⟨hc, by omega⟩, fun hc => k2 (fun hh => hc hh.1)⟩

/-- The cell of a pair of regions after the last loops of `affinities`. -/
theorem affinityFill_apply (Sn Sd : Nat → ℚ) {m s t : Nat} (hs : 1 ≤ s) (hsm : s < m)
    (ht : 1 ≤ t) (htm : t < m) :
    affinityFill Sn Sd m (affIdx m s t) =
      if Sd (s * m + t) ≠ 0 then some (affinityValue Sn Sd m s t) else none := by
  generalize htg : (if Sd (s * m + t) ≠ 0 then some (affinityValue Sn Sd m s t)
    else (none : Option ℚ)) = target
  have key := forLoop_inv (fun a (A' : Nat → Option ℚ) =>
      (s < 1 + a → A' (affIdx m s t) = target) ∧ (¬ s < 1 + a → A' (affIdx m s t) = none)) 1
    (fun s' => forLoop 1 (fun t' A => if Sd (s' * m + t') ≠ 0 then
          Function.update A ((s' - 1) * (m - 1) + (t' - 1))
            (some (affinityValue Sn Sd m s' t')) else A) (m - 1)) (m - 1) (fun _ => none)
    ⟨fun hc => by omega, fun _ => rfl⟩
    (by
      intro a A' ha hA'
      obtain ⟨hA1, hA2⟩ := hA'
      obtain ⟨r1, r2⟩ := affinityFill_row Sn Sd hs ht htm a ha A'
      by_cases hc : 1 + a = s
      · refine ⟨fun _ => ?_, fun hh => by omega⟩
        show forLoop 1 _ (m - 1) A' (affIdx m s t) = target
        rw [r1 hc, hA2 (by omega), htg]
      · refine ⟨fun hh => ?_, fun hh => ?_⟩
        · show forLoop 1 _ (m - 1) A' (affIdx m s t) = target
          rw [r2 hc]; exact hA1 (by omega)
        · show forLoop 1 _ (m - 1) A' (affIdx m s t) = none
          rw [r2 hc]; exact hA2 (by omega))
  exact key.1 (by omega)

/-! ## `affinities`: entries of the accumulators -/

theorem forLoop_add_fun_from (lo : Nat) (G : Nat → (Nat → ℚ) → Nat → ℚ) (g : Nat → Nat → ℚ)
    (hG : ∀ i M idx, G i M idx = M idx + g i idx) (n : Nat) (M : Nat → ℚ) (idx : Nat) :
    forLoop lo G n M idx = M idx + ∑ k in Finset.range n, g (lo + k) idx := by
  induction n with
  | zero => simp [forLoop]
  | succ n ih =>
    simp only [forLoop, hG, ih, Finset.sum_range_succ]
    ring

theorem accum_entry {m : Nat} {lookup : Nat → Nat} {m1 : Nat} (f : Nat → Nat → ℚ)
    (M : Nat → ℚ) (hl : ∀ i, i < m1 → lookup i < m) {s t : Nat} (ht : t < m) :
    accum m lookup m1 f M (s * m + t) = M (s * m + t) +
      ∑ i in Finset.range m1, ∑ j in Finset.range m1,
        if lookup i = s ∧ lookup j = t then f i j else 0 := by
  rw [accum_apply]
  congr 1
  refine Finset.sum_congr rfl fun i hi => Finset.sum_congr rfl fun j hj => ?_
  have hi' := hl i (Finset.mem_range.mp hi)
  have hj' := hl j (Finset.mem_range.mp hj)
  by_cases hc : lookup i * m + lookup j = s * m + t
  · rw [if_pos hc, if_pos (idx_inj hj' ht hc)]
  · rw [if_neg hc, if_neg]
    rintro ⟨h1, h2⟩
    exact hc (by rw [h1, h2])

theorem accum_diag {m : Nat} {lookup : Nat → Nat} {m1 : Nat} (f : Nat → Nat → ℚ)
    (M : Nat → ℚ) (hl : ∀ i, i < m1 → lookup i < m)
    (hinj : ∀ i j, i < m1 → j < m1 → lookup i = lookup j → i = j) {s : Nat} (hs : s < m) :
    accum m lookup m1 f M (s * m + s) = M (s * m + s) +
      ∑ i in Finset.range m1, if lookup i = s then f i i else 0 := by
  rw [accum_entry f M hl hs]
  congr 1
  refine Finset.sum_congr rfl fun i hi => ?_
  by_cases hc : lookup i = s
  · rw [if_pos hc, Finset.sum_eq_single i]
    · rw [if_pos ⟨hc, hc⟩]
    · intro j hj hji
      rw [if_neg]
      rintro ⟨_, h2⟩
      exact hji (hinj j i (Finset.mem_range.mp hj) (Finset.mem_range.mp hi) (by rw [h2, hc]))
    · intro hi'; exact absurd hi hi'
  · rw [if_neg hc]
    refine Finset.sum_eq_zero fun j _ => ?_
    rw [if_neg]
    exact fun hh => hc hh.1

theorem accum_ge {m : Nat} {lookup : Nat → Nat} {m1 : Nat} {f : Nat → Nat → ℚ}
    (hf : ∀ i j, i < m1 → j < m1 → 0 ≤ f i j) (M : Nat → ℚ) (idx : Nat) :
    M idx ≤ accum m lookup m1 f M idx := by
  rw [accum_apply]
  have : 0 ≤ ∑ i in Finset.range m1, ∑ j in Finset.range m1,
      if lookup i * m + lookup j = idx then f i j else 0 := by
    refine Finset.sum_nonneg fun i hi => Finset.sum_nonneg fun j hj => ?_
    split_ifs
    · exact hf i j (Finset.mem_range.mp hi) (Finset.mem_range.mp hj)
    · exact le_refl 0
  linarith

/-! ## `affinities`: the per-cluster weights of a mask -/

theorem forLoop_zero_fill (lo n : Nat) (wt : Nat → ℚ) (idx : Nat) :
    forLoop lo (fun i wt => Function.update wt i 0) n wt idx =
      if lo ≤ idx ∧ idx < lo + n then 0 else wt idx := by
  induction n with
  | zero =>
    rw [if_neg (by omega)]
    rfl
  | succ n ih =>
    simp only [forLoop, Function.update_apply]
    by_cases hc : idx = lo + n
    · rw [if_pos hc, if_pos (by omega)]
    · rw [if_neg hc, ih]
      by_cases h1 : lo ≤ idx ∧ idx < lo + n
      · rw [if_pos h1, if_pos (by omega)]
      · rw [if_neg h1, if_neg (by omega)]

theorem forLoop_raster_scatter (key : Nat → Nat → Nat) (val : Nat → Nat → ℚ) (nx ny : Nat)
    (hny : 0 < ny) (wt0 : Nat → ℚ) (idx : Nat) :
    forLoop 0 (fun a => forLoop 0 (fun b wt =>
        Function.update wt (key a b) (wt (key a b) + val a b)) ny) nx wt0 idx =
      wt0 idx + ∑ k in Finset.range (nx * ny),
        if key (k / ny) (k % ny) = idx then val (k / ny) (k % ny) else 0 := by
  have key' := forLoop_raster_inv (fun k (wt : Nat → ℚ) => ∀ idx, wt idx = wt0 idx +
      ∑ k' in Finset.range k, if key (k' / ny) (k' % ny) = idx
        then val (k' / ny) (k' % ny) else 0) ny nx
    (fun a b wt => Function.update wt (key a b) (wt (key a b) + val a b)) wt0
    (fun idx => by simp)
    (by
      intro a b wt _ hb hwt idx
      have hdiv : (a * ny + b) / ny = a := by
        rw [Nat.add_comm, Nat.add_mul_div_right _ _ hny, Nat.div_eq_of_lt hb]; simp
      have hmod : (a * ny + b) % ny = b := by
        rw [Nat.add_comm, Nat.add_mul_mod_self_right, Nat.mod_eq_of_lt hb]
      rw [Finset.sum_range_succ, hdiv, hmod]
      show Function.update wt (key a b) (wt (key a b) + val a b) idx = _
      by_cases hc : key a b = idx
      · rw [hc, Function.update_same, if_pos rfl, hwt idx]
        ring
      · rw [Function.update_apply, if_neg (Ne.symm hc), if_neg hc, hwt idx]
        ring)
  exact key' idx

theorem segMax_ge (seg : Nat → Nat) {h w x y : Nat} (hy : y < h) {k : Nat}
    (hk : k < winLen w x * winLen h y) :
    seg (winCell x y (winLen h y) k) ≤ segMax seg h w x y := by
  have hny : 0 < winLen h y := by simp only [winLen]; omega
  have key := forLoop_raster_inv (fun n (s1 : Nat) => ∀ k', k' < n →
      seg (winCell x y (winLen h y) k') ≤ s1) (winLen h y) (winLen w x)
    (fun a b s1 => if seg (winIdx x y (winLo x + a) (winLo y + b)) > s1
      then seg (winIdx x y (winLo x + a) (winLo y + b)) else s1) 0
    (fun k' hk' => by omega)
    (by
      intro a b s1 _ hb hs1 k' hk'
      have hdiv : (a * winLen h y + b) / winLen h y = a := by
        rw [Nat.add_comm, Nat.add_mul_div_right _ _ hny, Nat.div_eq_of_lt hb]; simp
      have hmod : (a * winLen h y + b) % winLen h y = b := by
        rw [Nat.add_comm, Nat.add_mul_mod_self_right, Nat.mod_eq_of_lt hb]
      show _ ≤ (if seg (winIdx x y (winLo x + a) (winLo y + b)) > s1
        then seg (winIdx x y (winLo x + a) (winLo y + b)) else s1)
      by_cases hkk : k' = a * winLen h y + b
      · rw [hkk]
        simp only [winCell, hdiv, hmod]
        split_ifs <;> omega
      · have := hs1 k' (by omega)
        split_ifs <;> omega)
  have hfin : segMax seg h w x y = forLoop 0 (fun a => forLoop 0 (fun b s1 =>
      if seg (winIdx x y (winLo x + a) (winLo y + b)) > s1
      then seg (winIdx x y (winLo x + a) (winLo y + b)) else s1) (winLen h y))
      (winLen w x) 0 := rfl
  rw [hfin]
  exact key k hk

/-! ## `affinities`: the weights of a mask, cell by cell -/

theorem segWeights_eq (seg : Nat → Nat) (wts : Nat → ℚ) {h w x y : Nat} (hy : y < h)
    (s1 : Nat) (win : WinState) (wts1 : Nat → ℚ) (idx : Nat) :
    segWeights seg wts h w x y s1 win wts1 idx =
      (if win.m1 ≤ idx ∧ idx < win.m1 + (win.m1 * (s1 + 1) - win.m1) then 0 else wts1 idx) +
      ∑ k in Finset.range (winLen w x * winLen h y),
        if win.lbls1 (winCell x y (winLen h y) k) +
            (seg (winCell x y (winLen h y) k) + 1) * win.m1 = idx
        then wts (winPix h x y (winLen h y) k) else 0 := by
  have hny : 0 < winLen h y := by simp only [winLen]; omega
  rw [← forLoop_zero_fill win.m1 (win.m1 * (s1 + 1) - win.m1) wts1 idx]
  exact forLoop_raster_scatter
    (fun a b => win.lbls1 (winIdx x y (winLo x + a) (winLo y + b)) +
      (seg (winIdx x y (winLo x + a) (winLo y + b)) + 1) * win.m1)
    (fun a b => wts ((winLo x + a) * h + (winLo y + b))) (winLen w x) (winLen h y) hny _ idx

theorem segWeights_low (seg : Nat → Nat) (wts : Nat → ℚ) {h w x y : Nat} (hy : y < h)
    (s1 : Nat) (win : WinState) (wts1 : Nat → ℚ) {i : Nat} (hi : i < win.m1) :
    segWeights seg wts h w x y s1 win wts1 i = wts1 i := by
  rw [segWeights_eq seg wts hy, if_neg (by omega), Finset.sum_eq_zero, add_zero]
  intro k _
  rw [if_neg]
  intro e
  have : win.m1 ≤ (seg (winCell x y (winLen h y) k) + 1) * win.m1 :=
    Nat.le_mul_of_pos_left _ (Nat.succ_pos _)
  omega

theorem segWeights_col (seg : Nat → Nat) (wts : Nat → ℚ) {h w x y : Nat} (hy : y < h)
    (s1 : Nat) (win : WinState) (wts1 : Nat → ℚ)
    (hlb : ∀ k, k < winLen w x * winLen h y → win.lbls1 (winCell x y (winLen h y) k) < win.m1)
    {i c : Nat} (hi : i < win.m1) (hc : c < s1) :
    segWeights seg wts h w x y s1 win wts1 (i + (1 + c) * win.m1) =
      ∑ k in Finset.range (winLen w x * winLen h y),
        if win.lbls1 (winCell x y (winLen h y) k) = i ∧ seg (winCell x y (winLen h y) k) = c
        then wts (winPix h x y (winLen h y) k) else 0 := by
  have hin : win.m1 ≤ i + (1 + c) * win.m1 ∧
      i + (1 + c) * win.m1 < win.m1 + (win.m1 * (s1 + 1) - win.m1) := by
    have h1 : (1 + c) * win.m1 = win.m1 + c * win.m1 := by ring
    have h2 : win.m1 * (s1 + 1) = win.m1 * s1 + win.m1 := by ring
    have h3 : c * win.m1 + win.m1 ≤ win.m1 * s1 := by
      calc c * win.m1 + win.m1 = (c + 1) * win.m1 := by ring
        _ ≤ s1 * win.m1 := Nat.mul_le_mul_right _ hc
        _ = win.m1 * s1 := Nat.mul_comm _ _
    omega
  rw [segWeights_eq seg wts hy, if_pos hin, zero_add]
  refine Finset.sum_congr rfl fun k hk => ?_
  have hk' := hlb k (Finset.mem_range.mp hk)
  by_cases hcond : win.lbls1 (winCell x y (winLen h y) k) = i ∧
      seg (winCell x y (winLen h y) k) = c
  · rw [if_pos hcond, if_pos]
    rw [hcond.1, hcond.2, Nat.add_comm c 1]
  · rw [if_neg hcond, if_neg]
    intro e
    apply hcond
    have e' : win.lbls1 (winCell x y (winLen h y) k) +
        (seg (winCell x y (winLen h y) k) + 1) * win.m1 = i + (c + 1) * win.m1 := by
      rw [e, Nat.add_comm c 1]
    have e'' : (seg (winCell x y (winLen h y) k) + 1) * win.m1 +
        win.lbls1 (winCell x y (winLen h y) k) = (c + 1) * win.m1 + i := by omega
    obtain ⟨h1, h2⟩ := idx_inj hk' hi e''
    exact ⟨h2, by omega⟩

theorem segWeights_col_nonneg (seg : Nat → Nat) {wts : Nat → ℚ} (hw : ∀ i, 0 ≤ wts i)
    {h w x y : Nat} (hy : y < h) (s1 : Nat) (win : WinState) (wts1 : Nat → ℚ)
    (hlb : ∀ k, k < winLen w x * winLen h y → win.lbls1 (winCell x y (winLen h y) k) < win.m1)
    {i c : Nat} (hi : i < win.m1) (hc : c < s1) :
    0 ≤ segWeights seg wts h w x y s1 win wts1 (i + (1 + c) * win.m1) := by
  rw [segWeights_col seg wts hy s1 win wts1 hlb hi hc]
  refine Finset.sum_nonneg fun k _ => ?_
  split_ifs
  · exact hw _
  · exact le_refl 0

/-- The weights of a local label in the clusters of a mask add up to its weight in the
window. -/
theorem segWeights_col_sum (seg : Nat → Nat) (wts : Nat → ℚ) {h w x y : Nat} (hy : y < h)
    (win : WinState) (wts1 : Nat → ℚ)
    (hlb : ∀ k, k < winLen w x * winLen h y → win.lbls1 (winCell x y (winLen h y) k) < win.m1)
    {i : Nat} (hi : i < win.m1) :
    ∑ c in Finset.range (segMax seg h w x y + 1),
        segWeights seg wts h w x y (segMax seg h w x y + 1) win wts1 (i + (1 + c) * win.m1) =
      ∑ k in Finset.range (winLen w x * winLen h y),
        if win.lbls1 (winCell x y (winLen h y) k) = i
        then wts (winPix h x y (winLen h y) k) else 0 := by
  rw [Finset.sum_congr rfl fun c hc =>
    segWeights_col seg wts hy _ win wts1 hlb hi (Finset.mem_range.mp hc)]
  rw [Finset.sum_comm]
  refine Finset.sum_congr rfl fun k hk => ?_
  have hseg := segMax_ge seg (w := w) (x := x) hy (Finset.mem_range.mp hk)
  by_cases hcond : win.lbls1 (winCell x y (winLen h y) k) = i
  · rw [if_pos hcond, Finset.sum_eq_single (seg (winCell x y (winLen h y) k))]
    · rw [if_pos ⟨hcond, rfl⟩]
    · intro c _ hne
      rw [if_neg]
      exact fun hh => hne hh.2.symm
    · intro hh
      exact absurd (Finset.mem_range.mpr (Nat.lt_succ_of_le hseg)) hh
  · rw [if_neg hcond]
    refine Finset.sum_eq_zero fun c _ => ?_
    rw [if_neg]
    exact fun hh => hcond hh.1

/-! ## `affinities`: what one mask adds to the numerator -/

theorem treeLoop_diag {m : Nat} {lookup : Nat → Nat} {m1 : Nat} (f : Nat → Nat → Nat → ℚ)
    (hl : ∀ i, i < m1 → lookup i < m)
    (hinj : ∀ i j, i < m1 → j < m1 → lookup i = lookup j → i = j) {s : Nat} (hs : s < m)
    (n : Nat) (M : Nat → ℚ) :
    forLoop 1 (fun c => accum m lookup m1 (f c)) n M (s * m + s) = M (s * m + s) +
      ∑ c in Finset.range n, ∑ i in Finset.range m1,
        if lookup i = s then f (1 + c) i i else 0 := by
  induction n with
  | zero => simp [forLoop]
  | succ n ih =>
    simp only [forLoop]
    rw [accum_diag _ _ hl hinj hs, ih, Finset.sum_range_succ]
    ring

theorem treeLoop_ge {m : Nat} {lookup : Nat → Nat} {m1 : Nat} (f : Nat → Nat → Nat → ℚ)
    (n : Nat) (hf : ∀ c i j, c < n → i < m1 → j < m1 → 0 ≤ f (1 + c) i j) (M : Nat → ℚ)
    (idx : Nat) :
    M idx ≤ forLoop 1 (fun c => accum m lookup m1 (f c)) n M idx := by
  refine forLoop_inv (fun _ (M' : Nat → ℚ) => M idx ≤ M' idx) 1 _ n M (le_refl _) ?_
  intro c M' hc hM'
  exact le_trans hM' (accum_ge (hf c · · hc) M' idx)

theorem winSq_nonneg (lookup : Nat → Nat) (m1 : Nat) (W : Nat → ℚ) (s : Nat) :
    0 ≤ winSq lookup m1 W s := by
  refine Finset.sum_nonneg fun i _ => ?_
  split_ifs
  · exact mul_self_nonneg _
  · exact le_refl 0

/-- One mask with several clusters adds at most the squared window weights to a
diagonal cell of the numerator. -/
theorem segWeights_sq_le (seg : Nat → Nat) {wts : Nat → ℚ} (hw : ∀ i, 0 ≤ wts i)
    {h w x y : Nat} (hy : y < h) (win : WinState) (wts1 : Nat → ℚ)
    (hlb : ∀ k, k < winLen w x * winLen h y → win.lbls1 (winCell x y (winLen h y) k) < win.m1)
    (hwt : ∀ i, i < win.m1 → win.wts1 i =
      ∑ k in Finset.range (winLen w x * winLen h y),
        if win.lbls1 (winCell x y (winLen h y) k) = i
        then wts (winPix h x y (winLen h y) k) else 0) (s : Nat) :
    (∑ c in Finset.range (segMax seg h w x y + 1), ∑ i in Finset.range win.m1,
        if win.lookup i = s then
          segWeights seg wts h w x y (segMax seg h w x y + 1) win wts1 (i + (1 + c) * win.m1) *
          segWeights seg wts h w x y (segMax seg h w x y + 1) win wts1 (i + (1 + c) * win.m1)
        else 0) ≤ winSq win.lookup win.m1 win.wts1 s := by
  rw [Finset.sum_comm]
  refine Finset.sum_le_sum fun i hi => ?_
  have hi' := Finset.mem_range.mp hi
  by_cases hc : win.lookup i = s
  · simp only [if_pos hc]
    have hsum := segWeights_col_sum seg wts hy win wts1 hlb hi'
    rw [← hwt i hi'] at hsum
    have hsq := Finset.sum_sq_le_sq_sum_of_nonneg (s := Finset.range (segMax seg h w x y + 1))
      (f := fun c => segWeights seg wts h w x y (segMax seg h w x y + 1) win wts1
        (i + (1 + c) * win.m1))
      (fun c hc' => segWeights_col_nonneg seg hw hy _ win wts1 hlb hi' (Finset.mem_range.mp hc'))
    rw [hsum] at hsq
    calc _ = ∑ c in Finset.range (segMax seg h w x y + 1),
          (segWeights seg wts h w x y (segMax seg h w x y + 1) win wts1
            (i + (1 + c) * win.m1)) ^ 2 :=
          Finset.sum_congr rfl fun c _ => (sq _).symm
      _ ≤ win.wts1 i ^ 2 := hsq
      _ = win.wts1 i * win.wts1 i := sq _
  · simp only [if_neg hc, Finset.sum_const_zero, le_refl]

theorem treeBranch_inv {m : Nat} {win : WinState} (hl : ∀ i, i < win.m1 → win.lookup i < m)
    (hinj : ∀ i j, i < win.m1 → j < win.m1 → win.lookup i = win.lookup j → i = j)
    (Sn0 : Nat → ℚ) {k : Nat} {st : TreeState} (hst : TreeInv m win Sn0 k st) (s1 : Nat)
    (wt : Nat → ℚ) (hlow : ∀ i, i < win.m1 → wt i = st.wts1 i)
    (hnn : ∀ i c, i < win.m1 → c < s1 → 0 ≤ wt (i + (1 + c) * win.m1))
    (hsq : ∀ s, (∑ c in Finset.range s1, ∑ i in Finset.range win.m1,
        if win.lookup i = s then wt (i + (1 + c) * win.m1) * wt (i + (1 + c) * win.m1) else 0) ≤
      winSq win.lookup win.m1 win.wts1 s) :
    TreeInv m win Sn0 (k + 1)
      { Sn := forLoop 1 (fun s => accum m win.lookup win.m1
          (fun i j => wt (i + s * win.m1) * wt (j + s * win.m1))) s1 st.Sn,
        wts1 := wt, nConst := st.nConst } := by
  obtain ⟨h1, h2, h3⟩ := hst
  refine ⟨fun i hi => (hlow i hi).trans (h1 i hi), fun idx => ?_, fun s hs => ?_⟩
  · exact le_trans (h2 idx) (treeLoop_ge
      (fun s i j => wt (i + s * win.m1) * wt (j + s * win.m1)) s1
      (fun c i j hc hi hj => mul_nonneg (hnn i c hi hc) (hnn j c hj hc)) st.Sn idx)
  · have e := treeLoop_diag (fun s i j => wt (i + s * win.m1) * wt (j + s * win.m1))
      hl hinj hs s1 st.Sn
    have e' : forLoop 1 (fun s => accum m win.lookup win.m1
        (fun i j => wt (i + s * win.m1) * wt (j + s * win.m1))) s1 st.Sn (s * m + s) =
        st.Sn (s * m + s) + ∑ c in Finset.range s1, ∑ i in Finset.range win.m1,
          if win.lookup i = s then wt (i + (1 + c) * win.m1) * wt (i + (1 + c) * win.m1)
          else 0 := e
    show forLoop 1 (fun s => accum m win.lookup win.m1
        (fun i j => wt (i + s * win.m1) * wt (j + s * win.m1))) s1 st.Sn (s * m + s) +
      (st.nConst : ℚ) * winSq win.lookup win.m1 win.wts1 s ≤
      Sn0 (s * m + s) + ((k + 1 : Nat) : ℚ) * winSq win.lookup win.m1 win.wts1 s
    rw [e']
    have := h3 s hs
    have := hsq s
    push_cast
    linarith

theorem treeStep_inv {segs S : Nat → Nat} {wts : Nat → ℚ} (hw : ∀ i, 0 ≤ wts i)
    {h w m x y : Nat} (hy : y < h) {win : WinState}
    (hwin : WinInv S wts m (winPix h x y (winLen h y)) (winCell x y (winLen h y))
      (winLen w x * winLen h y) win) (Sn0 : Nat → ℚ) {k t : Nat} {st st' : TreeState}
    (hst : TreeInv m win Sn0 k st) (hrun : treeStep segs wts h w m x y win t st = some st') :
    TreeInv m win Sn0 (k + 1) st' := by
  obtain ⟨_, _, hl, hinj, hlb, hwt⟩ := hwin
  have hlb' : ∀ k, k < winLen w x * winLen h y →
      win.lbls1 (winCell x y (winLen h y) k) < win.m1 := fun k hk => (hlb k hk).1
  simp only [treeStep] at hrun
  split_ifs at hrun with hc1 hc2
  · obtain ⟨h1, h2, h3⟩ := hst
    rw [← Option.some.inj hrun]
    refine ⟨h1, h2, fun s hs => ?_⟩
    have := h3 s hs
    show st.Sn (s * m + s) + ((st.nConst + 1 : Nat) : ℚ) * _ ≤
      Sn0 (s * m + s) + ((k + 1 : Nat) : ℚ) * _
    push_cast
    linarith
  · rw [← Option.some.inj hrun]
    exact treeBranch_inv hl hinj Sn0 hst _ _
      (fun i hi => segWeights_low _ wts hy _ win st.wts1 hi)
      (fun i c hi hc => segWeights_col_nonneg _ hw hy _ win st.wts1 hlb' hi hc)
      (fun s => segWeights_sq_le _ hw hy win st.wts1 hlb' hwt s)

/-! ## `affinities`: what one window adds to the accumulators -/

theorem winSq_zero {lookup : Nat → Nat} {m1 : Nat} {W : Nat → ℚ} {s : Nat}
    (h0 : winSq lookup m1 W s = 0) {i : Nat} (hi : i < m1) (hs : lookup i = s) : W i = 0 := by
  have hnn : ∀ j ∈ Finset.range m1, 0 ≤ (if lookup j = s then W j * W j else 0) := by
    intro j _
    split_ifs
    · exact mul_self_nonneg _
    · exact le_refl 0
  have := (Finset.sum_eq_zero_iff_of_nonneg hnn).mp h0 i (Finset.mem_range.mpr hi)
  rw [if_pos hs] at this
  exact mul_self_eq_zero.mp this

theorem accum_diag_sq {m : Nat} {lookup : Nat → Nat} {m1 : Nat} (W : Nat → ℚ) (c : ℚ)
    (M : Nat → ℚ) (hl : ∀ i, i < m1 → lookup i < m)
    (hinj : ∀ i j, i < m1 → j < m1 → lookup i = lookup j → i = j) {s : Nat} (hs : s < m) :
    accum m lookup m1 (fun i j => W i * W j * c) M (s * m + s) =
      M (s * m + s) + c * winSq lookup m1 W s := by
  rw [accum_diag _ M hl hinj hs, winSq, Finset.mul_sum]
  congr 1
  refine Finset.sum_congr rfl fun i _ => ?_
  split_ifs
  · ring
  · ring

theorem accum_pair_zero {m : Nat} {lookup : Nat → Nat} {m1 : Nat} (W : Nat → ℚ) (c : ℚ)
    (M : Nat → ℚ) (hl : ∀ i, i < m1 → lookup i < m) {s t : Nat} (ht : t < m)
    (h0 : winSq lookup m1 W s = 0 ∨ winSq lookup m1 W t = 0) :
    accum m lookup m1 (fun i j => W i * W j * c) M (s * m + t) = M (s * m + t) := by
  rw [accum_entry _ M hl ht, Finset.sum_eq_zero, add_zero]
  intro i hi
  refine Finset.sum_eq_zero fun j hj => ?_
  split_ifs with hc
  · rcases h0 with h0 | h0
    · rw [winSq_zero h0 (Finset.mem_range.mp hi) hc.1]; ring
    · rw [winSq_zero h0 (Finset.mem_range.mp hj) hc.2]; ring
  · rfl

theorem windowStep_inv {segs S : Nat → Nat} {wts : Nat → ℚ} (hw : ∀ i, 0 ≤ wts i)
    {h w x y : Nat} (hx : x < w) (hy : y < h) {p p' : (Nat → ℚ) × (Nat → ℚ)}
    (hp : AccInv (labelCount S (w * h)) p)
    (hrun : windowStep segs S wts h w (labelCount S (w * h)) x y p = some p') :
    AccInv (labelCount S (w * h)) p' := by
  have hwin := winBuild_inv S wts hx hy
  obtain ⟨_, _, hl, hinj, _, hwt⟩ := id hwin
  obtain ⟨p1, p2, p3, p4⟩ := hp
  simp only [windowStep] at hrun
  obtain ⟨st, hst, hp'⟩ := Option.map_eq_some'.mp hrun
  have hT : TreeInv (labelCount S (w * h)) (winBuild S wts h w x y) p.1 4 st :=
    forLoopM_inv (fun k (u : TreeState) =>
        TreeInv (labelCount S (w * h)) (winBuild S wts h w x y) p.1 k u) 0 _ 4 _
      ⟨fun _ _ => rfl, fun _ => le_refl _, fun s _ => by
        show p.1 _ + ((0 : Nat) : ℚ) * _ ≤ p.1 _ + ((0 : Nat) : ℚ) * _
        exact le_refl _⟩
      (fun k u u' _ hu hu' => treeStep_inv hw hy hwin p.1 hu hu') st hst
  obtain ⟨t1, t2, t3⟩ := hT
  have hWnn : ∀ i, i < (winBuild S wts h w x y).m1 → 0 ≤ st.wts1 i := by
    intro i hi
    rw [t1 i hi, hwt i hi]
    refine Finset.sum_nonneg fun k _ => ?_
    split_ifs
    · exact hw _
    · exact le_refl 0
  have hsqe : winSq (winBuild S wts h w x y).lookup (winBuild S wts h w x y).m1 st.wts1 =
      winSq (winBuild S wts h w x y).lookup (winBuild S wts h w x y).m1
        (winBuild S wts h w x y).wts1 := by
    funext s
    refine Finset.sum_congr rfl fun i hi => ?_
    rw [t1 i (Finset.mem_range.mp hi)]
  have hsq0 := winSq_nonneg (winBuild S wts h w x y).lookup (winBuild S wts h w x y).m1
    st.wts1
  rw [← hp']
  refine ⟨fun idx => ?_, fun idx => ?_, fun s hs => ?_, fun s t hs ht h0 => ?_⟩
  · show 0 ≤ (if st.nConst ≠ 0 then _ else _ : Nat → ℚ) idx
    split_ifs
    · refine le_trans (le_trans (p1 idx) (t2 idx)) (accum_ge ?_ st.Sn idx)
      intro i j hi hj
      exact mul_nonneg (mul_nonneg (hWnn i hi) (hWnn j hj)) (Nat.cast_nonneg _)
    · exact le_trans (p1 idx) (t2 idx)
  · refine le_trans (p2 idx) (accum_ge ?_ p.2 idx)
    intro i j hi hj
    exact mul_nonneg (mul_nonneg (hWnn i hi) (hWnn j hj)) (Nat.cast_nonneg _)
  · show (if st.nConst ≠ 0 then _ else _ : Nat → ℚ) (s * _ + s) ≤
      accum _ _ _ _ p.2 (s * _ + s)
    rw [accum_diag_sq st.wts1 _ p.2 hl hinj hs]
    have h3 := t3 s hs
    rw [← hsqe] at h3
    have h4 := p3 s hs
    have h5 := hsq0 s
    split_ifs with hc
    · rw [accum_diag_sq st.wts1 _ st.Sn hl hinj hs]
      push_cast at h3 ⊢
      linarith
    · have hc0 : st.nConst = 0 := not_not.mp hc
      rw [hc0] at h3
      push_cast at h3 ⊢
      linarith
  · show accum _ _ _ _ p.2 (s * _ + t) = 0
    have hd : ∀ r, r < labelCount S (w * h) →
        accum (labelCount S (w * h)) (winBuild S wts h w x y).lookup
          (winBuild S wts h w x y).m1 (fun i j => st.wts1 i * st.wts1 j * ((4 : Nat) : ℚ)) p.2
          (r * labelCount S (w * h) + r) = 0 →
        p.2 (r * labelCount S (w * h) + r) = 0 ∧
        winSq (winBuild S wts h w x y).lookup (winBuild S wts h w x y).m1 st.wts1 r = 0 := by
      intro r hr e
      rw [accum_diag_sq st.wts1 _ p.2 hl hinj hr] at e
      have h5 := hsq0 r
      have h6 := p2 (r * labelCount S (w * h) + r)
      push_cast at e
      constructor
      · linarith
      · linarith
    have hz : winSq (winBuild S wts h w x y).lookup (winBuild S wts h w x y).m1 st.wts1 s = 0 ∨
        winSq (winBuild S wts h w x y).lookup (winBuild S wts h w x y).m1 st.wts1 t = 0 := by
      rcases h0 with h0 | h0
      · exact Or.inl (hd s hs h0).2
      · exact Or.inr (hd t ht h0).2
    rw [accum_pair_zero st.wts1 _ p.2 hl ht hz]
    refine p4 s t hs ht ?_
    rcases h0 with h0 | h0
    · exact Or.inl (hd s hs h0).1
    · exact Or.inr (hd t ht h0).1

theorem affinityAccum_inv {segs S : Nat → Nat} {wts : Nat → ℚ} (hw : ∀ i, 0 ≤ wts i)
    {h w : Nat} {p : (Nat → ℚ) × (Nat → ℚ)}
    (hrun : affinityAccum segs S wts h w (fun _ => 0) (fun _ => 0) = some p) :
    AccInv (labelCount S (w * h)) p := by
  simp only [affinityAccum] at hrun
  refine forLoopM_nest_inv (fun q : (Nat → ℚ) × (Nat → ℚ) => AccInv (labelCount S (w * h)) q)
    0 0 ((w + 1) / 2) ((h + 1) / 2)
    (fun a b => windowStep segs S wts h w (labelCount S (w * h)) (2 * a) (2 * b))
    (fun _ => 0, fun _ => 0)
    ⟨fun _ => le_refl _, fun _ => le_refl _, fun _ _ => le_refl _, fun _ _ _ _ _ => rfl⟩
    ?_ p hrun
  intro a b t u ha hb ht hu
  exact windowStep_inv hw (by omega) (by omega) ht hu

/-! ## `affinities`: an ensemble of masks with one cluster each -/

theorem segMax_trivial {seg : Nat → Nat} (hseg : ∀ i, seg i = 0) (h w x y : Nat) :
    segMax seg h w x y = 0 := by
  refine forLoop_inv (fun _ (s1 : Nat) => s1 = 0) 0 _ (winLen w x) 0 rfl ?_
  intro a s1 _ hs1
  refine forLoop_inv (fun _ (s1 : Nat) => s1 = 0) 0 _ (winLen h y) s1 hs1 ?_
  intro b s2 _ hs2
  show (if seg _ > s2 then seg _ else s2) = 0
  rw [hseg, hs2]
  rfl

theorem treeStep_trivial {segs : Nat → Nat} (hsegs : ∀ i, segs i = 0) (wts : Nat → ℚ)
    (h w m x y : Nat) (win : WinState) (t : Nat) (st : TreeState) :
    treeStep segs wts h w m x y win t st = some { st with nConst := st.nConst + 1 } := by
  simp only [treeStep]
  rw [segMax_trivial (fun i => hsegs _)]
  rfl

theorem windowStep_trivial {segs : Nat → Nat} (hsegs : ∀ i, segs i = 0) (S : Nat → Nat)
    (wts : Nat → ℚ) (h w m x y : Nat) (p : (Nat → ℚ) × (Nat → ℚ)) :
    windowStep segs S wts h w m x y p = some
      (accum m (winBuild S wts h w x y).lookup (winBuild S wts h w x y).m1
        (fun i j => (winBuild S wts h w x y).wts1 i * (winBuild S wts h w x y).wts1 j *
          ((4 : Nat) : ℚ)) p.1,
       accum m (winBuild S wts h w x y).lookup (winBuild S wts h w x y).m1
        (fun i j => (winBuild S wts h w x y).wts1 i * (winBuild S wts h w x y).wts1 j *
          ((4 : Nat) : ℚ)) p.2) := by
  simp only [windowStep, forLoopM, treeStep_trivial hsegs, Option.bind_some, Option.some_bind,
    Option.map_some']
  rfl

theorem affinityAccum_trivial {segs : Nat → Nat} (hsegs : ∀ i, segs i = 0) (S : Nat → Nat)
    (wts : Nat → ℚ) (h w : Nat) :
    ∃ M, affinityAccum segs S wts h w (fun _ => 0) (fun _ => 0) = some (M, M) := by
  have key : ∀ nx ny (M : Nat → ℚ), ∃ M', forLoopM 0 (fun a => forLoopM 0
      (fun b => windowStep segs S wts h w (labelCount S (w * h)) (2 * a) (2 * b)) ny) nx (M, M) =
      some (M', M') := by
    intro nx ny
    have inner : ∀ a n (M : Nat → ℚ), ∃ M', forLoopM 0
        (fun b => windowStep segs S wts h w (labelCount S (w * h)) (2 * a) (2 * b)) n (M, M) =
        some (M', M') := by
      intro a n
      induction n with
      | zero => exact fun M => ⟨M, rfl⟩
      | succ n ih =>
        intro M
        obtain ⟨M1, h1⟩ := ih M
        simp only [forLoopM, h1, Option.some_bind, windowStep_trivial hsegs]
        exact ⟨_, rfl⟩
    induction nx with
    | zero => exact fun M => ⟨M, rfl⟩
    | succ n ih =>
      intro M
      obtain ⟨M1, h1⟩ := ih M
      obtain ⟨M2, h2⟩ := inner (0 + n) ny M1
      simp only [forLoopM, h1, Option.some_bind, h2]
      exact ⟨_, rfl⟩
  exact key _ _ _

theorem affinityValue_same (M : Nat → ℚ) (m s t : Nat) (hst : M (s * m + t) ≠ 0) :
    affinityValue M M m s t = 1 := by
  have ha : M (s * m + s) / M (s * m + s) ≤ 1 := div_self_le_one _
  have hb : M (t * m + t) / M (t * m + t) ≤ 1 := div_self_le_one _
  simp only [affinityValue]
  rw [div_self hst, max_eq_left (by linarith)]
  ring

/-- When the tables `Sn` and `Sd` start at zero and every mask of the ensemble has one
cluster, every cell of a pair of regions that `affinities` writes holds `1`. -/
theorem affinities_trivial_zero_start {segs : Nat → Nat} (hsegs : ∀ i, segs i = 0)
    (S : Nat → Nat) (wts : Nat → ℚ) (h w : Nat) :
    ∃ A, affinities segs S wts h w (fun _ => 0) (fun _ => 0) = some A ∧
      ∀ s t, 1 ≤ s → s < labelCount S (w * h) → 1 ≤ t → t < labelCount S (w * h) →
        ∀ v, A (affIdx (labelCount S (w * h)) s t) = some v → v = 1 := by
  obtain ⟨M, hM⟩ := affinityAccum_trivial hsegs S wts h w
  refine ⟨affinityFill M M (labelCount S (w * h)), by simp only [affinities, hM, Option.map_some'],
    ?_⟩
  intro s t hs hsm ht htm v hv
  rw [affinityFill_apply M M hs hsm ht htm] at hv
  split_ifs at hv with hc
  rw [← Option.some.inj hv]
  exact affinityValue_same M _ s t hc

/-! ## `affinities`: masks with at most 24 clusters stay inside the scratch table -/

theorem segMax_le (seg : Nat → Nat) {B : Nat} (hseg : ∀ i, seg i ≤ B) (h w x y : Nat) :
    segMax seg h w x y ≤ B := by
  refine forLoop_inv (fun _ (s1 : Nat) => s1 ≤ B) 0 _ (winLen w x) 0 (Nat.zero_le _) ?_
  intro a s1 _ hs1
  refine forLoop_inv (fun _ (s1 : Nat) => s1 ≤ B) 0 _ (winLen h y) s1 hs1 ?_
  intro b s2 _ hs2
  show (if seg _ > s2 then seg _ else s2) ≤ B
  split_ifs
  · exact hseg _
  · exact hs2

theorem winLabels_le {m m1 : Nat} {lookup : Nat → Nat} (hl : ∀ i, i < m1 → lookup i < m)
    (hinj : ∀ i j, i < m1 → j < m1 → lookup i = lookup j → i = j) : m1 ≤ m := by
  have := Finset.card_le_card_of_injOn (s := Finset.range m1) (t := Finset.range m) lookup
    (fun i hi => Finset.mem_coe.mpr (Finset.mem_range.mpr (hl i (Finset.mem_range.mp
      (Finset.mem_coe.mp hi)))))
    (fun i hi j hj e => hinj i j (Finset.mem_range.mp (Finset.mem_coe.mp hi))
      (Finset.mem_range.mp (Finset.mem_coe.mp hj)) e)
  simpa using this

theorem treeStep_total {segs : Nat → Nat} (hsegs : ∀ i, segs i ≤ 23) (wts : Nat → ℚ)
    (h w : Nat) {m : Nat} (x y : Nat) {win : WinState} (hm1 : win.m1 ≤ m) (t : Nat)
    (st : TreeState) : ∃ st', treeStep segs wts h w m x y win t st = some st' := by
  have hmax := segMax_le (fun i => segs ((y / 2 + x / 2 * ((h + 3) / 4 * 4 / 2) +
    t * ((h + 3) / 4 * 4 / 2) * ((w + 3) / 4 * 4 / 2)) * 16 * 16 + i)) (fun i => hsegs _) h w x y
  simp only [treeStep]
  split_ifs with h1 h2
  · exact ⟨_, rfl⟩
  · exact ⟨_, rfl⟩
  · exfalso
    apply h2
    calc win.m1 * (segMax _ h w x y + 1 + 1) ≤ win.m1 * 25 :=
          Nat.mul_le_mul_left _ (by omega)
      _ ≤ m * 25 := Nat.mul_le_mul_right _ hm1

theorem windowStep_total {segs : Nat → Nat} (hsegs : ∀ i, segs i ≤ 23) (S : Nat → Nat)
    (wts : Nat → ℚ) {h w x y : Nat} (hx : x < w) (hy : y < h) (p : (Nat → ℚ) × (Nat → ℚ)) :
    ∃ p', windowStep segs S wts h w (labelCount S (w * h)) x y p = some p' := by
  obtain ⟨_, _, hl, hinj, _, _⟩ := winBuild_inv S wts hx hy
  obtain ⟨st, hst, _⟩ := forLoopM_total (fun _ (_ : TreeState) => True) 0
    (treeStep segs wts h w (labelCount S (w * h)) x y (winBuild S wts h w x y)) 4
    { Sn := p.1, wts1 := (winBuild S wts h w x y).wts1, nConst := 0 } trivial
    (fun k u _ _ => by
      obtain ⟨u', hu'⟩ := treeStep_total hsegs wts h w x y (winLabels_le hl hinj) (0 + k) u
      exact ⟨u', hu', trivial⟩)
  simp only [windowStep, hst, Option.map_some']
  exact ⟨_, rfl⟩

/-- When no mask of the ensemble has a cluster id above `23`, the call `affinities`
stays inside its scratch table of `m*25` weights and returns. -/
theorem affinities_total {segs : Nat → Nat} (hsegs : ∀ i, segs i ≤ 23) (S : Nat → Nat)
    (wts : Nat → ℚ) (h w : Nat) (Sn0 Sd0 : Nat → ℚ) :
    ∃ A, affinities segs S wts h w Sn0 Sd0 = some A := by
  obtain ⟨p, hp, _⟩ := forLoopM_raster_total (fun _ (_ : (Nat → ℚ) × (Nat → ℚ)) => True)
    ((h + 1) / 2) ((w + 1) / 2)
    (fun a b => windowStep segs S wts h w (labelCount S (w * h)) (2 * a) (2 * b)) (Sn0, Sd0)
    trivial
    (fun a b q ha hb _ => by
      obtain ⟨q', hq'⟩ := windowStep_total hsegs S wts (show 2 * a < w by omega)
        (show 2 * b < h by omega) q
      exact ⟨q', hq', trivial⟩)
  have hp' : affinityAccum segs S wts h w Sn0 Sd0 = some p := hp
  exact ⟨affinityFill p.1 p.2 (labelCount S (w * h)),
    by simp only [affinities, hp', Option.map_some']⟩

/-! ## `affinities`: the claims -/

theorem affinityValue_sym {Sn Sd : Nat → ℚ} {m : Nat} (hSn : SymMat m Sn) (hSd : SymMat m Sd)
    {s t : Nat} (hs : s < m) (ht : t < m) :
    affinityValue Sn Sd m s t = affinityValue Sn Sd m t s := by
  simp only [affinityValue]
  rw [hSn s t hs ht, hSd s t hs ht, add_comm (Sn (s * m + s) / Sd (s * m + s) / 2)]

/-- When the call stays inside the scratch table `wts1` (`hrun`), as it does whenever no
cluster id exceeds `23` (`affinities_total`): with the accumulators `Sn`, `Sd` starting
at zero and the windows processed one after the other, the cells `(s, t)` and `(t, s)`
of the output of `affinities` agree for all regions `s`, `t`: both are written or
neither is, and when written they hold the same value. -/
theorem affinities_symmetric (segs S : Nat → Nat) (wts : Nat → ℚ) (h w : Nat)
    (A : Nat → Option ℚ)
    (hrun : affinities segs S wts h w (fun _ => 0) (fun _ => 0) = some A) (s t : Nat)
    (hs : 1 ≤ s) (hsm : s < labelCount S (w * h)) (ht : 1 ≤ t)
    (htm : t < labelCount S (w * h)) :
    A (affIdx (labelCount S (w * h)) s t) = A (affIdx (labelCount S (w * h)) t s) := by
  simp only [affinities] at hrun
  obtain ⟨p, hp, hA⟩ := Option.map_eq_some'.mp hrun
  have hz : SymMat (labelCount S (w * h)) (fun _ => (0 : ℚ)) := fun _ _ _ _ => rfl
  obtain ⟨hSn, hSd⟩ := affinityAccum_sym hz hz hp
  rw [← hA, affinityFill_apply p.1 p.2 hs hsm ht htm, affinityFill_apply p.1 p.2 ht htm hs hsm,
    hSd s t hsm htm, affinityValue_sym hSn hSd hsm htm]

/-- The symmetry of the output on the `1 × 2` map `1 2` with a trivial ensemble and
weights `1/2`, for the regions `1` and `2`. -/
theorem affinities_symmetric_witness :
    ∃ A, affinities (fun _ => 0) (ofList [1, 2]) (fun _ => 1 / 2) 1 2 (fun _ => 0) (fun _ => 0)
        = some A ∧
      A (affIdx (labelCount (ofList [1, 2]) (2 * 1)) 1 2) =
        A (affIdx (labelCount (ofList [1, 2]) (2 * 1)) 2 1) :=
  (Option.isSome_iff_exists.mp (by decide! :
    (affinities (fun _ => 0) (ofList [1, 2]) (fun _ => 1 / 2) 1 2 (fun _ => 0)
      (fun _ => 0)).isSome = true)).elim fun A hrun =>
    ⟨A, hrun, affinities_symmetric (fun _ => 0) (ofList [1, 2]) (fun _ => 1 / 2) 1 2 A hrun 1 2
      (by decide) (by decide) (by decide) (by decide)⟩

theorem affinityValue_bounds {Sn Sd : Nat → ℚ} {m : Nat} (hp : AccInv m (Sn, Sd)) {s t : Nat}
    (hs : s < m) (ht : t < m) :
    0 ≤ affinityValue Sn Sd m s t ∧ affinityValue Sn Sd m s t ≤ 1 := by
  obtain ⟨p1, p2, p3, _⟩ := hp
  have ha : Sn (s * m + s) / Sd (s * m + s) ≤ 1 := div_le_one_of_le₀ (p3 s hs) (p2 _)
  have hb : Sn (t * m + t) / Sd (t * m + t) ≤ 1 := div_le_one_of_le₀ (p3 t ht) (p2 _)
  have hc : 0 ≤ Sn (s * m + t) / Sd (s * m + t) := div_nonneg (p1 _) (p2 _)
  simp only [affinityValue]
  constructor
  · have : max 0 (Sn (s * m + s) / Sd (s * m + s) / 2 + Sn (t * m + t) / Sd (t * m + t) / 2 -
        Sn (s * m + t) / Sd (s * m + t)) ≤ 1 := max_le (by norm_num) (by linarith)
    linarith
  · have : (0 : ℚ) ≤ max 0 (Sn (s * m + s) / Sd (s * m + s) / 2 +
        Sn (t * m + t) / Sd (t * m + t) / 2 - Sn (s * m + t) / Sd (s * m + t)) :=
      le_max_left _ _
    linarith

/-- With non-negative weights and the accumulators starting at zero, the three
denominators read for a pair of regions whose cell is written are all nonzero, so the
value written involves no division by zero. -/
theorem affinityAccum_denominators {segs S : Nat → Nat} {wts : Nat → ℚ}
    (hw : ∀ i, 0 ≤ wts i) {h w : Nat} {p : (Nat → ℚ) × (Nat → ℚ)}
    (hrun : affinityAccum segs S wts h w (fun _ => 0) (fun _ => 0) = some p) {s t : Nat}
    (hs : s < labelCount S (w * h)) (ht : t < labelCount S (w * h))
    (hst : p.2 (s * labelCount S (w * h) + t) ≠ 0) :
    p.2 (s * labelCount S (w * h) + s) ≠ 0 ∧ p.2 (t * labelCount S (w * h) + t) ≠ 0 := by
  obtain ⟨_, _, _, p4⟩ := affinityAccum_inv hw hrun
  exact ⟨fun e => hst (p4 s t hs ht (Or.inl e)), fun e => hst (p4 s t hs ht (Or.inr e))⟩

/-- When the call stays inside the scratch table `wts1` (`hrun`), as it does whenever no
cluster id exceeds `23` (`affinities_total`): for non-negative per-pixel weights, with
the accumulators `Sn`, `Sd` starting at zero and exact arithmetic, every value that
`affinities` writes into the cell of a pair of regions `s`, `t` lies in `[0, 1]`; no
denominator of a written value is zero (`affinityAccum_denominators`). -/
theorem affinities_entries_in_unit_interval (segs S : Nat → Nat) (wts : Nat → ℚ)
    (hw : ∀ i, 0 ≤ wts i) (h w : Nat) (A : Nat → Option ℚ)
    (hrun : affinities segs S wts h w (fun _ => 0) (fun _ => 0) = some A) (s t : Nat)
    (hs : 1 ≤ s) (hsm : s < labelCount S (w * h)) (ht : 1 ≤ t)
    (htm : t < labelCount S (w * h)) (v : ℚ)
    (hv : A (affIdx (labelCount S (w * h)) s t) = some v) : 0 ≤ v ∧ v ≤ 1 := by
  simp only [affinities] at hrun
  obtain ⟨p, hp, hA⟩ := Option.map_eq_some'.mp hrun
  have hinv := affinityAccum_inv hw hp
  rw [← hA, affinityFill_apply p.1 p.2 hs hsm ht htm] at hv
  split_ifs at hv
  rw [← Option.some.inj hv]
  exact affinityValue_bounds hinv hsm htm

/-- The bounds of a written value on the `1 × 2` map `1 2` with an ensemble whose first
mask puts the two pixels into two clusters, weights `1/2`, for the regions `1` and `2`. -/
theorem affinities_entries_in_unit_interval_witness :
    ∃ A v, affinities (fun i => if i = 152 then 1 else 0) (ofList [1, 2]) (fun _ => 1 / 2)
        1 2 (fun _ => 0) (fun _ => 0) = some A ∧
      A (affIdx (labelCount (ofList [1, 2]) (2 * 1)) 1 2) = some v ∧ 0 ≤ v ∧ v ≤ 1 :=
  (Option.isSome_iff_exists.mp (by decide! :
    ((affinities (fun i => if i = 152 then 1 else 0) (ofList [1, 2]) (fun _ => 1 / 2)
      1 2 (fun _ => 0) (fun _ => 0)).bind fun A =>
        A (affIdx (labelCount (ofList [1, 2]) (2 * 1)) 1 2)).isSome = true)).elim fun v hv =>
    (Option.bind_eq_some.mp hv).elim fun A hA =>
      ⟨A, v, hA.1, hA.2, affinities_entries_in_unit_interval _ (ofList [1, 2]) (fun _ => 1 / 2)
        (fun _ => by norm_num) 1 2 A hA.1 1 2 (by decide) (by decide) (by decide) (by decide)
        v hA.2⟩

/-- C8.  The scratch table `wts1` has `m*25` cells and a mask with the largest cluster
id `c` uses `m1*(c+2)` of them, where `c` is a `uint8`.  On the `1 × 2` map `0 1` with an
ensemble whose masks carry the cluster id `24`, the window holds both labels (`m1 = 2`),
the table has `50` cells and the zeroing loop runs up to the cell `51`: the call leaves
its table and has no defined result, so no matrix, symmetric or not, is computed.  With
the id `23` the call returns. -/
theorem affinities_cluster_id_overruns_weights :
    labelCount (ofList [0, 1]) (2 * 1) * 25 = 50 ∧
    (winBuild (ofList [0, 1]) (fun _ => 1 / 2) 1 2 0 0).m1 = 2 ∧
    segMax (fun _ => 24) 1 2 0 0 = 24 ∧
    (affinities (fun _ => 24) (ofList [0, 1]) (fun _ => 1 / 2) 1 2 (fun _ => 0)
      (fun _ => 0)).isSome = false ∧
    (affinities (fun _ => 23) (ofList [0, 1]) (fun _ => 1 / 2) 1 2 (fun _ => 0)
      (fun _ => 0)).isSome = true := by
  decide!

/-- C9.  On the `1 × 2` map `1 2` with the non-negative weights `1` and an ensemble whose
masks carry the cluster id `255`, the largest `uint8`, the scratch table `wts1` has
`3*25 = 75` cells and the zeroing loop runs up to the cell `2*257 - 1 = 513`: the call
leaves its table and has no defined result, so its entries are not confined to
`[0, 1]`. -/
theorem affinities_entries_past_weights :
    labelCount (ofList [1, 2]) (2 * 1) * 25 = 75 ∧
    (winBuild (ofList [1, 2]) (fun _ => 1) 1 2 0 0).m1 = 2 ∧
    segMax (fun _ => 255) 1 2 0 0 = 255 ∧
    (affinities (fun _ => 255) (ofList [1, 2]) (fun _ => 1) 1 2 (fun _ => 0)
      (fun _ => 0)).isSome = false := by
  decide!

/-- C10.  The tables `Sn` and `Sd` are allocated without being zeroed, and the call
adds to whatever they hold.  On the `1 × 2` map `1 2` with edge value `0.05` (weights
`1/2`) and an ensemble whose masks all have one cluster, when the two cells of `Sd`
for the pairs `(1, 2)` and `(2, 1)` hold `1` at the allocation, the call writes `1/2`
for these pairs, not `1`. -/
theorem affinities_trivial_ensemble_uninitialised :
    (affinities (fun _ => 0) (ofList [1, 2]) (fun _ => 1 / 2) 1 2 (fun _ => 0)
        (fun i => if i = 5 ∨ i = 7 then 1 else 0)).map (fun A => [A 0, A 1, A 2, A 3]) =
      some [some 1, some (1 / 2), some (1 / 2), some 1] := by
  decide!

/-! ## `affinities`: the diagonal cells -/

theorem affinityValue_diag (Sn Sd : Nat → ℚ) (m s : Nat) : affinityValue Sn Sd m s s = 1 := by
  simp only [affinityValue]
  have e : Sn (s * m + s) / Sd (s * m + s) / 2 + Sn (s * m + s) / Sd (s * m + s) / 2 -
      Sn (s * m + s) / Sd (s * m + s) = 0 := by ring
  rw [e, max_self, sub_zero]

/-- C11 (amended).  The last loops of `affinities` run over all pairs `(s, t)`, the
pairs `s = t` included: whatever the tables `Sn`, `Sd` held, when the accumulation
returns the denominators `Sd`, the call returns and the diagonal cell `(s, s)` of
every region `s` is written exactly when `Sd[s,s]` is nonzero, with the value `1`. -/
theorem affinities_diagonal_written (segs S : Nat → Nat) (wts : Nat → ℚ) (h w : Nat)
    (Sn0 Sd0 : Nat → ℚ) (p : (Nat → ℚ) × (Nat → ℚ))
    (hacc : affinityAccum segs S wts h w Sn0 Sd0 = some p) (s : Nat) (hs : 1 ≤ s)
    (hsm : s < labelCount S (w * h)) :
    ∃ A, affinities segs S wts h w Sn0 Sd0 = some A ∧
      A (affIdx (labelCount S (w * h)) s s) =
        if p.2 (s * labelCount S (w * h) + s) ≠ 0 then some 1 else none := by
  refine ⟨affinityFill p.1 p.2 (labelCount S (w * h)),
    by simp only [affinities, hacc, Option.map_some'], ?_⟩
  rw [affinityFill_apply p.1 p.2 hs hsm hs hsm, affinityValue_diag]

/-- C11 (witness).  The theorem on the `1 × 2` map `1 2` with an ensemble of masks with
one cluster, weights `1/2` and zeroed tables, for the region `1`. -/
theorem affinities_diagonal_written_witness :
    ∃ p A, affinityAccum (fun _ => 0) (ofList [1, 2]) (fun _ => 1 / 2) 1 2 (fun _ => 0)
        (fun _ => 0) = some p ∧
      affinities (fun _ => 0) (ofList [1, 2]) (fun _ => 1 / 2) 1 2 (fun _ => 0) (fun _ => 0)
        = some A ∧
      A (affIdx (labelCount (ofList [1, 2]) (2 * 1)) 1 1) =
        if p.2 (1 * labelCount (ofList [1, 2]) (2 * 1) + 1) ≠ 0 then some 1 else none :=
  (Option.isSome_iff_exists.mp (by decide! :
    (affinityAccum (fun _ => 0) (ofList [1, 2]) (fun _ => 1 / 2) 1 2 (fun _ => 0)
      (fun _ => 0)).isSome = true)).elim fun p hacc =>
    (affinities_diagonal_written (fun _ => 0) (ofList [1, 2]) (fun _ => 1 / 2) 1 2
      (fun _ => 0) (fun _ => 0) p hacc 1 (by decide) (by decide)).elim fun A hA =>
        ⟨p, A, hacc, hA.1, hA.2⟩

/-- C11 (counterexample).  On the `1 × 2` map `1 2` with an ensemble of masks with one
cluster, weights `1/2` and zeroed tables, `affinities` writes `1` into the cell of the
pair `(1, 1)`, the first cell of the output matrix. -/
theorem affinities_diagonal_counterexample :
    (affinities (fun _ => 0) (ofList [1, 2]) (fun _ => 1 / 2) 1 2 (fun _ => 0)
        (fun _ => 0)).map (fun A => (affIdx 3 1 1, A 0)) = some (0, some 1) := by
  decide!

/-! ## `edges`: the labels around a boundary pixel -/

theorem edgeRow_mem (S : Nat → Nat) (h xi lo : Nat) (v : Nat) (n : Nat) (ss : List Nat) :
    v ∈ forLoop lo (fun yi => edgeStep S h xi yi) n ss ↔
      v ∈ ss ∨ ∃ b, b < n ∧ S (xi * h + (lo + b)) ≠ 0 ∧ S (xi * h + (lo + b)) - 1 = v := by
  induction n with
  | zero => simp [forLoop]
  | succ n ih =>
    simp only [forLoop, edgeStep]
    constructor
    · intro hv
      split_ifs at hv with h0 hin
      · rcases ih.mp hv with h1 | ⟨b, hb, hb'⟩
        · exact Or.inl h1
        · exact Or.inr ⟨b, Nat.lt_succ_of_lt hb, hb'⟩
      · rcases ih.mp hv with h1 | ⟨b, hb, hb'⟩
        · exact Or.inl h1
        · exact Or.inr ⟨b, Nat.lt_succ_of_lt hb, hb'⟩
      · rcases List.mem_append.mp hv with h1 | h1
        · rcases ih.mp h1 with h2 | ⟨b, hb, hb'⟩
          · exact Or.inl h2
          · exact Or.inr ⟨b, Nat.lt_succ_of_lt hb, hb'⟩
        · exact Or.inr ⟨n, Nat.lt_succ_self n, h0, (List.mem_singleton.mp h1).symm⟩
    · intro hv
      have hold : v ∈ forLoop lo (fun yi => edgeStep S h xi yi) n ss →
          v ∈ (if S (xi * h + (lo + n)) = 0 then forLoop lo (fun yi => edgeStep S h xi yi) n ss
            else if S (xi * h + (lo + n)) - 1 ∈ forLoop lo (fun yi => edgeStep S h xi yi) n ss
            then forLoop lo (fun yi => edgeStep S h xi yi) n ss
            else forLoop lo (fun yi => edgeStep S h xi yi) n ss ++
              [S (xi * h + (lo + n)) - 1]) := by
        intro h1
        split_ifs
        · exact h1
        · exact h1
        · exact List.mem_append.mpr (Or.inl h1)
      rcases hv with h1 | ⟨b, hb, hb0, hbv⟩
      · exact hold (ih.mpr (Or.inl h1))
      · by_cases hbn : b = n
        · subst hbn
          rw [if_neg hb0]
          split_ifs with hin
          · exact hbv ▸ hin
          · exact List.mem_append.mpr (Or.inr (List.mem_singleton.mpr hbv.symm))
        · exact hold (ih.mpr (Or.inr ⟨b, by omega, hb0, hbv⟩))

theorem edgeRows_mem (S : Nat → Nat) (h lox loy ny : Nat) (v : Nat) (nx : Nat)
    (ss : List Nat) :
    v ∈ forLoop lox (fun xi => forLoop loy (fun yi => edgeStep S h xi yi) ny) nx ss ↔
      v ∈ ss ∨ ∃ a b, a < nx ∧ b < ny ∧ S ((lox + a) * h + (loy + b)) ≠ 0 ∧
        S ((lox + a) * h + (loy + b)) - 1 = v := by
  induction nx with
  | zero => simp [forLoop]
  | succ n ih =>
    simp only [forLoop]
    rw [edgeRow_mem, ih]
    constructor
    · rintro ((h1 | ⟨a, b, ha, hb, hab⟩) | ⟨b, hb, hb'⟩)
      · exact Or.inl h1
      · exact Or.inr ⟨a, b, Nat.lt_succ_of_lt ha, hb, hab⟩
      · exact Or.inr ⟨n, b, Nat.lt_succ_self n, hb, hb'⟩
    · rintro (h1 | ⟨a, b, ha, hb, hab⟩)
      · exact Or.inl (Or.inl h1)
      · by_cases han : a = n
        · subst han
          exact Or.inr ⟨b, hb, hab⟩
        · exact Or.inl (Or.inr ⟨a, b, by omega, hb, hab⟩)

theorem edgeRows_nodup (S : Nat → Nat) (h lox loy ny nx : Nat) :
    (forLoop lox (fun xi => forLoop loy (fun yi => edgeStep S h xi yi) ny) nx []).Nodup := by
  refine forLoop_nest_inv (fun ss : List Nat => ss.Nodup) lox loy nx ny
    (fun xi yi => edgeStep S h xi yi) [] List.nodup_nil ?_
  intro a b ss _ _ hss
  simp only [edgeStep]
  split_ifs with h0 hin
  · exact hss
  · exact hss
  · exact List.Nodup.append hss (List.nodup_singleton _)
      (List.disjoint_singleton.mpr hin)

/-- The array `ss` of a pixel holds, less one, the nonzero labels at most one step
away from it. -/
theorem edgeLabels_mem (S : Nat → Nat) {h w x y : Nat} (hx : x < w) (hy : y < h) (l : Nat)
    (hl : l ≠ 0) : l - 1 ∈ edgeLabels S h w x y ↔ WinLabel S h w x y l := by
  simp only [edgeLabels]
  rw [edgeRows_mem]
  constructor
  · rintro (h1 | ⟨a, b, ha, hb, h0, e⟩)
    · exact absurd h1 (List.not_mem_nil _)
    · refine ⟨hl, (if x = 0 then 0 else x - 1) + a, (if y = 0 then 0 else y - 1) + b,
        ?_, ?_, ?_, ?_, ?_, ?_, by omega⟩
      all_goals split_ifs at ha hb ⊢ <;> omega
  · rintro ⟨_, x', y', hx', hy', h1, h2, h3, h4, e⟩
    refine Or.inr ⟨x' - (if x = 0 then 0 else x - 1), y' - (if y = 0 then 0 else y - 1),
      ?_, ?_, ?_⟩
    · split_ifs <;> omega
    · split_ifs <;> omega
    · have ex : (if x = 0 then 0 else x - 1) + (x' - (if x = 0 then 0 else x - 1)) = x' := by
        split_ifs <;> omega
      have ey : (if y = 0 then 0 else y - 1) + (y' - (if y = 0 then 0 else y - 1)) = y' := by
        split_ifs <;> omega
      rw [ex, ey, e]
      exact ⟨hl, rfl⟩

theorem edgeLabels_nodup (S : Nat → Nat) (h w x y : Nat) : (edgeLabels S h w x y).Nodup :=
  edgeRows_nodup S h _ _ _ _

/-! ## `edges`: the value of a pixel -/

theorem forLoop_max (g : Nat → ℚ) (lo n : Nat) (e : ℚ) :
    e ≤ forLoop lo (fun j e => max (g j) e) n e ∧
    (∀ k, k < n → g (lo + k) ≤ forLoop lo (fun j e => max (g j) e) n e) ∧
    (forLoop lo (fun j e => max (g j) e) n e = e ∨
      ∃ k, k < n ∧ forLoop lo (fun j e => max (g j) e) n e = g (lo + k)) := by
  induction n with
  | zero => exact ⟨le_refl _, fun k hk => absurd hk (Nat.not_lt_zero k), Or.inl rfl⟩
  | succ n ih =>
    obtain ⟨h1, h2, h3⟩ := ih
    simp only [forLoop]
    refine ⟨le_trans h1 (le_max_right _ _), fun k hk => ?_, ?_⟩
    · by_cases hkn : k = n
      · rw [hkn]; exact le_max_left _ _
      · exact le_trans (h2 k (by omega)) (le_max_right _ _)
    · rcases max_choice (g (lo + n)) (forLoop lo (fun j e => max (g j) e) n e) with hm | hm
      · exact Or.inr ⟨n, Nat.lt_succ_self n, hm⟩
      · rw [hm]
        rcases h3 with h3 | ⟨k, hk, h3⟩
        · exact Or.inl h3
        · exact Or.inr ⟨k, Nat.lt_succ_of_lt hk, h3⟩

/-- The pair loops give the largest of `e` and the values `1 - A[ss[i]*m+ss[j]]`,
`i < j`. -/
theorem edgePairs_spec (A : Nat → ℚ) (m : Nat) (ss : List Nat) (e : ℚ) :
    e ≤ edgePairs A m ss e ∧
    (∀ i j, i < j → j < ss.length →
      1 - A (ss.getD i 0 * m + ss.getD j 0) ≤ edgePairs A m ss e) ∧
    (edgePairs A m ss e = e ∨ ∃ i j, i < j ∧ j < ss.length ∧
      edgePairs A m ss e = 1 - A (ss.getD i 0 * m + ss.getD j 0)) := by
  have key := forLoop_inv (fun n (r : ℚ) => e ≤ r ∧
      (∀ i j, i < n → i < j → j < ss.length → 1 - A (ss.getD i 0 * m + ss.getD j 0) ≤ r) ∧
      (r = e ∨ ∃ i j, i < j ∧ j < ss.length ∧ r = 1 - A (ss.getD i 0 * m + ss.getD j 0)))
    0 (fun i => forLoop (i + 1)
      (fun j e => max (1 - A (ss.getD i 0 * m + ss.getD j 0)) e) (ss.length - (i + 1)))
    ss.length e ⟨le_refl _, fun i j hi => absurd hi (Nat.not_lt_zero i), Or.inl rfl⟩ (by
      intro i r hi ⟨h1, h2, h3⟩
      obtain ⟨g1, g2, g3⟩ := forLoop_max
        (fun j => 1 - A (ss.getD (0 + i) 0 * m + ss.getD j 0)) (0 + i + 1)
        (ss.length - (0 + i + 1)) r
      beta_reduce
      refine ⟨le_trans h1 g1, fun i' j hi' hij hj => ?_, ?_⟩
      · by_cases hii : i' = i
        · have := g2 (j - (0 + i + 1)) (by omega)
          have e1 : 0 + i + 1 + (j - (0 + i + 1)) = j := by omega
          rw [e1] at this
          rw [hii]
          simpa using this
        · exact le_trans (h2 i' j (by omega) hij hj) g1
      · rcases g3 with g3 | ⟨k, hk, g3⟩
        · rw [g3]
          exact h3
        · refine Or.inr ⟨i, 0 + i + 1 + k, by omega, by omega, ?_⟩
          rw [g3]
          simp)
  obtain ⟨k1, k2, k3⟩ := key
  exact ⟨k1, fun i j hij hj => k2 i j (by omega) hij hj, k3⟩

/-- The value `edges` leaves at a pixel labelled `0`. -/
theorem edges_boundary_value (E0 : Nat → ℚ) (S : Nat → Nat) {h w x y : Nat} (A : Nat → ℚ)
    (hx : x < w) (hy : y < h) (h0 : S (x * h + y) = 0) :
    edges E0 S h w A (x * h + y) =
      edgePairs A (labelCount S (w * h) - 1) (edgeLabels S h w x y) (1 / 100) := by
  have key := forLoop_raster_inv (fun k (E : Nat → ℚ) => x * h + y < k →
      E (x * h + y) =
        edgePairs A (labelCount S (w * h) - 1) (edgeLabels S h w x y) (1 / 100)) h w
    (edgePixel S A h w (labelCount S (w * h) - 1)) E0 (fun hk => absurd hk (Nat.not_lt_zero _))
    (by
      intro x' y' E hx' hy' hE hk
      simp only [edgePixel]
      by_cases hp : x' * h + y' = x * h + y
      · obtain ⟨ex, ey⟩ := idx_inj hy' hy hp
        rw [ex, ey, if_neg (by rw [h0]; simp), Function.update_same]
      · have hold := hE (by omega)
        split_ifs
        · exact hold
        · rw [Function.update_apply, if_neg (Ne.symm hp)]
          exact hold)
  exact key (idx_lt hx hy)

/-- The call `edges` leaves the cells of the pixels with a nonzero label as they were. -/
theorem edges_frame (E0 : Nat → ℚ) (S : Nat → Nat) (h w : Nat) (A : Nat → ℚ) {p : Nat}
    (hp : S p ≠ 0) : edges E0 S h w A p = E0 p := by
  refine forLoop_nest_inv (fun E : Nat → ℚ => E p = E0 p) 0 0 w h
    (edgePixel S A h w (labelCount S (w * h) - 1)) E0 rfl ?_
  intro a b E _ _ hE
  simp only [edgePixel]
  split_ifs with h0
  · exact hE
  · rw [Function.update_apply, if_neg, hE]
    intro e
    rw [e] at hp
    exact hp (not_not.mp h0)

/-! ## `edges`: the claims -/

/-- C12 (amended).  For a symmetric affinity matrix `A`, `edges` gives every pixel
labelled `0` the largest of `0.01` and the values `1 - A(s,t)` over the pairs of
distinct nonzero labels `s`, `t` at most one step away from it: the value is at least
`0.01`, at least every such `1 - A(s,t)`, and equal to one of them. -/
theorem edges_boundary_max (E0 : Nat → ℚ) (S : Nat → Nat) (h w : Nat) (A : Nat → ℚ)
    (x y : Nat) (hx : x < w) (hy : y < h) (h0 : S (x * h + y) = 0)
    (hA : SymMat (labelCount S (w * h) - 1) A) :
    1 / 100 ≤ edges E0 S h w A (x * h + y) ∧
    (∀ s t, WinLabel S h w x y s → WinLabel S h w x y t → s ≠ t →
      1 - A ((s - 1) * (labelCount S (w * h) - 1) + (t - 1)) ≤ edges E0 S h w A (x * h + y)) ∧
    (edges E0 S h w A (x * h + y) = 1 / 100 ∨
      ∃ s t, WinLabel S h w x y s ∧ WinLabel S h w x y t ∧ s ≠ t ∧
        edges E0 S h w A (x * h + y) =
          1 - A ((s - 1) * (labelCount S (w * h) - 1) + (t - 1))) := by
  rw [edges_boundary_value E0 S A hx hy h0]
  obtain ⟨k1, k2, k3⟩ := edgePairs_spec A (labelCount S (w * h) - 1) (edgeLabels S h w x y)
    (1 / 100)
  have hnd := edgeLabels_nodup S h w x y
  have hlt : ∀ l, WinLabel S h w x y l → l - 1 < labelCount S (w * h) - 1 := by
    rintro l ⟨hl, x', y', hx', hy', _, _, _, _, e⟩
    have := labelCount_gt S (w * h) (x' * h + y') (idx_lt hx' hy')
    omega
  refine ⟨k1, fun s t hs ht hst => ?_, ?_⟩
  · obtain ⟨i, hi, ei⟩ := List.mem_iff_getElem.mp ((edgeLabels_mem S hx hy s hs.1).mpr hs)
    obtain ⟨j, hj, ej⟩ := List.mem_iff_getElem.mp ((edgeLabels_mem S hx hy t ht.1).mpr ht)
    have hij : i ≠ j := by
      intro e
      subst e
      have h1 := hs.1
      have h2 := ht.1
      omega
    rcases Nat.lt_or_gt_of_ne hij with hlt' | hgt
    · have := k2 i j hlt' hj
      rwa [List.getD_eq_getElem _ _ hi, List.getD_eq_getElem _ _ hj, ei, ej] at this
    · have := k2 j i hgt hi
      rw [List.getD_eq_getElem _ _ hi, List.getD_eq_getElem _ _ hj, ei, ej] at this
      rwa [hA (s - 1) (t - 1) (hlt s hs) (hlt t ht)]
  · rcases k3 with k3 | ⟨i, j, hij, hj, k3⟩
    · exact Or.inl k3
    · have hi : i < (edgeLabels S h w x y).length := by omega
      rw [List.getD_eq_getElem _ _ hi, List.getD_eq_getElem _ _ hj] at k3
      refine Or.inr ⟨(edgeLabels S h w x y)[i] + 1, (edgeLabels S h w x y)[j] + 1,
        (edgeLabels_mem S hx hy _ (Nat.succ_ne_zero _)).mp (List.getElem_mem hi),
        (edgeLabels_mem S hx hy _ (Nat.succ_ne_zero _)).mp (List.getElem_mem hj), ?_, k3⟩
      intro e
      have e' : (edgeLabels S h w x y)[i] = (edgeLabels S h w x y)[j] := by omega
      have := (List.Nodup.getElem_inj_iff hnd).mp e'
      omega

/-- C12 (witness).  The theorem on the `3 × 1` column `1 0 2` with the matrix of
affinities `1/4`, at the pixel in the middle. -/
theorem edges_boundary_max_witness :
    1 / 100 ≤ edges (fun _ => 0) (ofList [1, 0, 2]) 3 1 (fun _ => 1 / 4) (0 * 3 + 1) ∧
    (∀ s t, WinLabel (ofList [1, 0, 2]) 3 1 0 1 s → WinLabel (ofList [1, 0, 2]) 3 1 0 1 t →
      s ≠ t → 1 - (fun _ => (1 / 4 : ℚ)) ((s - 1) * (labelCount (ofList [1, 0, 2]) (1 * 3) - 1)
        + (t - 1)) ≤ edges (fun _ => 0) (ofList [1, 0, 2]) 3 1 (fun _ => 1 / 4) (0 * 3 + 1)) ∧
    (edges (fun _ => 0) (ofList [1, 0, 2]) 3 1 (fun _ => 1 / 4) (0 * 3 + 1) = 1 / 100 ∨
      ∃ s t, WinLabel (ofList [1, 0, 2]) 3 1 0 1 s ∧ WinLabel (ofList [1, 0, 2]) 3 1 0 1 t ∧
        s ≠ t ∧ edges (fun _ => 0) (ofList [1, 0, 2]) 3 1 (fun _ => 1 / 4) (0 * 3 + 1) =
          1 - (fun _ => (1 / 4 : ℚ)) ((s - 1) * (labelCount (ofList [1, 0, 2]) (1 * 3) - 1)
            + (t - 1))) :=
  edges_boundary_max (fun _ => 0) (ofList [1, 0, 2]) 3 1 (fun _ => 1 / 4) 0 1 (by decide)
    (by decide) (by decide) (fun _ _ _ _ => rfl)

/-- C12 (counterexample).  On the `3 × 1` column `1 0 2` with affinity `1` between the
two regions, the pixel in the middle has the two labels around it and the largest
`1 - A(s,t)` is `0`, but `edges` gives it `0.01`. -/
theorem edges_floor_counterexample :
    (List.range 3).map (edges (fun _ => 0) (ofList [1, 0, 2]) 3 1 (fun _ => 1)) =
      [0, 1 / 100, 0] := by
  decide!

/-- C13 (amended).  The call `edges` writes only the pixels labelled `0`: every pixel with
a nonzero label keeps the value the output buffer held before the call. -/
theorem edges_nonzero_label_untouched (E0 : Nat → ℚ) (S : Nat → Nat) (h w : Nat)
    (A : Nat → ℚ) (p : Nat) (hp : S p ≠ 0) : edges E0 S h w A p = E0 p :=
  edges_frame E0 S h w A hp

/-- C13 (witness).  The theorem on the `3 × 1` column `1 0 2` with a buffer holding `7`,
at the first pixel. -/
theorem edges_nonzero_label_untouched_witness :
    ofList [1, 0, 2] 0 ≠ 0 ∧
      edges (fun _ => 7) (ofList [1, 0, 2]) 3 1 (fun _ => 1 / 4) 0 = (fun _ => (7 : ℚ)) 0 :=
  ⟨by decide, edges_nonzero_label_untouched (fun _ => 7) (ofList [1, 0, 2]) 3 1
    (fun _ => 1 / 4) 0 (by decide)⟩

/-- C13 (counterexample).  On the `2 × 2` grid with the single label `1` and the zeroed
buffer of the entry point, every pixel has a nonzero label and `edges` leaves `0` in
all four cells, not `0.01`. -/
theorem edges_nonzero_label_counterexample :
    (List.range 4).map (edges (fun _ => 0) (ofList [1, 1, 1, 1]) 2 2 (fun _ => 1 / 2)) =
      [0, 0, 0, 0] := by
  decide!

/-! ## `merge`: the last loop at one pixel -/

theorem fill_check_agree (N : List Nat) {s : Nat} (hs0 : s ≠ 0) (hs : s ∈ N)
    (hall : ∀ n, n ∈ N → n = 0 ∨ n = s) :
    N.getD (N.findIdx (fun n => decide (n ≠ 0))) 0 = s ∧
    (N.drop (N.findIdx (fun n => decide (n ≠ 0)))).all
      (fun n => decide (¬ (n ≠ 0 ∧ n ≠ N.getD (N.findIdx (fun n => decide (n ≠ 0))) 0)))
      = true := by
  induction N with
  | nil => cases hs
  | cons n N ih =>
    by_cases hn : n = 0
    · subst hn
      have hs' : s ∈ N := by
        rcases List.mem_cons.mp hs with h | h
        · exact absurd h hs0
        · exact h
      have := ih hs' (fun n hn => hall n (List.mem_cons_of_mem _ hn))
      simpa [List.findIdx_cons] using this
    · have hidx : (n :: N).findIdx (fun n => decide (n ≠ 0)) = 0 := by
        simp [List.findIdx_cons, hn]
      have hns : n = s := by
        rcases hall n (List.mem_cons_self _ _) with h | h
        · exact absurd h hn
        · exact h
      rw [hidx]
      simp only [List.drop_zero, List.getD_cons_zero]
      refine ⟨hns, List.all_eq_true.mpr fun c hc => ?_⟩
      rcases hall c hc with h | h
      · simp [h]
      · simp [h, hns]

theorem fill_check_none (N : List Nat) (hall : ∀ n, n ∈ N → n = 0) :
    N.getD (N.findIdx (fun n => decide (n ≠ 0))) 0 = 0 := by
  induction N with
  | nil => rfl
  | cons n N ih =>
    have hn : n = 0 := hall n (List.mem_cons_self _ _)
    subst hn
    have := ih (fun n hn => hall n (List.mem_cons_of_mem _ hn))
    simpa [List.findIdx_cons] using this

/-- C15 (amended).  In the last loop of `merge`, a pixel that is `0` when the loop
reaches it takes the common label when the nonzero labels among its eight neighbours
agree, and stays `0` when two of them differ or none is nonzero. -/
theorem mergeFill_zero_pixel (T : Nat → Nat) (h w x y : Nat) (h0 : T (x * h + y) = 0) :
    (∀ s, s ≠ 0 → s ∈ neighbors8 T h w x y →
      (∀ n, n ∈ neighbors8 T h w x y → n = 0 ∨ n = s) →
      mergeFill h w x y T (x * h + y) = s) ∧
    ((∃ a b, a ∈ neighbors8 T h w x y ∧ b ∈ neighbors8 T h w x y ∧ a ≠ 0 ∧ b ≠ 0 ∧ a ≠ b) →
      mergeFill h w x y T (x * h + y) = 0) ∧
    ((∀ n, n ∈ neighbors8 T h w x y → n = 0) → mergeFill h w x y T (x * h + y) = 0) := by
  refine ⟨fun s hs0 hs hall => ?_, ?_, fun hall => ?_⟩
  · obtain ⟨e1, e2⟩ := fill_check_agree (neighbors8 T h w x y) hs0 hs hall
    simp only [mergeFill, if_pos h0]
    rw [if_pos e2, Function.update_same, e1]
  · rintro ⟨a, b, ha, hb, ha0, hb0, hab⟩
    have := fill_check_false (neighbors8 T h w x y) ha hb ha0 hb0 hab
    simp only [mergeFill, if_pos h0, this]
    exact h0
  · have e1 := fill_check_none (neighbors8 T h w x y) hall
    simp only [mergeFill, if_pos h0, e1]
    split_ifs
    · exact Function.update_same _ _ _
    · exact h0

/-- C15 (witness).  The theorem at the middle pixel of the column `1 0 2`, whose two
neighbours differ: it stays `0`. -/
theorem mergeFill_zero_pixel_witness :
    ofList [1, 0, 2] (0 * 3 + 1) = 0 ∧ mergeFill 3 1 0 1 (ofList [1, 0, 2]) (0 * 3 + 1) = 0 :=
  ⟨by decide, (mergeFill_zero_pixel (ofList [1, 0, 2]) 3 1 0 1 (by decide)).2.1
    ⟨1, 2, by decide, by decide, by decide, by decide, by decide⟩⟩

/-- C15 (counterexample).  On the column `1 0 2` with edge strengths `0, 1/2, 0` and
threshold `0` nothing is merged, and the pixel in the middle, which has the nonzero
neighbours `1` and `2`, is `0` in the output of `merge`. -/
theorem merge_fill_counterexample :
    (merge zeroBuf (ofList [1, 0, 2]) (ofListQ [0, 1 / 2, 0]) 3 1 0).map (toList 3) =
      some [1, 0, 2] := by
  decide!

/-! ## `boundaries`: the cleanup pass at one pixel -/

theorem nbrs8_update_self (T : Nat → Nat) {h p : Nat} (hh : 2 ≤ h) (hp : h + 1 ≤ p) (v : Nat) :
    nbrs8 (Function.update T p v) h p = nbrs8 T h p := by
  have hne : ∀ q, q ≠ p → Function.update T p v q = T q := fun q hq =>
    Function.update_noteq hq v T
  simp only [nbrs8]
  rw [hne (p - h) (by omega), hne (p + h) (by omega), hne (p - 1) (by omega),
    hne (p + 1) (by omega), hne (p - h - 1) (by omega), hne (p - h + 1) (by omega),
    hne (p + h - 1) (by omega), hne (p + h + 1) (by omega)]

/-- C16 (amended).  In the cleanup pass of `boundaries`, an interior pixel that is `0` when
the pass reaches it gets back its own label `S+1` when every nonzero label among its
eight neighbours equals `S+1`, in particular when none is nonzero, and stays `0` when a
neighbour carries another nonzero label. -/
theorem bndClean_zero_pixel (S T : Nat → Nat) (h x y : Nat) (hx : 1 ≤ x) (hy1 : 1 ≤ y)
    (hy : y + 1 < h) (h0 : T (x * h + y) = 0) :
    bndClean S h x y T (x * h + y) =
      if ∀ n, n ∈ nbrs8 T h (x * h + y) → n = 0 ∨ n = (S (x * h + y) + 1) % 2 ^ 32
      then (S (x * h + y) + 1) % 2 ^ 32 else 0 := by
  have hge : h ≤ x * h := Nat.le_mul_of_pos_left h hx
  simp only [bndClean, h0, ne_eq, not_true_eq_false, if_false]
  rw [nbrs8_update_self T (by omega) (by omega)]
  by_cases hall : ∀ n, n ∈ nbrs8 T h (x * h + y) → n = 0 ∨ n = (S (x * h + y) + 1) % 2 ^ 32
  · rw [if_pos hall, if_neg, Function.update_same]
    intro hany
    obtain ⟨n, hn, hdec⟩ := List.any_eq_true.mp hany
    have := of_decide_eq_true hdec
    rcases hall n hn with e | e
    · exact this.1 e
    · exact this.2 e
  · rw [if_neg hall, if_pos, Function.update_same]
    by_contra hany
    apply hall
    intro n hn
    by_contra hc
    apply hany
    exact List.any_eq_true.mpr ⟨n, hn, decide_eq_true (by
      constructor
      · exact fun e => hc (Or.inl e)
      · exact fun e => hc (Or.inr e))⟩

/-- C16 (witness).  The theorem at the centre of a `3 × 3` grid whose centre was set to `0`
and whose other pixels carry the value `1` of the label `0`, the centre having the
label `1`: the centre stays `0`. -/
theorem bndClean_zero_pixel_witness :
    ofList [1, 1, 1, 1, 0, 1, 1, 1, 1] (1 * 3 + 1) = 0 ∧
      bndClean (ofList [0, 0, 0, 0, 1, 0, 0, 0, 0]) 3 1 1 (ofList [1, 1, 1, 1, 0, 1, 1, 1, 1])
        (1 * 3 + 1) =
      if ∀ n, n ∈ nbrs8 (ofList [1, 1, 1, 1, 0, 1, 1, 1, 1]) 3 (1 * 3 + 1) →
          n = 0 ∨ n = (ofList [0, 0, 0, 0, 1, 0, 0, 0, 0] (1 * 3 + 1) + 1) % 2 ^ 32
      then (ofList [0, 0, 0, 0, 1, 0, 0, 0, 0] (1 * 3 + 1) + 1) % 2 ^ 32 else 0 :=
  ⟨by decide, bndClean_zero_pixel (ofList [0, 0, 0, 0, 1, 0, 0, 0, 0])
    (ofList [1, 1, 1, 1, 0, 1, 1, 1, 1]) 3 1 1 (by decide) (by decide) (by decide)
    (by decide)⟩

/-- C16 (counterexample).  On the `3 × 3` grid whose centre has the label `1` and the
largest edge strength and whose other pixels have the label `0`, the centre is `0`
when the cleanup pass reaches it and its eight neighbours all carry the value `1`, but
the centre is `0` in the output of `boundaries`. -/
theorem boundaries_cleanup_counterexample :
    toList 9 (boundaries zeroBuf (ofList [0, 0, 0, 0, 1, 0, 0, 0, 0])
      (fun i => if i = 4 then 1 else 0) 3 3) = [1, 1, 1, 1, 0, 1, 1, 1, 1] := by
  decide!

/-! ## Loops that establish a property cell by cell -/

theorem forLoop_grid_inv {σ : Type} (P : Nat → σ → Prop) (lox loy nx ny : Nat)
    (body : Nat → Nat → σ → σ) (s : σ) (h0 : P 0 s)
    (hstep : ∀ a b t, a < nx → b < ny → P (a * ny + b) t →
      P (a * ny + b + 1) (body (lox + a) (loy + b) t)) :
    P (nx * ny) (forLoop lox (fun x => forLoop loy (body x) ny) nx s) := by
  refine forLoop_inv (fun a t => P (a * ny) t) lox _ nx s (by simpa using h0) ?_
  intro a t ha ht
  have key := forLoop_inv (fun b u => P (a * ny + b) u) loy (body (lox + a)) ny t
    (by simpa using ht) (fun b u hb hu => by simpa [Nat.add_assoc] using hstep a b u ha hb hu)
  simpa [Nat.add_mul, Nat.add_comm] using key

/-- A nest of loops whose step at `(a, b)` establishes `Q a b`, while every step keeps
the property `I` and the properties `Q` already established. -/
theorem forLoop_nest_establish {σ : Type} (I : σ → Prop) (Q : Nat → Nat → σ → Prop)
    (lox loy nx ny : Nat) (body : Nat → Nat → σ → σ) (s : σ) (hI : I s)
    (hIs : ∀ a b t, a < nx → b < ny → I t → I (body (lox + a) (loy + b) t))
    (hest : ∀ a b t, a < nx → b < ny → I t → Q a b (body (lox + a) (loy + b) t))
    (hpres : ∀ a b a' b' t, a' < nx → b' < ny → I t → Q a b t →
      Q a b (body (lox + a') (loy + b') t)) :
    I (forLoop lox (fun x => forLoop loy (body x) ny) nx s) ∧
    ∀ a b, a < nx → b < ny → Q a b (forLoop lox (fun x => forLoop loy (body x) ny) nx s) := by
  have key := forLoop_grid_inv
    (fun k t => I t ∧ ∀ a b, a < nx → b < ny → a * ny + b < k → Q a b t)
    lox loy nx ny body s ⟨hI, fun a b _ _ hk => absurd hk (Nat.not_lt_zero _)⟩ (by
      intro a' b' t ha' hb' ⟨hIt, hQ⟩
      refine ⟨hIs a' b' t ha' hb' hIt, fun a b ha hb hk => ?_⟩
      by_cases hlt : a * ny + b < a' * ny + b'
      · exact hpres a b a' b' t ha' hb' hIt (hQ a b ha hb hlt)
      · have e : a * ny + b = a' * ny + b' := by omega
        obtain ⟨e1, e2⟩ := idx_inj hb hb' e
        rw [e1, e2]
        exact hest a' b' t ha' hb' hIt)
  exact ⟨key.1, fun a b ha hb => key.2 a b ha hb (idx_lt ha hb)⟩

/-! ## `boundaries`: regions do not touch -/

theorem nbrs8_forall (T : Nat → Nat) {h x y : Nat} (hx0 : 0 < x) (hy0 : 0 < y) (hy : y < h)
    (P : Nat → Prop) :
    (∀ n, n ∈ nbrs8 T h (x * h + y) → P n) ↔
      ∀ x' y', King x y x' y' → ¬ (x' = x ∧ y' = y) → P (T (x' * h + y')) := by
  rw [nbrs8_eq T hx0 hy0 hy]
  simp only [List.mem_cons, List.mem_singleton, List.not_mem_nil, or_false]
  constructor
  · intro hall x' y' ⟨hkx, hky⟩ hne
    have ex : x' = x - 1 ∨ x' = x ∨ x' = x + 1 := by omega
    have ey : y' = y - 1 ∨ y' = y ∨ y' = y + 1 := by omega
    rcases ex with rfl | rfl | rfl <;> rcases ey with rfl | rfl | rfl
    · exact hall _ (by simp)
    · exact hall _ (by simp)
    · exact hall _ (by simp)
    · exact hall _ (by simp)
    · exact absurd ⟨rfl, rfl⟩ hne
    · exact hall _ (by simp)
    · exact hall _ (by simp)
    · exact hall _ (by simp)
    · exact hall _ (by simp)
  · intro hall n hn
    rcases hn with rfl | rfl | rfl | rfl | rfl | rfl | rfl | rfl
    · exact hall (x - 1) y ⟨by omega, by omega⟩ (by omega)
    · exact hall (x + 1) y ⟨by omega, by omega⟩ (by omega)
    · exact hall x (y - 1) ⟨by omega, by omega⟩ (by omega)
    · exact hall x (y + 1) ⟨by omega, by omega⟩ (by omega)
    · exact hall (x - 1) (y - 1) ⟨by omega, by omega⟩ (by omega)
    · exact hall (x - 1) (y + 1) ⟨by omega, by omega⟩ (by omega)
    · exact hall (x + 1) (y - 1) ⟨by omega, by omega⟩ (by omega)
    · exact hall (x + 1) (y + 1) ⟨by omega, by omega⟩ (by omega)

theorem zeroed_refl (T : Nat → Nat) : Zeroed T T := fun _ => Or.inr rfl

theorem zeroed_update (T : Nat → Nat) (p : Nat) : Zeroed T (Function.update T p 0) := by
  intro q
  by_cases hq : q = p
  · left; rw [hq, Function.update_same]
  · right; rw [Function.update_apply, if_neg hq]

theorem zeroed_trans {T T' T'' : Nat → Nat} (h1 : Zeroed T T') (h2 : Zeroed T' T'') :
    Zeroed T T'' := by
  intro q
  rcases h2 q with e | e
  · exact Or.inl e
  · rw [e]; exact h1 q

theorem axisSep_zeroed {h w : Nat} {T T' : Nat → Nat} (hz : Zeroed T T')
    (hs : AxisSep h w T) : AxisSep h w T' := by
  intro x y hx hy
  obtain ⟨h1, h2⟩ := hs x y hx hy
  have key : ∀ p q, (T p ≠ 0 → T q ≠ 0 → T p = T q) → T' p ≠ 0 → T' q ≠ 0 → T' p = T' q := by
    intro p q hpq hp hq
    rcases hz p with e | e
    · exact absurd e hp
    · rcases hz q with e' | e'
      · exact absurd e' hq
      · rw [e] at hp ⊢
        rw [e'] at hq ⊢
        exact hpq hp hq
  exact ⟨fun hx1 => key _ _ (h1 hx1), fun hy1 => key _ _ (h2 hy1)⟩

theorem nbrSep_zeroed {h : Nat} {T T' : Nat → Nat} (hz : Zeroed T T') {x y : Nat}
    (hs : NbrSep h T x y) : NbrSep h T' x y := by
  intro x' y' hk hp hq
  rcases hz (x * h + y) with e | e
  · exact absurd e hp
  · rcases hz (x' * h + y') with e' | e'
    · exact absurd e' hq
    · rw [e] at hp ⊢
      rw [e'] at hq ⊢
      exact hs x' y' hk hp hq

theorem bndFour_zeroed (S : Nat → Nat) (E : Nat → ℚ) (h w x y : Nat) (T : Nat → Nat) :
    Zeroed T (bndFour S E h w x y T) := by
  simp only [bndFour]
  split_ifs
  · exact zeroed_trans (zeroed_update T _) (zeroed_update _ _)
  · exact zeroed_trans (zeroed_update T _) (zeroed_update _ _)
  · exact zeroed_update T _
  · exact zeroed_trans (zeroed_update T _) (zeroed_update _ _)
  · exact zeroed_trans (zeroed_update T _) (zeroed_update _ _)
  · exact zeroed_update T _
  · exact zeroed_update T _
  · exact zeroed_update T _
  · exact zeroed_refl T

theorem zeroed_zero {T T' : Nat → Nat} (hz : Zeroed T T') {q : Nat} (hq : T q = 0) :
    T' q = 0 := by
  rcases hz q with e | e
  · exact e
  · rw [e, hq]

/-- After the step of the 4-connectivity pass at `(x, y)`, of the pixel and its right
neighbour one is `0` when their labels differ, and so for its lower neighbour. -/
theorem bndFour_pair (S : Nat → Nat) (E : Nat → ℚ) (h w x y : Nat) (T : Nat → Nat) :
    (x + 1 < w → S (x * h + y) ≠ S ((x + 1) * h + y) →
      bndFour S E h w x y T (x * h + y) = 0 ∨ bndFour S E h w x y T ((x + 1) * h + y) = 0) ∧
    (y + 1 < h → S (x * h + y) ≠ S (x * h + (y + 1)) →
      bndFour S E h w x y T (x * h + y) = 0 ∨ bndFour S E h w x y T (x * h + (y + 1)) = 0) := by
  constructor
  · intro hx hS
    simp only [bndFour, if_pos (And.intro hx hS)]
    by_cases hE : E (x * h + y) > E ((x + 1) * h + y)
    · left
      rw [if_pos hE]
      split_ifs
      · exact Function.update_same _ _ _
      · exact zeroed_zero (zeroed_update _ _) (Function.update_same _ _ _)
      · exact Function.update_same _ _ _
    · right
      rw [if_neg hE]
      split_ifs
      · exact zeroed_zero (zeroed_update _ _) (Function.update_same _ _ _)
      · exact zeroed_zero (zeroed_update _ _) (Function.update_same _ _ _)
      · exact Function.update_same _ _ _
  · intro hy hS
    simp only [bndFour, if_pos (And.intro hy hS)]
    by_cases hE : E (x * h + y) > E (x * h + (y + 1))
    · left
      rw [if_pos hE]
      exact Function.update_same _ _ _
    · right
      rw [if_neg hE]
      exact Function.update_same _ _ _

theorem boundaries_pass1 (T0 S : Nat → Nat) (E : Nat → ℚ) (h w : Nat) :
    AxisSep h w (forLoop 0 (fun x => forLoop 0 (bndFour S E h w x) h) w
      (forLoop 0 (bndSeed S) (w * h) T0)) := by
  obtain ⟨hI, hQ⟩ := forLoop_nest_establish
    (fun T : Nat → Nat => ∀ q, q < w * h → T q = 0 ∨ T q = (S q + 1) % 2 ^ 32)
    (fun x y (T : Nat → Nat) =>
      (x + 1 < w → S (x * h + y) ≠ S ((x + 1) * h + y) →
        T (x * h + y) = 0 ∨ T ((x + 1) * h + y) = 0) ∧
      (y + 1 < h → S (x * h + y) ≠ S (x * h + (y + 1)) →
        T (x * h + y) = 0 ∨ T (x * h + (y + 1)) = 0))
    0 0 w h (bndFour S E h w) (forLoop 0 (bndSeed S) (w * h) T0)
    (fun q hq => Or.inr (by rw [forLoop_bndSeed, if_pos hq]))
    (by
      intro a b T _ _ hT q hq
      rcases bndFour_zeroed S E h w (0 + a) (0 + b) T q with e | e
      · exact Or.inl e
      · rw [e]; exact hT q hq)
    (by
      intro a b T _ _ _
      have := bndFour_pair S E h w a b T
      simpa using this)
    (by
      intro a b a' b' T _ _ _ ⟨h1, h2⟩
      have hz := bndFour_zeroed S E h w (0 + a') (0 + b') T
      refine ⟨fun hx hS => ?_, fun hy hS => ?_⟩
      · rcases h1 hx hS with e | e
        · exact Or.inl (zeroed_zero hz e)
        · exact Or.inr (zeroed_zero hz e)
      · rcases h2 hy hS with e | e
        · exact Or.inl (zeroed_zero hz e)
        · exact Or.inr (zeroed_zero hz e))
  intro x y hx hy
  obtain ⟨q1, q2⟩ := hQ x y hx hy
  refine ⟨fun hx1 hp hq => ?_, fun hy1 hp hq => ?_⟩
  · have hS : S (x * h + y) = S ((x + 1) * h + y) := by
      by_contra hne
      rcases q1 hx1 hne with e | e
      · exact hp e
      · exact hq e
    rcases hI _ (idx_lt hx hy) with e | e
    · exact absurd e hp
    · rcases hI _ (idx_lt hx1 hy) with e' | e'
      · exact absurd e' hq
      · rw [e, e', hS]
  · have hS : S (x * h + y) = S (x * h + (y + 1)) := by
      by_contra hne
      rcases q2 hy1 hne with e | e
      · exact hp e
      · exact hq e
    rcases hI _ (idx_lt hx hy) with e | e
    · exact absurd e hp
    · rcases hI _ (idx_lt hx hy1) with e' | e'
      · exact absurd e' hq
      · rw [e, e', hS]

theorem bndEight_zeroed (h x y : Nat) (T : Nat → Nat) : Zeroed T (bndEight h x y T) := by
  simp only [bndEight]
  split_ifs
  · exact zeroed_refl T
  · exact zeroed_refl T
  · exact zeroed_update T _
  · exact zeroed_refl T

theorem nbrs8_skip_sep {h w : Nat} {T : Nat → Nat} (hs : AxisSep h w T) {u v : Nat}
    (hx1 : u + 1 + 1 < w) (hy1 : v + 1 + 1 < h)
    (hL : T (u * h + (v + 1)) ≠ 0) (hR : T ((u + 1 + 1) * h + (v + 1)) ≠ 0)
    (hU : T ((u + 1) * h + v) ≠ 0) (hD : T ((u + 1) * h + (v + 1 + 1)) ≠ 0) :
    NbrSep h T (u + 1) (v + 1) := by
  intro x' y' ⟨hkx, hky⟩ hp hq
  have eL := (hs u (v + 1) (by omega) (by omega)).1 (by omega) hL hp
  have eR := (hs (u + 1) (v + 1) (by omega) (by omega)).1 (by omega) hp hR
  have eU := (hs (u + 1) v (by omega) (by omega)).2 (by omega) hU hp
  have eD := (hs (u + 1) (v + 1) (by omega) (by omega)).2 (by omega) hp hD
  have ex : x' = u ∨ x' = u + 1 ∨ x' = u + 1 + 1 := by omega
  have ey : y' = v ∨ y' = v + 1 ∨ y' = v + 1 + 1 := by omega
  rcases ex with rfl | rfl | rfl <;> rcases ey with rfl | rfl | rfl
  · rw [(hs x' y' (by omega) (by omega)).2 (by omega) hq hL, eL]
  · exact eL
  · rw [← (hs x' (v + 1) (by omega) (by omega)).2 (by omega) hL hq, eL]
  · exact eU
  · rfl
  · exact eD.symm
  · rw [(hs (u + 1 + 1) y' (by omega) (by omega)).2 (by omega) hq hR, ← eR]
  · exact eR.symm
  · rw [← (hs (u + 1 + 1) (v + 1) (by omega) (by omega)).2 (by omega) hR hq, ← eR]

theorem bndEight_nbrSep {h w : Nat} {T : Nat → Nat} (hs : AxisSep h w T) {x y : Nat}
    (hint : Interior h w x y) : NbrSep h (bndEight h x y T) x y := by
  obtain ⟨hx0, hx1, hy0, hy1⟩ := hint
  simp only [bndEight]
  by_cases h1 : T (x * h + y) = 0
  · rw [if_pos h1]
    intro x' y' _ hp
    exact absurd h1 hp
  · rw [if_neg h1]
    by_cases h2 : (nbrs8 T h (x * h + y)).getD 0 0 ≠ 0 ∧ (nbrs8 T h (x * h + y)).getD 1 0 ≠ 0 ∧
        (nbrs8 T h (x * h + y)).getD 2 0 ≠ 0 ∧ (nbrs8 T h (x * h + y)).getD 3 0 ≠ 0
    · rw [if_pos h2]
      rw [nbrs8_eq T hx0 hy0 (by omega)] at h2
      simp only [List.getD_cons_zero, List.getD_cons_succ] at h2
      obtain ⟨u, rfl⟩ : ∃ u, x = u + 1 := ⟨x - 1, by omega⟩
      obtain ⟨v, rfl⟩ : ∃ v, y = v + 1 := ⟨y - 1, by omega⟩
      simp only [Nat.add_sub_cancel] at h2
      exact nbrs8_skip_sep hs hx1 hy1 h2.1 h2.2.1 h2.2.2.1 h2.2.2.2
    · rw [if_neg h2]
      by_cases h3 : (nbrs8 T h (x * h + y)).any
          (fun n => decide (n ≠ 0 ∧ n ≠ T (x * h + y))) = true
      · rw [if_pos h3]
        intro x' y' _ hp
        exact absurd (Function.update_same _ _ _) hp
      · rw [if_neg h3]
        have hall : ∀ n, n ∈ nbrs8 T h (x * h + y) → ¬ (n ≠ 0 ∧ n ≠ T (x * h + y)) := by
          intro n hn hc
          exact h3 (List.any_eq_true.mpr ⟨n, hn, decide_eq_true hc⟩)
        rw [nbrs8_forall T hx0 hy0 (by omega)] at hall
        intro x' y' hk _ hq
        by_cases hc : x' = x ∧ y' = y
        · rw [hc.1, hc.2]
        · by_contra hne
          exact hall x' y' hk hc ⟨hq, hne⟩

theorem boundaries_pass2 {h w : Nat} {T : Nat → Nat} (hs : AxisSep h w T) :
    AxisSep h w (forLoop 1 (fun x => forLoop 1 (bndEight h x) (h - 2)) (w - 2) T) ∧
    ∀ x y, Interior h w x y →
      NbrSep h (forLoop 1 (fun x => forLoop 1 (bndEight h x) (h - 2)) (w - 2) T) x y := by
  obtain ⟨hI, hQ⟩ := forLoop_nest_establish (fun T : Nat → Nat => AxisSep h w T)
    (fun a b (T : Nat → Nat) => NbrSep h T (1 + a) (1 + b)) 1 1 (w - 2) (h - 2)
    (bndEight h) T hs
    (fun a b T _ _ hT => axisSep_zeroed (bndEight_zeroed h _ _ T) hT)
    (fun a b T ha hb hT => bndEight_nbrSep hT ⟨by omega, by omega, by omega, by omega⟩)
    (fun a b a' b' T _ _ _ hq => nbrSep_zeroed (bndEight_zeroed h _ _ T) hq)
  refine ⟨hI, fun x y ⟨hx0, hx1, hy0, hy1⟩ => ?_⟩
  have := hQ (x - 1) (y - 1) (by omega) (by omega)
  have ex : 1 + (x - 1) = x := by omega
  have ey : 1 + (y - 1) = y := by omega
  rwa [ex, ey] at this

theorem king_symm {x y x' y' : Nat} (hk : King x y x' y') : King x' y' x y := by
  obtain ⟨h1, h2⟩ := hk
  exact ⟨by omega, by omega⟩

/-- Giving the pixel `(x0, y0)` a value `t` that all nonzero pixels around it carry keeps
two pixels at most one step apart equal when both are nonzero. -/
theorem restore_pair {T : Nat → Nat} {h x0 y0 t : Nat} (hy0 : y0 < h)
    (hall : ∀ x' y', King x0 y0 x' y' → ¬ (x' = x0 ∧ y' = y0) →
      T (x' * h + y') = 0 ∨ T (x' * h + y') = t)
    {x y x' y' : Nat} (hy : y < h) (hy' : y' < h) (hk : King x y x' y')
    (hbase : T (x * h + y) ≠ 0 → T (x' * h + y') ≠ 0 → T (x' * h + y') = T (x * h + y)) :
    Function.update T (x0 * h + y0) t (x * h + y) ≠ 0 →
    Function.update T (x0 * h + y0) t (x' * h + y') ≠ 0 →
    Function.update T (x0 * h + y0) t (x' * h + y') =
      Function.update T (x0 * h + y0) t (x * h + y) := by
  intro hp hq
  by_cases ep : x * h + y = x0 * h + y0
  · by_cases eq : x' * h + y' = x0 * h + y0
    · rw [ep, eq]
    · have vq : Function.update T (x0 * h + y0) t (x' * h + y') = T (x' * h + y') := by
        rw [Function.update_apply, if_neg eq]
      obtain ⟨e1, e2⟩ := idx_inj hy hy0 ep
      rw [vq] at hq ⊢
      rw [ep, Function.update_same]
      subst e1 e2
      rcases hall x' y' hk (fun hc => eq (by rw [hc.1, hc.2])) with e | e
      · exact absurd e hq
      · exact e
  · have vp : Function.update T (x0 * h + y0) t (x * h + y) = T (x * h + y) := by
      rw [Function.update_apply, if_neg ep]
    by_cases eq : x' * h + y' = x0 * h + y0
    · obtain ⟨e1, e2⟩ := idx_inj hy' hy0 eq
      rw [vp] at hp ⊢
      rw [eq, Function.update_same]
      subst e1 e2
      rcases hall x y (king_symm hk) (fun hc => ep (by rw [hc.1, hc.2])) with e | e
      · exact absurd e hp
      · exact e.symm
    · have vq : Function.update T (x0 * h + y0) t (x' * h + y') = T (x' * h + y') := by
        rw [Function.update_apply, if_neg eq]
      rw [vp] at hp ⊢
      rw [vq] at hq ⊢
      exact hbase hp hq

theorem bndClean_sep {S : Nat → Nat} {h w : Nat} {T : Nat → Nat} {x0 y0 : Nat}
    (hint : Interior h w x0 y0)
    (hT : AxisSep h w T ∧ ∀ x y, Interior h w x y → NbrSep h T x y) :
    AxisSep h w (bndClean S h x0 y0 T) ∧
      ∀ x y, Interior h w x y → NbrSep h (bndClean S h x0 y0 T) x y := by
  obtain ⟨hx0, hx1, hy0, hy1⟩ := hint
  have hge : h ≤ x0 * h := Nat.le_mul_of_pos_left h hx0
  simp only [bndClean]
  by_cases h1 : T (x0 * h + y0) ≠ 0
  · rw [if_pos h1]
    exact hT
  · rw [if_neg h1]
    have h0 : T (x0 * h + y0) = 0 := not_not.mp h1
    rw [nbrs8_update_self T (by omega) (by omega)]
    by_cases h2 : (nbrs8 T h (x0 * h + y0)).any
        (fun n => decide (n ≠ 0 ∧ n ≠ (S (x0 * h + y0) + 1) % 2 ^ 32)) = true
    · rw [if_pos h2, Function.update_idem]
      have e : Function.update T (x0 * h + y0) 0 = T := by
        rw [← h0]
        exact Function.update_eq_self _ _
      rw [e]
      exact hT
    · rw [if_neg h2]
      have hall : ∀ n, n ∈ nbrs8 T h (x0 * h + y0) →
          n = 0 ∨ n = (S (x0 * h + y0) + 1) % 2 ^ 32 := by
        intro n hn
        by_contra hc
        exact h2 (List.any_eq_true.mpr ⟨n, hn, decide_eq_true
          ⟨fun e => hc (Or.inl e), fun e => hc (Or.inr e)⟩⟩)
      rw [nbrs8_forall T hx0 hy0 (by omega)] at hall
      obtain ⟨hax, hnb⟩ := hT
      refine ⟨fun x y hx hy => ⟨fun hx' hp hq => ?_, fun hy' hp hq => ?_⟩,
        fun x y hxy x' y' hk hp hq => ?_⟩
      · exact (restore_pair (by omega) hall hy hy ⟨by omega, by omega⟩
          (fun a b => ((hax x y hx hy).1 hx' a b).symm) hp hq).symm
      · exact (restore_pair (by omega) hall hy hy' ⟨by omega, by omega⟩
          (fun a b => ((hax x y hx hy).2 hy' a b).symm) hp hq).symm
      · have hy1' := hxy.2.2.2
        exact restore_pair (by omega) hall (by omega) (by have := hk.2; omega) hk
          (hnb x y hxy x' y' hk) hp hq

theorem boundaries_sep (T0 S : Nat → Nat) (E : Nat → ℚ) (h w : Nat) :
    AxisSep h w (boundaries T0 S E h w) ∧
      ∀ x y, Interior h w x y → NbrSep h (boundaries T0 S E h w) x y := by
  simp only [boundaries]
  exact forLoop_nest_inv
    (fun T : Nat → Nat => AxisSep h w T ∧ ∀ x y, Interior h w x y → NbrSep h T x y)
    1 1 (w - 2) (h - 2) (bndClean S h) _ (boundaries_pass2 (boundaries_pass1 T0 S E h w))
    (fun a b T ha hb hT => bndClean_sep ⟨by omega, by omega, by omega, by omega⟩ hT)

/-- C17.  In the output of `boundaries`, run sequentially, two pixels that are
axis-adjacent, or diagonally adjacent with at least one of them off the border of the
image, and that are both nonzero, carry the same value. -/
theorem boundaries_regions_apart (T0 S : Nat → Nat) (E : Nat → ℚ) (h w x y x' y' : Nat)
    (ht : Touch h w x y x' y') (hp : boundaries T0 S E h w (x * h + y) ≠ 0)
    (hq : boundaries T0 S E h w (x' * h + y') ≠ 0) :
    boundaries T0 S E h w (x * h + y) = boundaries T0 S E h w (x' * h + y') := by
  obtain ⟨hax, hnb⟩ := boundaries_sep T0 S E h w
  obtain ⟨hx, hy, hx', hy', hc⟩ := ht
  rcases hc with ⟨rfl, rfl | rfl⟩ | ⟨rfl, rfl | rfl⟩ | ⟨hdx, hdy, hi | hi⟩
  · exact (hax x' y hx hy).2 hy' hp hq
  · exact ((hax x' y' hx hy').2 hy hq hp).symm
  · exact (hax x y' hx hy).1 hx' hp hq
  · exact ((hax x' y' hx' hy).1 hx hq hp).symm
  · exact (hnb x y hi x' y' ⟨by omega, by omega⟩ hp hq).symm
  · exact hnb x' y' hi x y ⟨by omega, by omega⟩ hq hp

/-- C17 (witness).  The theorem on the `3 × 3` grid whose last column has the label `1`
and whose other pixels have the label `0`, with equal edge strengths, for the centre
and the first pixel, which touch diagonally. -/
theorem boundaries_regions_apart_witness :
    Touch 3 3 1 1 0 0 ∧
    boundaries zeroBuf (ofList [0, 0, 0, 0, 0, 0, 1, 1, 1]) (fun _ => 1 / 2) 3 3 (1 * 3 + 1) ≠ 0 ∧
    boundaries zeroBuf (ofList [0, 0, 0, 0, 0, 0, 1, 1, 1]) (fun _ => 1 / 2) 3 3 (0 * 3 + 0) ≠ 0 ∧
    boundaries zeroBuf (ofList [0, 0, 0, 0, 0, 0, 1, 1, 1]) (fun _ => 1 / 2) 3 3 (1 * 3 + 1) =
      boundaries zeroBuf (ofList [0, 0, 0, 0, 0, 0, 1, 1, 1]) (fun _ => 1 / 2) 3 3 (0 * 3 + 0) :=
  ⟨by unfold Touch Interior; decide, by decide!, by decide!,
    boundaries_regions_apart zeroBuf (ofList [0, 0, 0, 0, 0, 0, 1, 1, 1]) (fun _ => 1 / 2) 3 3
      1 1 0 0 (by unfold Touch Interior; decide) (by decide!) (by decide!)⟩

/-! ## `sticky`: sums over the pixels of a label -/

theorem pixelSum_succ (S : Nat → Nat) (n i : Nat) (f : Nat → ℚ) :
    pixelSum S (n + 1) i f = pixelSum S n i f + if S n = i then f n else 0 := by
  simp only [pixelSum, Finset.sum_range_succ]

theorem pixelCount_nonneg (S : Nat → Nat) (n i : Nat) : 0 ≤ pixelCount S n i := by
  unfold pixelCount pixelSum
  refine Finset.sum_nonneg fun p _ => ?_
  split_ifs
  · exact zero_le_one
  · exact le_refl 0

theorem pixelCount_eq_zero {S : Nat → Nat} {n i : Nat} (h0 : pixelCount S n i = 0) :
    ∀ p, p < n → S p ≠ i := by
  intro p hp e
  have hnn : ∀ q ∈ Finset.range n, (0 : ℚ) ≤ (if S q = i then (1 : ℚ) else 0) := by
    intro q _
    split_ifs
    · exact zero_le_one
    · exact le_refl 0
  have := (Finset.sum_eq_zero_iff_of_nonneg hnn).mp h0 p (Finset.mem_range.mpr hp)
  rw [if_pos e] at this
  exact one_ne_zero this

theorem pixelSum_of_none {S : Nat → Nat} {n i : Nat} (hn : ∀ p, p < n → S p ≠ i)
    (f : Nat → ℚ) : pixelSum S n i f = 0 :=
  Finset.sum_eq_zero fun p hp => if_neg (hn p (Finset.mem_range.mp hp))

theorem pixelCount_pos {S : Nat → Nat} {n i p : Nat} (hp : p < n) (e : S p = i) :
    1 ≤ pixelCount S n i := by
  have hnn : ∀ q ∈ Finset.range n, (0 : ℚ) ≤ (if S q = i then (1 : ℚ) else 0) := by
    intro q _
    split_ifs
    · exact zero_le_one
    · exact le_refl 0
  have := Finset.single_le_sum hnn (Finset.mem_range.mpr hp)
  rw [if_pos e] at this
  exact this

/-- Moving the pixel `k` to the label `t` takes its term out of the sum of its old label
and puts it into the sum of `t`. -/
theorem pixelSum_update (S : Nat → Nat) {n k : Nat} (hk : k < n) (t i : Nat) (f : Nat → ℚ) :
    pixelSum (Function.update S k t) n i f =
      pixelSum S n i f - (if S k = i then f k else 0) + (if t = i then f k else 0) := by
  have key : ∀ n, pixelSum (Function.update S k t) n i f =
      pixelSum S n i f - (if k < n then (if S k = i then f k else 0) else 0) +
        (if k < n then (if t = i then f k else 0) else 0) := by
    intro n
    induction n with
    | zero => simp [pixelSum]
    | succ n ih =>
      rw [pixelSum_succ, pixelSum_succ, ih]
      by_cases hkn : k = n
      · subst hkn
        rw [Function.update_same, if_neg (Nat.lt_irrefl k), if_neg (Nat.lt_irrefl k),
          if_pos (Nat.lt_succ_self k), if_pos (Nat.lt_succ_self k)]
        ring
      · rw [Function.update_apply, if_neg (Ne.symm hkn)]
        by_cases hlt : k < n
        · have hlt' : k < n + 1 := Nat.lt_succ_of_lt hlt
          rw [if_pos hlt, if_pos hlt, if_pos hlt', if_pos hlt']
          ring
        · have hlt' : ¬ k < n + 1 := by omega
          rw [if_neg hlt, if_neg hlt, if_neg hlt', if_neg hlt']
          ring
  rw [key n, if_pos hk, if_pos hk]

/-! ## `sticky`: the statistics at the start -/

theorem forLoop_row {α : Type} (a : Nat) (g : Nat → α → α) (n : Nat) (mus : Nat → α)
    (c : Nat) :
    forLoop 0 (fun j mus => Function.update mus (a * 5 + j) (g j (mus (a * 5 + j)))) n mus c =
      if a * 5 ≤ c ∧ c < a * 5 + n then g (c - a * 5) (mus c) else mus c := by
  induction n with
  | zero =>
    rw [if_neg (by omega)]
    rfl
  | succ n ih =>
    simp only [forLoop, Nat.zero_add, Function.update_apply]
    by_cases hc : c = a * 5 + n
    · have e : c - a * 5 = n := by omega
      have hin : a * 5 ≤ c ∧ c < a * 5 + (n + 1) := by omega
      rw [if_pos hc, if_pos hin, e, ← hc, ih, if_neg (by omega)]
    · rw [if_neg hc, ih]
      by_cases h1 : a * 5 ≤ c ∧ c < a * 5 + n
      · have h2 : a * 5 ≤ c ∧ c < a * 5 + (n + 1) := by omega
        rw [if_pos h1, if_pos h2]
      · have h2 : ¬ (a * 5 ≤ c ∧ c < a * 5 + (n + 1)) := by omega
        rw [if_neg h1, if_neg h2]

/-! ## Values: the operations on numbers -/

theorem fval_add_fin (a b : ℚ) : FVal.add (FVal.fin a) (FVal.fin b) = FVal.fin (a + b) := rfl

theorem fval_sub_fin (a b : ℚ) : FVal.sub (FVal.fin a) (FVal.fin b) = FVal.fin (a - b) := by
  simp only [FVal.sub, FVal.neg, FVal.add, sub_eq_add_neg]

theorem fval_mul_fin (a b : ℚ) : FVal.mul (FVal.fin a) (FVal.fin b) = FVal.fin (a * b) := rfl

theorem fval_div_fin (a : ℚ) {b : ℚ} (hb : b ≠ 0) :
    FVal.div (FVal.fin a) (FVal.fin b) = FVal.fin (a / b) := by
  simp only [FVal.div, if_neg hb]

theorem fval_lt_fin (a b : ℚ) : FVal.lt (FVal.fin a) (FVal.fin b) = true ↔ a < b := by
  simp only [FVal.lt, decide_eq_true_eq]

theorem stickyInitStep_ns (S : Nat → Nat) (I : Nat → ℚ) (h w x y : Nat)
    (p : (Nat → ℚ) × (Nat → ℚ)) (i : Nat) :
    (stickyInitStep S I h w x y p).1 i = p.1 i + if S (x * h + y) = i then 1 else 0 := by
  simp only [stickyInitStep, Function.update_apply]
  by_cases e : i = S (x * h + y)
  · rw [if_pos e, if_pos e.symm, e]
  · rw [if_neg e, if_neg (Ne.symm e), add_zero]

theorem stickyInitStep_mus (S : Nat → Nat) (I : Nat → ℚ) (h w x y : Nat)
    (p : (Nat → ℚ) × (Nat → ℚ)) (i j : Nat) (hj : j < 5) :
    (stickyInitStep S I h w x y p).2 (i * 5 + j) =
      p.2 (i * 5 + j) + if S (x * h + y) = i then stickyVs I h w x y j else 0 := by
  simp only [stickyInitStep, forLoop, Nat.zero_add]
  by_cases e : S (x * h + y) = i
  · rw [if_pos e, e]
    interval_cases j <;>
      simp [Nat.add_assoc, Function.update_apply, stickyVs]
  · rw [if_neg e, Function.update_apply, if_neg (by omega), Function.update_apply,
      if_neg (by omega), Function.update_apply, if_neg (by omega), Function.update_apply,
      if_neg (by omega), Function.update_apply, if_neg (by omega)]
    exact (add_zero _).symm

theorem div_mod_idx {h x y : Nat} (hy : y < h) : (x * h + y) / h = x ∧ (x * h + y) % h = y := by
  constructor
  · rw [Nat.add_comm, Nat.add_mul_div_right _ _ (by omega), Nat.div_eq_of_lt hy]; simp
  · rw [Nat.add_comm, Nat.add_mul_mod_self_right, Nat.mod_eq_of_lt hy]

theorem stickySums_spec (S : Nat → Nat) (I : Nat → ℚ) (h w : Nat) :
    (∀ i, (forLoop 0 (fun x => forLoop 0 (stickyInitStep S I h w x) h) w
        (fun _ => 0, fun _ => 0)).1 i = pixelCount S (w * h) i) ∧
    (∀ i j, j < 5 → (forLoop 0 (fun x => forLoop 0 (stickyInitStep S I h w x) h) w
        (fun _ => 0, fun _ => 0)).2 (i * 5 + j) = pixelSum S (w * h) i (pixelVs I h w j)) := by
  refine forLoop_raster_inv (fun k (p : (Nat → ℚ) × (Nat → ℚ)) =>
      (∀ i, p.1 i = pixelCount S k i) ∧
      (∀ i j, j < 5 → p.2 (i * 5 + j) = pixelSum S k i (pixelVs I h w j))) h w
    (stickyInitStep S I h w) (fun _ => 0, fun _ => 0)
    ⟨fun i => by simp [pixelCount, pixelSum], fun i j _ => by simp [pixelSum]⟩ ?_
  intro x y p _ hy ⟨h1, h2⟩
  obtain ⟨ex, ey⟩ := div_mod_idx (x := x) hy
  refine ⟨fun i => ?_, fun i j hj => ?_⟩
  · rw [stickyInitStep_ns, h1 i, pixelCount, pixelCount, pixelSum_succ]
  · rw [stickyInitStep_mus S I h w x y p i j hj, h2 i j hj, pixelSum_succ, pixelVs, ex, ey]

theorem stickyMeans_spec (ns : Nat → ℚ) (m : Nat) (mus : Nat → FVal) (i j : Nat)
    (hj : j < 5) :
    stickyMeans ns m mus (i * 5 + j) =
      if i < m then FVal.div (mus (i * 5 + j)) (FVal.fin (ns i)) else mus (i * 5 + j) := by
  have key := forLoop_raster_inv (fun k (mus' : Nat → FVal) => ∀ i j, j < 5 →
      mus' (i * 5 + j) = if i * 5 + j < k then FVal.div (mus (i * 5 + j)) (FVal.fin (ns i))
        else mus (i * 5 + j))
    5 m (fun i z mus => Function.update mus (i * 5 + z)
      (FVal.div (mus (i * 5 + z)) (FVal.fin (ns i)))) mus
    (fun i j _ => by simp) (by
      intro a b mus' _ hb hm i j hj
      show Function.update mus' (a * 5 + b) (FVal.div (mus' (a * 5 + b)) (FVal.fin (ns a)))
        (i * 5 + j) = _
      by_cases hc : i * 5 + j = a * 5 + b
      · obtain ⟨e1, e2⟩ := idx_inj hj hb hc
        rw [hc, Function.update_same, if_pos (Nat.lt_succ_self _), hm a b hb,
          if_neg (Nat.lt_irrefl _), e1]
      · rw [Function.update_apply, if_neg hc, hm i j hj]
        by_cases hlt : i * 5 + j < a * 5 + b
        · rw [if_pos hlt, if_pos (Nat.lt_succ_of_lt hlt)]
        · rw [if_neg hlt, if_neg (by omega)])
  have hval : stickyMeans ns m mus (i * 5 + j) =
      if i * 5 + j < m * 5 then FVal.div (mus (i * 5 + j)) (FVal.fin (ns i))
      else mus (i * 5 + j) := key i j hj
  rw [hval]
  by_cases him : i < m
  · have : i * 5 + j < m * 5 := idx_lt him hj
    rw [if_pos this, if_pos him]
  · have : ¬ i * 5 + j < m * 5 := by
      have : m * 5 ≤ i * 5 := Nat.mul_le_mul_right 5 (by omega)
      omega
    rw [if_neg this, if_neg him]

/-- The statistics `sticky` starts from are the counts of the label map and, for every
label with pixels, the means over them. -/
theorem stickyInit_stats (S : Nat → Nat) (I : Nat → ℚ) (h w : Nat) :
    StatsInv I h w (labelCount S (w * h)) (stickyInit S I h w) := by
  obtain ⟨h1, h2⟩ := stickySums_spec S I h w
  refine ⟨⟨fun p hp => labelCount_gt S _ p hp, h1⟩, fun i j hj hpos => ?_⟩
  have hns : (stickyInit S I h w).ns i = pixelCount S (w * h) i := h1 i
  have hS : (stickyInit S I h w).S = S := rfl
  rw [hns] at hpos
  have him : i < labelCount S (w * h) := by
    by_contra hge
    apply ne_of_gt hpos
    unfold pixelCount pixelSum
    refine Finset.sum_eq_zero fun p hp => if_neg fun e => hge ?_
    rw [← e]
    exact labelCount_gt S _ p (Finset.mem_range.mp hp)
  have hmu : (stickyInit S I h w).mus (i * 5 + j) =
      FVal.div (FVal.fin (pixelSum S (w * h) i (pixelVs I h w j)))
        (FVal.fin (pixelCount S (w * h) i)) := by
    show stickyMeans _ _ _ (i * 5 + j) = _
    rw [stickyMeans_spec _ _ _ i j hj, if_pos him, h2 i j hj, h1 i]
  rw [hns, hS, hmu, fval_div_fin _ (ne_of_gt hpos)]

/-! ## `sticky`: the statistics after a reassignment -/

theorem cell_row_iff {a i j : Nat} (hj : j < 5) :
    (a * 5 ≤ i * 5 + j ∧ i * 5 + j < a * 5 + 5) ↔ i = a := by
  constructor
  · intro hc
    omega
  · intro e
    subst e
    omega

/-- The counts after the pixel `k` moved from its label to another label `t`, with the
updates of `sticky`, are again the counts of the label map. -/
theorem stickyMove_counts {h w m : Nat} {st : StickyState} (hinv : CountInv h w m st)
    {k : Nat} (hk : k < w * h) {t : Nat} (hts : t ≠ st.S k) (htm : t < m)
    (mus : Nat → FVal) (c : Nat) :
    CountInv h w m
      { S := Function.update st.S k t,
        ns := Function.update (Function.update st.ns (st.S k) (st.ns (st.S k) - 1)) t
          (Function.update st.ns (st.S k) (st.ns (st.S k) - 1) t + 1),
        mus := mus, changed := c } := by
  obtain ⟨hS, hns⟩ := hinv
  refine ⟨fun p hp => ?_, fun i => ?_⟩
  · show Function.update st.S k t p < m
    rw [Function.update_apply]
    split_ifs
    · exact htm
    · exact hS p hp
  · show Function.update (Function.update st.ns (st.S k) (st.ns (st.S k) - 1)) t
      (Function.update st.ns (st.S k) (st.ns (st.S k) - 1) t + 1) i =
      pixelCount (Function.update st.S k t) (w * h) i
    rw [pixelCount, pixelSum_update st.S hk t i]
    by_cases e1 : i = st.S k
    · rw [e1, Function.update_apply, if_neg (Ne.symm hts), Function.update_same, if_pos rfl,
        if_neg hts, hns, pixelCount]
      ring
    · by_cases e2 : i = t
      · rw [e2, Function.update_same, Function.update_apply, if_neg hts,
          if_neg (Ne.symm hts), if_pos rfl, hns, pixelCount]
        ring
      · rw [Function.update_apply, if_neg e2, Function.update_apply, if_neg e1,
          if_neg (Ne.symm e1), if_neg (Ne.symm e2), hns, pixelCount]
        ring

/-- The statistics after the pixel `k` moved from its label `s` to another label `t` that
has pixels, with the updates of `sticky`, are again the counts and the means of the
label map. -/
theorem stickyMove_stats {I : Nat → ℚ} {h w m : Nat} {st : StickyState}
    (hinv : StatsInv I h w m st) {k : Nat} (hk : k < w * h) {t : Nat} (hts : t ≠ st.S k)
    (htm : t < m) (hpos : 0 < st.ns t) (c : Nat) :
    StatsInv I h w m
      { S := Function.update st.S k t,
        ns := Function.update (Function.update st.ns (st.S k) (st.ns (st.S k) - 1)) t
          (Function.update st.ns (st.S k) (st.ns (st.S k) - 1) t + 1),
        mus := forLoop 0 (fun j mus => Function.update mus (t * 5 + j)
            (FVal.div (FVal.add (FVal.mul (mus (t * 5 + j)) (FVal.fin
              (Function.update (Function.update st.ns (st.S k) (st.ns (st.S k) - 1)) t
                (Function.update st.ns (st.S k) (st.ns (st.S k) - 1) t + 1) t - 1)))
              (FVal.fin (pixelVs I h w j k))) (FVal.fin
              (Function.update (Function.update st.ns (st.S k) (st.ns (st.S k) - 1)) t
                (Function.update st.ns (st.S k) (st.ns (st.S k) - 1) t + 1) t)))) 5
          (forLoop 0 (fun j mus => Function.update mus (st.S k * 5 + j)
            (FVal.div (FVal.sub (FVal.mul (mus (st.S k * 5 + j)) (FVal.fin
              (Function.update (Function.update st.ns (st.S k) (st.ns (st.S k) - 1)) t
                (Function.update st.ns (st.S k) (st.ns (st.S k) - 1) t + 1) (st.S k) + 1)))
              (FVal.fin (pixelVs I h w j k))) (FVal.fin
              (Function.update (Function.update st.ns (st.S k) (st.ns (st.S k) - 1)) t
                (Function.update st.ns (st.S k) (st.ns (st.S k) - 1) t + 1) (st.S k))))) 5
            st.mus),
        changed := c } := by
  have hcnt := stickyMove_counts hinv.1 hk hts htm
  obtain ⟨⟨hS, hns⟩, hmu⟩ := hinv
  have n2s : Function.update (Function.update st.ns (st.S k) (st.ns (st.S k) - 1)) t
      (Function.update st.ns (st.S k) (st.ns (st.S k) - 1) t + 1) (st.S k) =
      st.ns (st.S k) - 1 := by
    rw [Function.update_apply, if_neg (Ne.symm hts), Function.update_same]
  have n2t : Function.update (Function.update st.ns (st.S k) (st.ns (st.S k) - 1)) t
      (Function.update st.ns (st.S k) (st.ns (st.S k) - 1) t + 1) t = st.ns t + 1 := by
    rw [Function.update_same, Function.update_apply, if_neg hts]
  have n2o : ∀ i, i ≠ st.S k → i ≠ t →
      Function.update (Function.update st.ns (st.S k) (st.ns (st.S k) - 1)) t
        (Function.update st.ns (st.S k) (st.ns (st.S k) - 1) t + 1) i = st.ns i := by
    intro i h1 h2
    rw [Function.update_apply, if_neg h2, Function.update_apply, if_neg h1]
  refine ⟨hcnt _ c, fun i j hj hp2 => ?_⟩
  rw [n2s, n2t]
  dsimp only at hp2 ⊢
  have e1 := forLoop_row t (fun j v => FVal.div (FVal.add (FVal.mul v
      (FVal.fin (st.ns t + 1 - 1))) (FVal.fin (pixelVs I h w j k))) (FVal.fin (st.ns t + 1)))
    5 (forLoop 0 (fun j mus => Function.update mus (st.S k * 5 + j)
      (FVal.div (FVal.sub (FVal.mul (mus (st.S k * 5 + j)) (FVal.fin (st.ns (st.S k) - 1 + 1)))
        (FVal.fin (pixelVs I h w j k))) (FVal.fin (st.ns (st.S k) - 1)))) 5 st.mus) (i * 5 + j)
  have e2 := forLoop_row (st.S k) (fun j v => FVal.div (FVal.sub (FVal.mul v
      (FVal.fin (st.ns (st.S k) - 1 + 1))) (FVal.fin (pixelVs I h w j k)))
      (FVal.fin (st.ns (st.S k) - 1))) 5 st.mus (i * 5 + j)
  beta_reduce at e1 e2
  rw [e1, e2, pixelSum_update st.S hk t i]
  by_cases c1 : i = st.S k
  · have c2 : ¬ (t * 5 ≤ i * 5 + j ∧ i * 5 + j < t * 5 + 5) := fun hc =>
      hts (((cell_row_iff hj).mp hc).symm.trans c1)
    have c3 : st.S k * 5 ≤ i * 5 + j ∧ i * 5 + j < st.S k * 5 + 5 := (cell_row_iff hj).mpr c1
    have ej : i * 5 + j - st.S k * 5 = j := by omega
    rw [if_neg c2, if_pos c3, ej, if_pos c1.symm, if_neg (fun e => hts (e.trans c1))]
    rw [c1, n2s] at hp2
    have hps : 0 < st.ns (st.S k) := by linarith
    rw [c1, n2s, hmu (st.S k) j hj hps, fval_mul_fin, fval_sub_fin,
      fval_div_fin _ (ne_of_gt hp2)]
    congr 1
    field_simp
  · have c3 : ¬ (st.S k * 5 ≤ i * 5 + j ∧ i * 5 + j < st.S k * 5 + 5) := fun hc =>
      c1 ((cell_row_iff hj).mp hc)
    by_cases c2 : i = t
    · have c4 : t * 5 ≤ i * 5 + j ∧ i * 5 + j < t * 5 + 5 := (cell_row_iff hj).mpr c2
      have ej : i * 5 + j - t * 5 = j := by omega
      have hne : st.ns t + 1 ≠ 0 := by linarith
      rw [if_pos c4, if_neg c3, ej, if_neg (Ne.symm c1), if_pos c2.symm, c2, n2t,
        hmu t j hj hpos, fval_mul_fin, fval_add_fin, fval_div_fin _ hne]
      congr 1
      field_simp
    · have c4 : ¬ (t * 5 ≤ i * 5 + j ∧ i * 5 + j < t * 5 + 5) := fun hc =>
        c2 ((cell_row_iff hj).mp hc)
      rw [n2o i c1 c2] at hp2
      rw [if_neg c4, if_neg c3, if_neg (Ne.symm c1), if_neg (Ne.symm c2), n2o i c1 c2,
        hmu i j hj hp2, sub_zero, add_zero]

/-- The labels of the four neighbours of a pixel are labels of pixels of the grid. -/
theorem stickyNbr_mem (S : Nat → Nat) {h w x y : Nat} (hx : x < w) (hy : y < h) {v : Nat}
    (hv : v ∈ stickyNbr S h w x y) : ∃ q, q < w * h ∧ S q = v := by
  simp only [stickyNbr, List.mem_cons, List.mem_singleton, List.not_mem_nil, or_false] at hv
  rcases hv with e | e | e | e
  · exact ⟨_, idx_lt (by split_ifs <;> omega) hy, e.symm⟩
  · exact ⟨_, idx_lt (by split_ifs <;> omega) hy, e.symm⟩
  · exact ⟨_, idx_lt hx (by split_ifs <;> omega), e.symm⟩
  · exact ⟨_, idx_lt hx (by split_ifs <;> omega), e.symm⟩

/-- The step of a pass at a pixel keeps the counts equal to those of the label map. -/
theorem stickyPixel_counts {prm : StickyPrm} {I E : Nat → ℚ} {h w m x y : Nat}
    {st st' : StickyState} (hinv : CountInv h w m st) (hx : x < w) (hy : y < h)
    (hst : stickyPixel prm I E h w m x y st = some st') : CountInv h w m st' := by
  have hk : x * h + y < w * h := idx_lt hx hy
  unfold stickyPixel at hst
  dsimp only at hst
  split_ifs at hst with c1 c2 c3
  · cases hst
    exact hinv
  · cases hst
    exact stickyMove_counts hinv hk c2 c3 _ _
  · cases hst
    exact hinv

/-- The step of a pass at a pixel keeps the statistics equal to the counts and the means
of the label map when the label the pixel ends with had a pixel before the step. -/
theorem stickyPixel_stats {prm : StickyPrm} {I E : Nat → ℚ} {h w m x y : Nat}
    {st st' : StickyState} (hinv : StatsInv I h w m st) (hx : x < w) (hy : y < h)
    (hst : stickyPixel prm I E h w m x y st = some st')
    (hpos : 0 < st.ns (st'.S (x * h + y))) : StatsInv I h w m st' := by
  have hk : x * h + y < w * h := idx_lt hx hy
  have hv : stickyVs I h w x y = fun j => pixelVs I h w j (x * h + y) := by
    funext j
    obtain ⟨e1, e2⟩ := @div_mod_idx h x y hy
    rw [pixelVs, e1, e2]
  unfold stickyPixel at hst
  rw [hv] at hst
  dsimp only at hst
  split_ifs at hst with c1 c2 c3
  · cases hst
    exact hinv
  · cases hst
    dsimp only at hpos
    rw [Function.update_same] at hpos
    exact stickyMove_stats hinv hk c2 c3 hpos _
  · cases hst
    exact hinv

/-- The step of a pass at a pixel keeps the statistics equal to the counts and the means
of the label map when the label the pixel ends with is one of its candidates, the labels
of its four neighbours. -/
theorem stickyPixel_stats_candidate {prm : StickyPrm} {I E : Nat → ℚ} {h w m x y : Nat}
    {st st' : StickyState} (hinv : StatsInv I h w m st) (hx : x < w) (hy : y < h)
    (hst : stickyPixel prm I E h w m x y st = some st')
    (hcand : st'.S (x * h + y) ∈ stickyNbr st.S h w x y) : StatsInv I h w m st' := by
  refine stickyPixel_stats hinv hx hy hst ?_
  obtain ⟨q, hq, eq⟩ := stickyNbr_mem st.S hx hy hcand
  rw [hinv.1.2]
  exact lt_of_lt_of_le zero_lt_one (pixelCount_pos hq eq)

/-- Every state of a run of `sticky` has counts equal to those of its label map. -/
theorem stickyReach_counts {prm : StickyPrm} {I E : Nat → ℚ} {S0 : Nat → Nat} {h w : Nat}
    {st : StickyState} (hr : StickyReach prm I E S0 h w st) :
    CountInv h w (labelCount S0 (w * h)) st := by
  induction hr with
  | init => exact (stickyInit_stats S0 I h w).1
  | pixel _ hx hy hst ih => exact stickyPixel_counts ih hx hy hst
  | reset _ ih => exact ih

/-- A pass of `sticky` leads from a state of the run to a state of the run. -/
theorem stickyPass_reach {prm : StickyPrm} {I E : Nat → ℚ} {S0 : Nat → Nat} {h w : Nat}
    {st st' : StickyState} (hr : StickyReach prm I E S0 h w st)
    (hp : stickyPass prm I E h w (labelCount S0 (w * h)) st = some st') :
    StickyReach prm I E S0 h w st' := by
  refine forLoopM_nest_inv (StickyReach prm I E S0 h w) 0 0 w h
    (fun x y => stickyPixel prm I E h w (labelCount S0 (w * h)) x y) _ hr.reset ?_ st' hp
  intro a b t u ha hb ht hu
  rw [Nat.zero_add, Nat.zero_add] at hu
  exact StickyReach.pixel ht ha hb hu

/-- The passes of `sticky` lead from a state of the run to a state of the run. -/
theorem stickyLoop_reach {prm : StickyPrm} {I E : Nat → ℚ} {S0 : Nat → Nat} {h w : Nat}
    (n : Nat) : ∀ {st st' : StickyState}, StickyReach prm I E S0 h w st →
    stickyLoop prm I E h w (labelCount S0 (w * h)) n st = some st' →
    StickyReach prm I E S0 h w st' := by
  induction n with
  | zero =>
    intro st st' hr hl
    cases hl
    exact hr
  | succ n ih =>
    intro st st' hr hl
    rw [stickyLoop] at hl
    split_ifs at hl with hc
    · cases hp : stickyPass prm I E h w (labelCount S0 (w * h)) st with
      | none => rw [hp] at hl; cases hl
      | some u =>
        rw [hp] at hl
        exact ih (stickyPass_reach hr hp) hl
    · cases hl
      exact hr

theorem pixelCount_card (S : Nat → Nat) (n i : Nat) :
    pixelCount S n i = (((Finset.range n).filter (fun p => S p = i)).card : ℚ) := by
  unfold pixelCount pixelSum
  rw [Finset.sum_boole]

theorem pixelSum_filter (S : Nat → Nat) (n i : Nat) (f : Nat → ℚ) :
    pixelSum S n i f = ∑ p in (Finset.range n).filter (fun p => S p = i), f p := by
  unfold pixelSum
  rw [Finset.sum_filter]

theorem pixelCount_total {S : Nat → Nat} {n m : Nat} (hS : ∀ p, p < n → S p < m) :
    ∑ i in Finset.range m, pixelCount S n i = (n : ℚ) := by
  unfold pixelCount pixelSum
  rw [Finset.sum_comm]
  have e : ∀ p ∈ Finset.range n,
      (∑ i in Finset.range m, if S p = i then (1 : ℚ) else 0) = 1 := by
    intro p hp
    rw [Finset.sum_ite_eq, if_pos (Finset.mem_range.mpr (hS p (Finset.mem_range.mp hp)))]
  rw [Finset.sum_congr rfl e]
  simp

/-- In every state of a sequential run of `sticky` (the initial statistics, and the state
after the step at any pixel, reassigned or not), `ns[i]` is the number of pixels that
carry the label `i`, and the counts of the labels `0 .. m-1` sum to `w*h`. -/
theorem sticky_counts_exact (prm : StickyPrm) (I E : Nat → ℚ) (S0 : Nat → Nat) (h w : Nat)
    (st : StickyState) (hr : StickyReach prm I E S0 h w st) :
    (∀ i, st.ns i = (((Finset.range (w * h)).filter (fun p => st.S p = i)).card : ℚ)) ∧
    (∑ i in Finset.range (labelCount S0 (w * h)), st.ns i = ((w * h : Nat) : ℚ)) := by
  obtain ⟨hS, hns⟩ := stickyReach_counts hr
  refine ⟨fun i => ?_, ?_⟩
  · rw [hns i, pixelCount_card]
  · rw [Finset.sum_congr rfl (fun i _ => hns i)]
    exact pixelCount_total hS

/-! ## `sticky`: the choice of the label -/

theorem sentinel_ne (t : Nat) : (t + 1) % 2 ^ 32 ≠ t := by
  norm_num
  omega

/-- When the errors of the four candidates are numbers, `c` of their labels, and the error
of the first candidate `T[0]` is below the start value `1e10` of `dBest`, the loop over
the candidates ends with the first candidate of least error. -/
theorem stickyBest_spec (cost : Nat → FVal) (c : Nat → ℚ) (T : List Nat)
    (hfin : ∀ j, j < 4 → cost (T.getD j 0) = FVal.fin (c (T.getD j 0)))
    (h0 : c (T.getD 0 0) < 10 ^ 10) :
    ∃ i, i < 4 ∧ stickyBest cost T = (T.getD i 0, FVal.fin (c (T.getD i 0))) ∧
      (∀ j, j < 4 → c (T.getD i 0) ≤ c (T.getD j 0)) ∧
      (∀ j, j < i → c (T.getD i 0) < c (T.getD j 0)) := by
  have key := forLoop_inv (fun k (p : Nat × FVal) =>
      (k = 0 ∧ p = ((T.getD 0 0 + 1) % 2 ^ 32, FVal.fin (10 ^ 10))) ∨
      (0 < k ∧ ∃ i, i < k ∧ p = (T.getD i 0, FVal.fin (c (T.getD i 0))) ∧
        (∀ j, j < k → c (T.getD i 0) ≤ c (T.getD j 0)) ∧
        (∀ j, j < i → c (T.getD i 0) < c (T.getD j 0)))) 0
    (fun i (p : Nat × FVal) =>
      if T.getD i 0 = p.1 then p
      else if FVal.lt (cost (T.getD i 0)) p.2 = true then (T.getD i 0, cost (T.getD i 0))
      else p) 4
    ((T.getD 0 0 + 1) % 2 ^ 32, FVal.fin (10 ^ 10)) (Or.inl ⟨rfl, rfl⟩) (by
      intro k p hk hp
      beta_reduce
      rw [Nat.zero_add]
      right
      refine ⟨Nat.succ_pos k, ?_⟩
      rcases hp with ⟨ek, ep⟩ | ⟨hpos, i, hi, ep, hle, hlt⟩
      · subst ek
        subst ep
        have hne : ¬ T.getD 0 0 = (T.getD 0 0 + 1) % 2 ^ 32 := fun e => sentinel_ne _ e.symm
        refine ⟨0, Nat.succ_pos 0, ?_, ?_, ?_⟩
        · show (if T.getD 0 0 = (T.getD 0 0 + 1) % 2 ^ 32 then _ else _) = _
          rw [if_neg hne]
          show (if FVal.lt (cost (T.getD 0 0)) (FVal.fin (10 ^ 10)) = true then _ else _) = _
          rw [hfin 0 hk, if_pos ((fval_lt_fin _ _).mpr h0)]
        · intro j hj
          have ej : j = 0 := by omega
          rw [ej]
        · intro j hj
          omega
      · subst ep
        by_cases c1 : T.getD k 0 = T.getD i 0
        · refine ⟨i, Nat.lt_succ_of_lt hi, ?_, ?_, hlt⟩
          · show (if T.getD k 0 = T.getD i 0 then _ else _) = _
            rw [if_pos c1]
          · intro j hj
            rcases Nat.lt_succ_iff_lt_or_eq.mp hj with hj' | ej
            · exact hle j hj'
            · rw [ej, c1]
        · by_cases c2 : c (T.getD k 0) < c (T.getD i 0)
          · refine ⟨k, Nat.lt_succ_self k, ?_, ?_, ?_⟩
            · show (if T.getD k 0 = T.getD i 0 then _ else _) = _
              rw [if_neg c1]
              show (if FVal.lt (cost (T.getD k 0)) (FVal.fin (c (T.getD i 0))) = true
                then _ else _) = _
              rw [hfin k hk, if_pos ((fval_lt_fin _ _).mpr c2)]
            · intro j hj
              rcases Nat.lt_succ_iff_lt_or_eq.mp hj with hj' | ej
              · exact le_of_lt (lt_of_lt_of_le c2 (hle j hj'))
              · rw [ej]
            · intro j hj
              exact lt_of_lt_of_le c2 (hle j hj)
          · refine ⟨i, Nat.lt_succ_of_lt hi, ?_, ?_, hlt⟩
            · show (if T.getD k 0 = T.getD i 0 then _ else _) = _
              rw [if_neg c1]
              show (if FVal.lt (cost (T.getD k 0)) (FVal.fin (c (T.getD i 0))) = true
                then _ else _) = _
              rw [hfin k hk, if_neg (fun hl => c2 ((fval_lt_fin _ _).mp hl))]
            · intro j hj
              rcases Nat.lt_succ_iff_lt_or_eq.mp hj with hj' | ej
              · exact hle j hj'
              · rw [ej]
                exact not_lt.mp c2)
  rcases key with ⟨e, _⟩ | ⟨_, i, hi, ep, hle, hlt⟩
  · exact absurd e (by decide)
  · exact ⟨i, hi, ep, hle, hlt⟩

/-- The label a pixel has after its step of a pass, when it has a neighbour with another
label, the errors of its candidates are numbers, `c` of their labels, and the error of
the first candidate is below `1e10`: the first candidate of least error among the labels
of the four neighbours. -/
theorem stickyPixel_first_least (prm : StickyPrm) (I E : Nat → ℚ) (h w m x y : Nat)
    (st st' : StickyState) (c : Nat → ℚ)
    (hfin : ∀ j, j < 4 →
      stickyCost prm (stickyNbr st.S h w x y) (stickyEs E h w x y) (stickyVs I h w x y)
        st.ns st.mus ((stickyNbr st.S h w x y).getD j 0) =
      FVal.fin (c ((stickyNbr st.S h w x y).getD j 0)))
    (h0 : c ((stickyNbr st.S h w x y).getD 0 0) < 10 ^ 10)
    (hne : ¬ (st.S (x * h + y) = (stickyNbr st.S h w x y).getD 0 0 ∧
      st.S (x * h + y) = (stickyNbr st.S h w x y).getD 1 0 ∧
      st.S (x * h + y) = (stickyNbr st.S h w x y).getD 2 0 ∧
      st.S (x * h + y) = (stickyNbr st.S h w x y).getD 3 0))
    (hst : stickyPixel prm I E h w m x y st = some st') :
    ∃ i, i < 4 ∧ st'.S (x * h + y) = (stickyNbr st.S h w x y).getD i 0 ∧
      (∀ j, j < 4 → c ((stickyNbr st.S h w x y).getD i 0) ≤
        c ((stickyNbr st.S h w x y).getD j 0)) ∧
      (∀ j, j < i → c ((stickyNbr st.S h w x y).getD i 0) <
        c ((stickyNbr st.S h w x y).getD j 0)) := by
  obtain ⟨i, hi, eb, hle, hlt⟩ := stickyBest_spec _ c _ hfin h0
  refine ⟨i, hi, ?_, hle, hlt⟩
  unfold stickyPixel at hst
  dsimp only at hst
  rw [if_neg hne, eb] at hst
  dsimp only at hst
  split_ifs at hst with c2 c3
  · cases hst
    exact Function.update_same _ _ _
  · cases hst
    exact (not_not.mp c2).symm

/-! ## `sticky`: evaluations -/

/-- C18.  On the `1 × 2` map `1 3` with `sigs = 2e10` and the other weights `0`, the
pixel `0` has the candidates `1 3 1 1`, each with the error `2e10`, and `sticky` leaves it
with the label `2`, the start value `T[0]+1` of `sBest`, which is the label of none of its
neighbours; on the map `1 0` the start value is `2`, past the end of `ns` and `mus`. -/
theorem sticky_sentinel_label :
    stickyNbr (ofList [1, 3]) 1 2 0 0 = [1, 3, 1, 1] ∧
    [1, 3].map (fun t => FVal.toRat (stickyCost ⟨1, 2 * 10 ^ 10, 0, 0, 0⟩ [1, 3, 1, 1]
        (stickyEs (fun _ => 0) 1 2 0 0) (stickyVs (fun _ => 0) 1 2 0 0)
        (stickyInit (ofList [1, 3]) (fun _ => 0) 1 2).ns
        (stickyInit (ofList [1, 3]) (fun _ => 0) 1 2).mus t)) =
      [some (2 * 10 ^ 10), some (2 * 10 ^ 10)] ∧
    (sticky (ofList [1, 3]) (fun _ => 0) (fun _ => 0) 1 2 ⟨1, 2 * 10 ^ 10, 0, 0, 0⟩).map
      (toList 2) = some [2, 3] ∧
    (sticky (ofList [1, 0]) (fun _ => 0) (fun _ => 0) 1 2 ⟨1, 2 * 10 ^ 10, 0, 0, 0⟩).map
      (toList 2) = none := by
  decide!

/-- C14.  On the `4 × 4` map of four quadrants labelled `1` (top left), `2` (top right),
`3` (bottom left) and `4` (bottom right) with the features `0`, `100000`, `1` and `100001`
on them, edge strength `1/2` and the weights `sigs = 0`, `sigx = 1`, `sige = 0`,
`sigc = 1`, one pass of `sticky` moves the pixel `(2, 1)` from the label `2` to the label
`4`: its candidates are `1 2 2 4` with the errors `3e10 + 5/2`, `1/2`, `1/2` and `11/2`. -/
theorem sticky_quadrants_label_moved :
    stickyNbr (ofList [1, 1, 3, 3, 1, 1, 3, 3, 2, 2, 4, 4, 2, 2, 4, 4]) 4 4 2 1 =
      [1, 2, 2, 4] ∧
    [1, 2, 2, 4].map (fun t => FVal.toRat (stickyCost ⟨1, 0, 1, 0, 1⟩ [1, 2, 2, 4]
        (stickyEs (fun _ => 1 / 2) 4 4 2 1)
        (stickyVs (fun i => ofListQ [0, 0, 1, 1, 0, 0, 1, 1, 100000, 100000, 100001, 100001,
          100000, 100000, 100001, 100001] (i % 16)) 4 4 2 1)
        (stickyInit (ofList [1, 1, 3, 3, 1, 1, 3, 3, 2, 2, 4, 4, 2, 2, 4, 4])
          (fun i => ofListQ [0, 0, 1, 1, 0, 0, 1, 1, 100000, 100000, 100001, 100001,
            100000, 100000, 100001, 100001] (i % 16)) 4 4).ns
        (stickyInit (ofList [1, 1, 3, 3, 1, 1, 3, 3, 2, 2, 4, 4, 2, 2, 4, 4])
          (fun i => ofListQ [0, 0, 1, 1, 0, 0, 1, 1, 100000, 100000, 100001, 100001,
            100000, 100000, 100001, 100001] (i % 16)) 4 4).mus t)) =
      [some (3 * 10 ^ 10 + 5 / 2), some (1 / 2), some (1 / 2), some (11 / 2)] ∧
    (sticky (ofList [1, 1, 3, 3, 1, 1, 3, 3, 2, 2, 4, 4, 2, 2, 4, 4])
      (fun i => ofListQ [0, 0, 1, 1, 0, 0, 1, 1, 100000, 100000, 100001, 100001,
        100000, 100000, 100001, 100001] (i % 16)) (fun _ => 1 / 2) 4 4
      ⟨1, 0, 1, 0, 1⟩).map (toList 16) =
    some [1, 1, 3, 3, 1, 1, 3, 3, 2, 4, 4, 4, 2, 2, 4, 4] := by
  decide!

/-- C19.  On the `1 × 2` map `1 3` with `sigs = 2e10` and the other weights `0`, the label
`2` has no pixel at the start and its five means are `0/0 = NaN`.  The step at the pixel
`0` gives it the label `2`, the start value `T[0]+1` of `sBest`, and it is the only
reassignment of the run: after it, and at the end of the run, `ns[2] = 1` and the counts
are those of the label map `2 3`, but the five means of the label `2` are
`NaN*0 + v = NaN` and not the vector `v = 0` of its only pixel. -/
theorem sticky_means_nan :
    (stickyInit (ofList [1, 3]) (fun _ => 0) 1 2).ns 2 = 0 ∧
    (List.range 5).map (fun j => FVal.isNaN
      ((stickyInit (ofList [1, 3]) (fun _ => 0) 1 2).mus (2 * 5 + j))) =
      [true, true, true, true, true] ∧
    (stickyPixel ⟨1, 2 * 10 ^ 10, 0, 0, 0⟩ (fun _ => 0) (fun _ => 0) 1 2
      (labelCount (ofList [1, 3]) (2 * 1)) 0 0
      (stickyInit (ofList [1, 3]) (fun _ => 0) 1 2)).map (fun st =>
        (toList 2 st.S, (List.range 4).map st.ns,
          (List.range 5).map (fun j => FVal.isNaN (st.mus (2 * 5 + j))))) =
      some ([2, 3], [0, 0, 1, 1], [true, true, true, true, true]) ∧
    (stickyLoop ⟨1, 2 * 10 ^ 10, 0, 0, 0⟩ (fun _ => 0) (fun _ => 0) 1 2
      (labelCount (ofList [1, 3]) (2 * 1)) 1
      (stickyInit (ofList [1, 3]) (fun _ => 0) 1 2)).map (fun st =>
        (toList 2 st.S, (List.range 4).map st.ns, st.changed,
          (List.range 5).map (fun j => FVal.isNaN (st.mus (2 * 5 + j))))) =
      some ([2, 3], [0, 0, 1, 1], 1, [true, true, true, true, true]) ∧
    (List.range 5).map (fun j => pixelVs (fun _ => 0) 1 2 j 0) = [0, 0, 0, 0, 0] := by
  decide!

/-! ## `sticky` on four quadrants -/

theorem quad_lt {p : Nat} (hp : p < 16) : quad p < 4 := by
  unfold quad
  omega

/-- The sum over the pixels of one quadrant. -/
theorem quad_sum {L : Nat → Nat} {F : Nat → Nat → ℚ} {S : Nat → Nat} {I : Nat → ℚ}
    (hq : QuadInput L F S I) (f : Nat → ℚ) {q : Nat} (hlt : q < 4) :
    pixelSum S (4 * 4) (L q) f =
      f (8 * (q / 2) + 2 * (q % 2)) + f (8 * (q / 2) + 2 * (q % 2) + 1) +
      f (8 * (q / 2) + 2 * (q % 2) + 4) + f (8 * (q / 2) + 2 * (q % 2) + 5) := by
  obtain ⟨hL, hS, _⟩ := hq
  have e : pixelSum S (4 * 4) (L q) f =
      ∑ p in Finset.range 16, if quad p = q then f p else 0 := by
    unfold pixelSum
    refine Finset.sum_congr rfl (fun p hp => ?_)
    have hp16 : p < 16 := Finset.mem_range.mp hp
    rw [hS p hp16]
    by_cases c : quad p = q
    · rw [if_pos c, if_pos (congrArg L c)]
    · rw [if_neg c, if_neg (fun e => c (hL _ _ (quad_lt hp16) hlt e))]
  rw [e]
  interval_cases q <;> simp [Finset.sum_range_succ, quad]

/-- The statistics a state of `sticky` has on the four quadrants: four pixels each, and
the means of the quadrant. -/
theorem quad_init_stats {L : Nat → Nat} {F : Nat → Nat → ℚ} {S : Nat → Nat} {I : Nat → ℚ}
    (hq : QuadInput L F S I) {q : Nat} (hlt : q < 4) :
    (stickyInit S I 4 4).ns (L q) = 4 ∧
      ∀ j, j < 5 → (stickyInit S I 4 4).mus (L q * 5 + j) = FVal.fin (quadMean F q j) := by
  obtain ⟨⟨_, hns⟩, hmu⟩ := stickyInit_stats S I 4 4
  have hS : (stickyInit S I 4 4).S = S := rfl
  rw [hS] at hns hmu
  have h4 : (stickyInit S I 4 4).ns (L q) = 4 := by
    rw [hns, pixelCount, quad_sum hq _ hlt]
    norm_num
  refine ⟨h4, fun j hj => ?_⟩
  rw [hmu (L q) j hj (by rw [h4]; norm_num), h4, quad_sum hq _ hlt]
  congr 1
  have hI := hq.2.2
  have e0 := hI (j - 2) (8 * (q / 2) + 2 * (q % 2))
  have e1 := hI (j - 2) (8 * (q / 2) + 2 * (q % 2) + 1)
  have e4 := hI (j - 2) (8 * (q / 2) + 2 * (q % 2) + 4)
  have e5 := hI (j - 2) (8 * (q / 2) + 2 * (q % 2) + 5)
  interval_cases q <;> interval_cases j <;>
    simp [pixelVs, stickyVs, quadMean, quad] at e0 e1 e4 e5 ⊢ <;>
    linarith

theorem quad_vs {L : Nat → Nat} {F : Nat → Nat → ℚ} {S : Nat → Nat} {I : Nat → ℚ}
    (hq : QuadInput L F S I) {x y : Nat} (hx : x < 4) (hy : y < 4) :
    stickyVs I 4 4 x y 0 = (x : ℚ) ∧ stickyVs I 4 4 x y 1 = (y : ℚ) ∧
    stickyVs I 4 4 x y 2 = F 0 (quad (x * 4 + y)) ∧
    stickyVs I 4 4 x y 3 = F 1 (quad (x * 4 + y)) ∧
    stickyVs I 4 4 x y 4 = F 2 (quad (x * 4 + y)) := by
  have hI := hq.2.2
  have hp : x * 4 + y < 16 := by omega
  refine ⟨rfl, rfl, ?_, ?_, ?_⟩
  · rw [← hI 0 _ (by decide) hp]
    simp [stickyVs]
  · rw [← hI 1 _ (by decide) hp]
    simp only [stickyVs]
    norm_num
    congr 1
    omega
  · rw [← hI 2 _ (by decide) hp]
    simp only [stickyVs]
    norm_num
    congr 1
    omega

/-- The error of the label of the quadrant `q` at the pixel `(x, y)`, with the weights
`sigs = 0`, `sigx = 1`, `sige = 0`, `sigc = 1` and the means of the quadrants. -/
theorem quad_cost {L : Nat → Nat} {F : Nat → Nat → ℚ} {S : Nat → Nat} {I : Nat → ℚ}
    (hq : QuadInput L F S I) (n : Nat) (T : List Nat) (es : List ℚ) (ns : Nat → ℚ)
    (mus : Nat → FVal) {x y q : Nat} (hx : x < 4) (hy : y < 4) (hns : ns (L q) ≠ 0)
    (hmus : ∀ j, j < 5 → mus (L q * 5 + j) = FVal.fin (quadMean F q j)) :
    stickyCost ⟨n, 0, 1, 0, 1⟩ T es (stickyVs I 4 4 x y) ns mus (L q) =
      FVal.fin ((quadMean F q 0 - x) ^ 2 + (quadMean F q 1 - y) ^ 2 +
      ((F 0 q - F 0 (quad (x * 4 + y))) ^ 2 + (F 1 q - F 1 (quad (x * 4 + y))) ^ 2 +
        (F 2 q - F 2 (quad (x * 4 + y))) ^ 2)) := by
  obtain ⟨v0, v1, v2, v3, v4⟩ := quad_vs hq hx hy
  have m0 := hmus 0 (by decide)
  have m1 := hmus 1 (by decide)
  have m2 := hmus 2 (by decide)
  have m3 := hmus 3 (by decide)
  have m4 := hmus 4 (by decide)
  have f2 : quadMean F q 2 = F 0 q := rfl
  have f3 : quadMean F q 3 = F 1 q := rfl
  have f4 : quadMean F q 4 = F 2 q := rfl
  simp only [stickyCost]
  rw [m0, m1, m2, m3, m4, v0, v1, v2, v3, v4, f2, f3, f4]
  simp only [fval_sub_fin, fval_mul_fin, fval_add_fin, fval_div_fin _ hns]
  congr 1
  ring

theorem quad_pos (F : Nat → Nat → ℚ) {x y q : Nat} (hx : x < 4) (hy : y < 4) (hlt : q < 4) :
    (q = quad (x * 4 + y) → (quadMean F q 0 - x) ^ 2 + (quadMean F q 1 - y) ^ 2 = 1 / 2) ∧
    (q ≠ quad (x * 4 + y) → 5 / 2 ≤ (quadMean F q 0 - x) ^ 2 + (quadMean F q 1 - y) ^ 2) ∧
    (quadMean F q 0 - x) ^ 2 + (quadMean F q 1 - y) ^ 2 ≤ 25 / 2 := by
  interval_cases x <;> interval_cases y <;> interval_cases q <;> norm_num [quadMean, quad]

/-- The labels of the four neighbours of a pixel of the four quadrants. -/
theorem quad_nbr {L : Nat → Nat} {S : Nat → Nat} (hS : ∀ p, p < 16 → S p = L (quad p))
    {x y : Nat} (hx : x < 4) (hy : y < 4) :
    (∀ j, j < 4 → ∃ q, q < 4 ∧ (stickyNbr S 4 4 x y).getD j 0 = L q) ∧
    ∃ i, i < 4 ∧ (stickyNbr S 4 4 x y).getD i 0 = L (quad (x * 4 + y)) := by
  have e0 : S ((if x > 0 then x - 1 else x) * 4 + y) =
      L (quad ((if x > 0 then x - 1 else x) * 4 + y)) := hS _ (by split_ifs <;> omega)
  have e1 : S ((if x < 4 - 1 then x + 1 else x) * 4 + y) =
      L (quad ((if x < 4 - 1 then x + 1 else x) * 4 + y)) := hS _ (by split_ifs <;> omega)
  have e2 : S (x * 4 + (if y > 0 then y - 1 else y)) =
      L (quad (x * 4 + (if y > 0 then y - 1 else y))) := hS _ (by split_ifs <;> omega)
  have e3 : S (x * 4 + (if y < 4 - 1 then y + 1 else y)) =
      L (quad (x * 4 + (if y < 4 - 1 then y + 1 else y))) := hS _ (by split_ifs <;> omega)
  have hT : stickyNbr S 4 4 x y =
      [L (quad ((if x > 0 then x - 1 else x) * 4 + y)),
       L (quad ((if x < 4 - 1 then x + 1 else x) * 4 + y)),
       L (quad (x * 4 + (if y > 0 then y - 1 else y))),
       L (quad (x * 4 + (if y < 4 - 1 then y + 1 else y)))] := by
    simp only [stickyNbr]
    rw [e0, e1, e2, e3]
  rw [hT]
  constructor
  · intro j hj
    interval_cases j
    · exact ⟨_, quad_lt (by split_ifs <;> omega), rfl⟩
    · exact ⟨_, quad_lt (by split_ifs <;> omega), rfl⟩
    · exact ⟨_, quad_lt (by split_ifs <;> omega), rfl⟩
    · exact ⟨_, quad_lt (by split_ifs <;> omega), rfl⟩
  · have hown : quad ((if x > 0 then x - 1 else x) * 4 + y) = quad (x * 4 + y) ∨
        quad ((if x < 4 - 1 then x + 1 else x) * 4 + y) = quad (x * 4 + y) := by
      unfold quad
      split_ifs <;> omega
    rcases hown with e | e
    · exact ⟨0, by decide, congrArg L e⟩
    · exact ⟨1, by decide, congrArg L e⟩

/-- On the four quadrants, with bounded differences of the features, the step of a pass
leaves the state as it is at every pixel. -/
theorem quad_pixel_fixed {L : Nat → Nat} {F : Nat → Nat → ℚ} {S : Nat → Nat} {I : Nat → ℚ}
    (hq : QuadInput L F S I)
    (hF : ∀ a b, a < 4 → b < 4 →
      (F 0 a - F 0 b) ^ 2 + (F 1 a - F 1 b) ^ 2 + (F 2 a - F 2 b) ^ 2 < 10 ^ 10 - 25 / 2)
    (n : Nat) (E : Nat → ℚ) (m : Nat) (st : StickyState) (hS : st.S = S)
    (hns : ∀ q, q < 4 → st.ns (L q) = 4)
    (hmus : ∀ q, q < 4 → ∀ j, j < 5 → st.mus (L q * 5 + j) = FVal.fin (quadMean F q j))
    {x y : Nat} (hx : x < 4) (hy : y < 4) :
    stickyPixel ⟨n, 0, 1, 0, 1⟩ I E 4 4 m x y st = some st := by
  have hSq : ∀ p, p < 16 → st.S p = L (quad p) := fun p hp => by rw [hS]; exact hq.2.1 p hp
  have hp : x * 4 + y < 16 := by omega
  have hqp := quad_lt hp
  obtain ⟨hT, i0, hi0, eown⟩ := quad_nbr hSq hx hy
  have hcost : ∀ q, q < 4 →
      stickyCost ⟨n, 0, 1, 0, 1⟩ (stickyNbr st.S 4 4 x y) (stickyEs E 4 4 x y)
        (stickyVs I 4 4 x y) st.ns st.mus (L q) =
      FVal.fin ((quadMean F q 0 - x) ^ 2 + (quadMean F q 1 - y) ^ 2 +
      ((F 0 q - F 0 (quad (x * 4 + y))) ^ 2 + (F 1 q - F 1 (quad (x * 4 + y))) ^ 2 +
        (F 2 q - F 2 (quad (x * 4 + y))) ^ 2)) := fun q hlt =>
    quad_cost hq n _ _ st.ns st.mus hx hy (by rw [hns q hlt]; norm_num) (hmus q hlt)
  have hc : ∀ q, q < 4 →
      (FVal.toRat (stickyCost ⟨n, 0, 1, 0, 1⟩ (stickyNbr st.S 4 4 x y) (stickyEs E 4 4 x y)
        (stickyVs I 4 4 x y) st.ns st.mus (L q))).getD 0 =
      (quadMean F q 0 - x) ^ 2 + (quadMean F q 1 - y) ^ 2 +
      ((F 0 q - F 0 (quad (x * 4 + y))) ^ 2 + (F 1 q - F 1 (quad (x * 4 + y))) ^ 2 +
        (F 2 q - F 2 (quad (x * 4 + y))) ^ 2) := fun q hlt => by
    rw [hcost q hlt]
    rfl
  have hub : ∀ q, q < 4 →
      (FVal.toRat (stickyCost ⟨n, 0, 1, 0, 1⟩ (stickyNbr st.S 4 4 x y) (stickyEs E 4 4 x y)
        (stickyVs I 4 4 x y) st.ns st.mus (L q))).getD 0 < 10 ^ 10 := by
    intro q hlt
    rw [hc q hlt]
    have h1 := (quad_pos F hx hy hlt).2.2
    have h2 := hF q (quad (x * 4 + y)) hlt hqp
    linarith
  have hownc : (FVal.toRat (stickyCost ⟨n, 0, 1, 0, 1⟩ (stickyNbr st.S 4 4 x y)
      (stickyEs E 4 4 x y) (stickyVs I 4 4 x y) st.ns st.mus (L (quad (x * 4 + y))))).getD 0 =
      1 / 2 := by
    rw [hc _ hqp, (quad_pos F hx hy hqp).1 rfl]
    ring
  have hother : ∀ q, q < 4 → q ≠ quad (x * 4 + y) →
      5 / 2 ≤ (FVal.toRat (stickyCost ⟨n, 0, 1, 0, 1⟩ (stickyNbr st.S 4 4 x y)
        (stickyEs E 4 4 x y) (stickyVs I 4 4 x y) st.ns st.mus (L q))).getD 0 := by
    intro q hlt hne
    rw [hc q hlt]
    have h1 := (quad_pos F hx hy hlt).2.1 hne
    have h2 : 0 ≤ (F 0 q - F 0 (quad (x * 4 + y))) ^ 2 + (F 1 q - F 1 (quad (x * 4 + y))) ^ 2 +
        (F 2 q - F 2 (quad (x * 4 + y))) ^ 2 := by positivity
    linarith
  have hbest : (stickyBest (stickyCost ⟨n, 0, 1, 0, 1⟩ (stickyNbr st.S 4 4 x y)
      (stickyEs E 4 4 x y) (stickyVs I 4 4 x y) st.ns st.mus) (stickyNbr st.S 4 4 x y)).1 =
      st.S (x * 4 + y) := by
    obtain ⟨q0, hq0, e0⟩ := hT 0 (by decide)
    obtain ⟨i, hi, eb, hle, _⟩ := stickyBest_spec
      (stickyCost ⟨n, 0, 1, 0, 1⟩ (stickyNbr st.S 4 4 x y) (stickyEs E 4 4 x y)
        (stickyVs I 4 4 x y) st.ns st.mus)
      (fun t => (FVal.toRat (stickyCost ⟨n, 0, 1, 0, 1⟩ (stickyNbr st.S 4 4 x y)
        (stickyEs E 4 4 x y) (stickyVs I 4 4 x y) st.ns st.mus t)).getD 0)
      (stickyNbr st.S 4 4 x y)
      (fun j hj => by
        obtain ⟨qj, hqj, ej⟩ := hT j hj
        rw [ej]
        beta_reduce
        rw [hc qj hqj, hcost qj hqj])
      (by rw [e0]; exact hub q0 hq0)
    rw [eb, hSq _ hp]
    obtain ⟨qi, hqi, ei⟩ := hT i hi
    show (stickyNbr st.S 4 4 x y).getD i 0 = _
    rw [ei]
    by_cases c : qi = quad (x * 4 + y)
    · rw [c]
    · exfalso
      have h1 := hle i0 hi0
      rw [ei, eown] at h1
      have h3 : (FVal.toRat (stickyCost ⟨n, 0, 1, 0, 1⟩ (stickyNbr st.S 4 4 x y)
          (stickyEs E 4 4 x y) (stickyVs I 4 4 x y) st.ns st.mus (L qi))).getD 0 ≤ 1 / 2 := by
        rw [← hownc]
        exact h1
      have h2 := hother qi hqi c
      linarith
  unfold stickyPixel
  dsimp only
  split_ifs with c1 c2 c3
  · rfl
  · exact absurd hbest c2
  · exact absurd hbest c2
  · rfl

theorem quad_pass_fixed {L : Nat → Nat} {F : Nat → Nat → ℚ} {S : Nat → Nat} {I : Nat → ℚ}
    (hq : QuadInput L F S I)
    (hF : ∀ a b, a < 4 → b < 4 →
      (F 0 a - F 0 b) ^ 2 + (F 1 a - F 1 b) ^ 2 + (F 2 a - F 2 b) ^ 2 < 10 ^ 10 - 25 / 2)
    (n : Nat) (E : Nat → ℚ) (m : Nat) (st : StickyState) (hS : st.S = S)
    (hns : ∀ q, q < 4 → st.ns (L q) = 4)
    (hmus : ∀ q, q < 4 → ∀ j, j < 5 → st.mus (L q * 5 + j) = FVal.fin (quadMean F q j)) :
    stickyPass ⟨n, 0, 1, 0, 1⟩ I E 4 4 m st = some { st with changed := 0 } := by
  unfold stickyPass
  refine forLoopM_const 0 _ 4 _ (fun x hx => forLoopM_const 0 _ 4 _ (fun y hy => ?_))
  rw [Nat.zero_add, Nat.zero_add]
  exact quad_pixel_fixed hq hF n E m { st with changed := 0 } hS hns hmus hx hy

/-- On a `4 × 4` map of four `2 × 2` quadrants with pairwise distinct labels and an image
constant on each quadrant, whose squared differences between two quadrants sum to less
than `1e10 - 12.5` over the three channels, `sticky` with the weights `sigs = 0`,
`sigx = 1`, `sige = 0`, `sigc = 1` returns the label map unchanged, for every edge map
and every cap on the number of passes. -/
theorem sticky_quadrants_fixed (L : Nat → Nat) (F : Nat → Nat → ℚ) (S : Nat → Nat)
    (I E : Nat → ℚ) (n : Nat) (hq : QuadInput L F S I)
    (hF : ∀ a b, a < 4 → b < 4 →
      (F 0 a - F 0 b) ^ 2 + (F 1 a - F 1 b) ^ 2 + (F 2 a - F 2 b) ^ 2 < 10 ^ 10 - 25 / 2) :
    sticky S I E 4 4 ⟨n, 0, 1, 0, 1⟩ = some S := by
  have hmus : ∀ q, q < 4 → ∀ j, j < 5 →
      (stickyInit S I 4 4).mus (L q * 5 + j) = FVal.fin (quadMean F q j) := fun q hlt =>
    (quad_init_stats hq hlt).2
  have hns : ∀ q, q < 4 → (stickyInit S I 4 4).ns (L q) = 4 := fun q hlt =>
    (quad_init_stats hq hlt).1
  have hpass := quad_pass_fixed hq hF n E (labelCount S (4 * 4)) (stickyInit S I 4 4) rfl
    hns hmus
  unfold sticky
  cases n with
  | zero => rfl
  | succ k =>
    have hc : (stickyInit S I 4 4).changed ≠ 0 := Nat.one_ne_zero
    show Option.map _ (stickyLoop _ I E 4 4 _ (k + 1) _) = _
    rw [stickyLoop, if_pos hc, hpass, Option.some_bind]
    cases k with
    | zero => rfl
    | succ k2 =>
      rw [stickyLoop, if_neg (by simp)]
      rfl

/-- The quadrants labelled `1, 2` in the columns `0, 1` and `3, 4` in the columns `2, 3`,
with the features `0, 1, 2, 3` on them, are left unchanged by `sticky`, whatever the
edge map and the cap on the number of passes. -/
theorem sticky_quadrants_fixed_example (E : Nat → ℚ) (n : Nat) :
    sticky (fun p => quad p + 1) (fun i => (quad (i % 16) : ℚ)) E 4 4 ⟨n, 0, 1, 0, 1⟩ =
      some (fun p => quad p + 1) := by
  refine sticky_quadrants_fixed (fun q => q + 1) (fun _ q => (q : ℚ)) _ _ E n
    ⟨fun a b _ _ e => Nat.succ.inj e, fun p _ => rfl, fun c p _ hp => ?_⟩ ?_
  · have e : (c * 16 + p) % 16 = p := by omega
    show ((quad ((c * 16 + p) % 16) : Nat) : ℚ) = _
    rw [e]
  · intro a b ha hb
    interval_cases a <;> interval_cases b <;> norm_num

end Edges
